import Mathlib

/-!
# dbcc, C++ back end (`2cpp.c`): the signal codec

`2cpp.c` is a code generator: from a signal descriptor (`signal_t`) it prints the C
statements that pack and unpack that signal.  The development below embeds, for each
generator function, the meaning of the statements it prints as a function of the
descriptor (known when the code is generated) and of the run-time operands.

Conventions of the embedding.

* `uint64_t` values are naturals below `2 ^ 64`; every operation that can leave that
  range is reduced `% 2 ^ 64` explicitly.  `unsigned` values are naturals below `2 ^ 32`.
* A shift whose count is not below the width of its operand is undefined in C; the
  embedding returns `none` there.
* A finite `float` or `double` value is the rational it denotes.  The formats are
  IEEE-754 binary32 and binary64, an operation is carried out in the type that C gives
  it (`FLT_EVAL_METHOD` 0) and its exact result is rounded to that type, to nearest
  with ties to even (`round_float`, `round_double`).  Where the exact result of an
  operation on `double` operands is always a `double` again (a multiplication or a
  division by a power of two that stays in the normal range, the subtraction
  `fnorm - 1.0` in `[1, 2)`), the embedding writes the exact operation.
* A constant printed with `%g` has six significant digits (`fmt_g`); the C compiler
  reads the printed text as the nearest `double`.
* The conversion of a `float` or `double` to an integer type truncates toward zero and
  is undefined when the truncated value is outside the range of the type; an
  undefined conversion and an operation that overflows to an infinity give `none`.
* `1uL` is taken to be 64 bits wide (LP64).
-/

namespace Dbcc

/-! ## Data model -/

/-- Modelled from the spec: the enumeration behind `signal_t.endianess` is declared in
can.h, which is not among the sources; 2cpp.c compares the field with
`endianess_motorola_e`, and section 3 gives the two byte orders. -/
inductive endianess_e where
  | endianess_motorola_e
  | endianess_intel_e
  deriving DecidableEq, Repr

/-- Modelled from the spec: `signal_t` is declared in can.h, which is not among the
sources; these are the fields that 2cpp.c reads (spec section 3, Signal), a
`double` field holding the rational that its value denotes. -/
structure signal_t where
  start_bit : ℕ
  bit_length : ℕ
  endianess : endianess_e
  is_signed : Bool
  is_floating : Bool
  scaling : ℚ
  offset : ℚ
  minimum : ℚ
  maximum : ℚ
  deriving DecidableEq, Repr

/-- The C types whose names the generator prints. -/
inductive ctype where
  | uint8_t | uint16_t | uint32_t | uint64_t
  | int8_t | int16_t | int32_t | int64_t
  | float | double
  deriving DecidableEq, Repr

/-- Width in bits of a printed C type. -/
def ctype.width : ctype → ℕ
  | .uint8_t => 8 | .uint16_t => 16 | .uint32_t => 32 | .uint64_t => 64
  | .int8_t => 8 | .int16_t => 16 | .int32_t => 32 | .int64_t => 64
  | .float => 32 | .double => 64

/-- Conversion of an integer to a C integer type: reduction modulo `2 ^ width`, read
as two's complement for the signed types.  (`float` and `double` hold it unchanged.) -/
def ctype.convert (t : ctype) (x : ℤ) : ℤ :=
  match t with
  | .uint8_t | .uint16_t | .uint32_t | .uint64_t => x % 2 ^ t.width
  | .int8_t | .int16_t | .int32_t | .int64_t =>
    if x % 2 ^ t.width < 2 ^ (t.width - 1) then x % 2 ^ t.width
    else x % 2 ^ t.width - 2 ^ t.width
  | .float | .double => x

/-! ## C arithmetic: rounding to `float` and `double`, constants printed with `%g` -/

/-- Conversion of a `float` or `double` to an integer type: truncation toward zero. -/
def c_trunc (q : ℚ) : ℤ :=
  if 0 ≤ q then ⌊q⌋ else ⌈q⌉

/-- The integer nearest to `q`, the even one of the two when `q` lies halfway. -/
def round_half_even (q : ℚ) : ℤ :=
  if q - ⌊q⌋ < 1 / 2 then ⌊q⌋
  else if 1 / 2 < q - ⌊q⌋ then ⌊q⌋ + 1
  else if ⌊q⌋ % 2 = 0 then ⌊q⌋ else ⌊q⌋ + 1

/-- Rounding to the nearest value of the binary floating-point format with `p`
significant bits whose least normal exponent is `emin`, ties to even.  Below
`2 ^ emin` the values of the format are the multiples of `2 ^ (emin - (p - 1))`
(subnormals).  The exponent is not bounded above here: a result of magnitude
`2 ^ 128` (`float`) or `2 ^ 1024` (`double`) and beyond stands for an overflow. -/
def round_binary (p : ℕ) (emin : ℤ) (q : ℚ) : ℚ :=
  if q = 0 then 0
  else
    let e := max (Int.log 2 |q|) emin
    let ulp : ℚ := 2 ^ (e - ((p : ℤ) - 1))
    (round_half_even (q / ulp) : ℚ) * ulp

/-- Rounding to `float` (IEEE-754 binary32). -/
def round_float (q : ℚ) : ℚ :=
  round_binary 24 (-126) q

/-- Rounding to `double` (IEEE-754 binary64). -/
def round_double (q : ℚ) : ℚ :=
  round_binary 53 (-1022) q

/-- The number that the text printed by `fprintf` with `%g` denotes: the `double` `q`
rounded to six significant decimal digits (the style, fixed or exponent, and the
removal of trailing zeros do not change the number). -/
def fmt_g (q : ℚ) : ℚ :=
  if q = 0 then 0
  else
    let x := Int.log 10 |q|
    let unit : ℚ := 10 ^ (x - 5)
    (round_half_even (q / unit) : ℚ) * unit

/-- The value of the constant that the generated code has where the generator printed
`x` with `%g`: the compiler reads the text as the nearest `double`. -/
def c_const (x : ℚ) : ℚ :=
  round_double (fmt_g x)

/-- Whether the text printed with `%g` for `x` is an integer constant: `%g` prints an
integral value below `10 ^ 6` in magnitude without a point and without an exponent,
and C reads that as an `int` (of the same value as `c_const x`). -/
def c_const_is_int (x : ℚ) : Bool :=
  decide ((fmt_g x).den = 1) && decide (|fmt_g x| < 10 ^ 6)

/-! ## Float codec (`pack754`, `unpack754`) -/

/-- The values of a C `double`: not-a-number, the two infinities, the two zeros, and
the finite nonzero values, each the rational it denotes. -/
inductive c_double where
  | nan
  | inf (negative : Bool)
  | zero (negative : Bool)
  | finite (q : ℚ)
  deriving DecidableEq, Repr

/-- The bit pattern of a `long long` as a `uint64_t`. -/
def to_u64 (x : ℤ) : ℕ :=
  (x % 2 ^ 64).toNat

/-- `a << c` on an `unsigned long long`, for a count below 64. -/
def shl_u64 (a c : ℕ) : ℕ :=
  (a <<< c) % 2 ^ 64

/-- `a - b` on an `unsigned long long`. -/
def sub_u64 (a b : ℕ) : ℕ :=
  (a % 2 ^ 64 + (2 ^ 64 - b % 2 ^ 64)) % 2 ^ 64

/-- The loop `while (fnorm >= 2.0) { fnorm /= 2.0; shift++; }` of `pack754`
(line 93), run for at most `fuel` iterations. -/
def normalize_down : ℕ → ℚ → ℤ → ℚ × ℤ
  | 0, fnorm, shift => (fnorm, shift)
  | fuel + 1, fnorm, shift =>
    if fnorm ≥ 2 then normalize_down fuel (fnorm / 2) (shift + 1) else (fnorm, shift)

/-- The loop `while (fnorm < 1.0) { fnorm *= 2.0; shift--; }` of `pack754`
(line 94), run for at most `fuel` iterations. -/
def normalize_up : ℕ → ℚ → ℤ → ℚ × ℤ
  | 0, fnorm, shift => (fnorm, shift)
  | fuel + 1, fnorm, shift =>
    if fnorm < 1 then normalize_up fuel (fnorm * 2) (shift - 1) else (fnorm, shift)

/-- The significand that `pack754` computes (lines 86-100) for a finite nonzero `f`:
normalise `|f|` into `[1, 2)`, subtract 1, multiply by `(1LL << significandbits) +
0.5f` and convert to `long long`.  The sum `(1LL << significandbits) + 0.5f` is a
`float` addition (the `long long`, a power of two, converts to `float` unchanged): its
result is the exact sum rounded to `float`, which for 23 and 52 significand bits is
the power of two itself, so that the product with the `double` `fnorm` is exact.  The
numerator of `|f|` bounds the iterations of the first loop and the denominator those
of the second. -/
def pack754_significand (f : ℚ) (bits expbits : ℕ) : ℤ :=
  let fnorm := if f < 0 then -f else f
  let n1 := normalize_down fnorm.num.natAbs fnorm 0
  let n2 := normalize_up n1.1.den n1.1 n1.2
  let fnorm := n2.1 - 1
  let significandbits := bits - expbits - 1
  c_trunc (fnorm * round_float (((1 <<< significandbits : ℕ) : ℚ) + 1 / 2))

/-- The biased exponent that `pack754` computes (lines 92-94 and 103). -/
def pack754_exp (f : ℚ) (expbits : ℕ) : ℤ :=
  let fnorm := if f < 0 then -f else f
  let n1 := normalize_down fnorm.num.natAbs fnorm 0
  let n2 := normalize_up n1.1.den n1.1 n1.2
  n2.2 + (((1 <<< (expbits - 1) : ℕ) : ℤ) - 1)

/-- Embedding of the generated `pack754` (text of `float_pack`, 2cpp.c lines 74-107).
`bits` and `expbits` are (32, 8) or (64, 11) in every call, so that no shift count
reaches 64. -/
def pack754 (f : c_double) (bits expbits : ℕ) : ℕ :=
  match f with
  | .zero negative => if negative then shl_u64 1 (bits - 1) else 0
  | .nan => sub_u64 (shl_u64 1 (bits - 1)) 1
  | .inf false => shl_u64 (sub_u64 (shl_u64 1 expbits) 1) (bits - expbits - 1)
  | .inf true =>
    shl_u64 1 (bits - 1) ||| shl_u64 (sub_u64 (shl_u64 1 expbits) 1) (bits - expbits - 1)
  | .finite q =>
    if q = 0 then 0
    else
      let sign : ℤ := if q < 0 then 1 else 0
      let significand := pack754_significand q bits expbits
      let exp := pack754_exp q expbits
      to_u64 (sign * 2 ^ (bits - 1)) ||| to_u64 (exp * 2 ^ (bits - expbits - 1))
        ||| to_u64 significand

/-- Embedding of the generated `pack754_32`: the result is a `uint32_t`. -/
def pack754_32 (f : c_double) : ℕ :=
  pack754 f 32 8 % 2 ^ 32

/-- Embedding of the generated `pack754_64`. -/
def pack754_64 (f : c_double) : ℕ :=
  pack754 f 64 11

/-- Embedding of the generated `unpack754` (text of `float_unpack`, 2cpp.c lines
113-138).  The two loops on `shift` are iterations of doubling and of halving.  The
mantissa fraction plus one has at most 53 significant bits and doubling it stays
below `2 ^ 1024` for the exponent fields that reach the loop, so these steps are
exact; a halving can leave the normal range of `double` (binary64 word with a zero
exponent field) and is rounded. -/
def unpack754 (i bits expbits : ℕ) : c_double :=
  if i = 0 then .zero false
  else
    let expset := shl_u64 (sub_u64 (shl_u64 1 expbits) 1) (bits - expbits - 1)
    if i &&& expset = expset then
      if i &&& sub_u64 (shl_u64 1 (bits - expbits - 1)) 1 ≠ 0 then .nan
      else if i &&& shl_u64 1 (bits - 1) ≠ 0 then .inf true else .inf false
    else
      let significandbits := bits - expbits - 1
      let result : ℚ := ((i &&& sub_u64 (shl_u64 1 significandbits) 1 : ℕ) : ℚ)
      let result := result / ((shl_u64 1 significandbits : ℕ) : ℚ)
      let result := result + 1
      let bias : ℕ := (1 <<< (expbits - 1)) - 1
      let shift : ℤ :=
        (((i >>> significandbits) &&& sub_u64 (shl_u64 1 expbits) 1 : ℕ) : ℤ) - (bias : ℤ)
      let result := (fun x : ℚ => x * 2)^[shift.toNat] result
      let result := (fun x : ℚ => round_double (x / 2))^[(-shift).toNat] result
      if (i >>> (bits - 1)) &&& 1 ≠ 0 then .finite (-result) else .finite result

/-- Embedding of the generated `unpack754_32`: the `double` that `unpack754` returns
is converted to the result type `float`. -/
def unpack754_32 (i : ℕ) : c_double :=
  match unpack754 i 32 8 with
  | .finite q => .finite (round_float q)
  | d => d

/-- Embedding of the generated `unpack754_64`. -/
def unpack754_64 (i : ℕ) : c_double :=
  unpack754 i 64 11

/-! ## Storage types (`determine_*_type`) -/

/-- Embedding of `determine_unsigned_type` (2cpp.c, lines 146-156). -/
def determine_unsigned_type (length : ℕ) : ctype :=
  let type := ctype.uint64_t
  let type := if length ≤ 32 then ctype.uint32_t else type
  let type := if length ≤ 16 then ctype.uint16_t else type
  let type := if length ≤ 8 then ctype.uint16_t else type
  type

/-- Embedding of `determine_signed_type` (2cpp.c, lines 158-168). -/
def determine_signed_type (length : ℕ) : ctype :=
  let type := ctype.int64_t
  let type := if length ≤ 32 then ctype.int32_t else type
  let type := if length ≤ 16 then ctype.int16_t else type
  let type := if length ≤ 8 then ctype.int8_t else type
  type

/-- Embedding of `determine_type` (2cpp.c, lines 170-175). -/
def determine_type (length : ℕ) (is_signed : Bool) : ctype :=
  if is_signed then determine_signed_type length else determine_unsigned_type length

/-! ## Bit codec (`fix_start_bit`, `signal2deserializer`, `signal2serializer`) -/

/-- Embedding of `fix_start_bit` (2cpp.c, lines 370-375).  The arithmetic is
`unsigned`: it is carried out in the integers and reduced modulo `2 ^ 32`, which is
what wrap-around at every step amounts to. -/
def fix_start_bit (motorola : Bool) (start siglen : ℕ) : ℕ :=
  if motorola then
    ((8 * (7 - ((start / 8 : ℕ) : ℤ)) + ((start % 8 : ℕ) : ℤ) - ((siglen : ℤ) - 1)) % 2 ^ 32).toNat
  else start

/-- The `mask` computed by both `signal2deserializer` (lines 397-399) and
`signal2serializer` (lines 440-442). -/
def field_mask (length : ℕ) : ℕ :=
  if length = 64 then 0xFFFFFFFFFFFFFFFF else (1 <<< length) % 2 ^ 64 - 1

/-- Whether the signal is big-endian: `sig->endianess == endianess_motorola_e`. -/
def is_motorola (sig : signal_t) : Bool :=
  sig.endianess == endianess_e.endianess_motorola_e

/-- The shift count that both generators print for the signal. -/
def effective_start (sig : signal_t) : ℕ :=
  fix_start_bit (is_motorola sig) sig.start_bit sig.bit_length

/-- C's `w >> c` on a `uint64_t`: undefined when `c` is not below 64. -/
def shr64 (w c : ℕ) : Option ℕ :=
  if c < 64 then some (w >>> c) else none

/-- C's `x << c` on a `uint64_t`: undefined when `c` is not below 64, otherwise the
bits shifted out at the top are lost. -/
def shl64 (x c : ℕ) : Option ℕ :=
  if c < 64 then some ((x <<< c) % 2 ^ 64) else none

/-- The first statement printed by `signal2deserializer` (lines 404-407):
`x = (w >> start) & mask;` when `start` is nonzero, `x = w & mask;` otherwise; `w` is
the accumulator of the signal's byte order.  A `start` that wrapped around in
`fix_start_bit` is printed as a count that is negative or not below 64, which leaves
the shift undefined. -/
def signal2deserializer_x (sig : signal_t) (w : ℕ) : Option ℕ :=
  let start := effective_start sig
  let mask := field_mask sig.bit_length
  if start ≠ 0 then (shr64 w start).map (fun y => y &&& mask)
  else some (w &&& mask)

/-- The extension mask `negative` of `signal2deserializer` (lines 418-424). -/
def negative_mask (length : ℕ) : ℕ :=
  let negative := (2 ^ 64 - 1) - field_mask length
  let negative := if length ≤ 32 then negative &&& 0xFFFFFFFF else negative
  let negative := if length ≤ 16 then negative &&& 0xFFFF else negative
  let negative := if length ≤ 8 then negative &&& 0xFF else negative
  negative

/-- The sign-extension statement of `signal2deserializer` (lines 416-427):
`x = x & top ? x | negative : x;`, printed only when `negative` is nonzero. -/
def sign_extend (length x : ℕ) : ℕ :=
  let top := (1 <<< (length - 1)) % 2 ^ 64
  let negative := negative_mask length
  if negative ≠ 0 then (if x &&& top ≠ 0 then x ||| negative else x) else x

/-- The statements that `signal2deserializer` prints for an integer signal after the
extraction (lines 416-429): sign-extend a signed signal, then assign `x` to the
member, whose type `signal2type` declares as `determine_type (length, is_signed)`. -/
def signal2deserializer_store (sig : signal_t) (x : ℕ) : ℤ :=
  let x := if sig.is_signed then sign_extend sig.bit_length x else x
  (determine_type sig.bit_length sig.is_signed).convert x

/-- The integer path of `signal2deserializer` (lines 389-431): extract, then store. -/
def signal2deserializer_int (sig : signal_t) (w : ℕ) : Option ℤ :=
  (signal2deserializer_x sig w).map (signal2deserializer_store sig)

/-- The value of a signal's member: an integer of the type chosen by `determine_type`,
or a `float` or `double` for a floating signal (`signal2type`, lines 176-207). -/
inductive member_value where
  | integer (z : ℤ)
  | floating (d : c_double)
  deriving DecidableEq, Repr

/-- Embedding of the statements printed by `signal2deserializer` (2cpp.c, lines
389-431): the extraction, then `unpack754_32` or `unpack754_64` for a floating signal
(the generator asserts that its length is 32 or 64) and the integer path otherwise. -/
def signal2deserializer (sig : signal_t) (w : ℕ) : Option member_value :=
  if sig.is_floating then
    if sig.bit_length = 32 then
      (signal2deserializer_x sig w).map fun x => member_value.floating (unpack754_32 x)
    else if sig.bit_length = 64 then
      (signal2deserializer_x sig w).map fun x => member_value.floating (unpack754_64 x)
    else none
  else (signal2deserializer_int sig w).map member_value.integer

/-- The statements printed by `signal2serializer` (lines 433-457) after `x` has
received the member's bits `x0`: `x = x0 & mask; x <<= start;` (the shift only when
`start` is nonzero) and `acc |= x;`. -/
def signal2serializer_x (sig : signal_t) (x0 acc : ℕ) : Option ℕ :=
  let start := effective_start sig
  let mask := field_mask sig.bit_length
  let x := x0 &&& mask
  if start ≠ 0 then (shl64 x start).map (fun y => acc ||| y)
  else some (acc ||| x)

/-- The integer path of `signal2serializer`: the member is cast to
`determine_unsigned_type (bit_length)` before the mask. -/
def signal2serializer_int (sig : signal_t) (val : ℤ) (acc : ℕ) : Option ℕ :=
  signal2serializer_x sig ((determine_unsigned_type sig.bit_length).convert val).toNat acc

/-- Embedding of the statements printed by `signal2serializer` (2cpp.c, lines
433-457): `pack754_32` or `pack754_64` of the member for a floating signal (the
generator asserts that its length is 32 or 64), the cast to the unsigned type
otherwise, then mask, shift and OR into `acc`. -/
def signal2serializer (sig : signal_t) (m : member_value) (acc : ℕ) : Option ℕ :=
  match m with
  | .floating d =>
    if sig.is_floating then
      if sig.bit_length = 32 then signal2serializer_x sig (pack754_32 d) acc
      else if sig.bit_length = 64 then signal2serializer_x sig (pack754_64 d) acc
      else none
    else none
  | .integer z =>
    if sig.is_floating then none else signal2serializer_int sig z acc

/-! ## Scaling transform (`signal2scaling_encode`, `signal2scaling_decode`) -/

/-- Embedding of `signal_are_min_max_valid` (2cpp.c, lines 224-228). -/
def signal_are_min_max_valid (sig : signal_t) : Bool :=
  sig.minimum != sig.maximum

/-- Embedding of `signed_max` (2cpp.c, lines 229-235); `bit_length` is at least 1. -/
def signed_max (sig : signal_t) : ℤ :=
  if sig.bit_length = 64 then 9223372036854775807
  else (((1 <<< (sig.bit_length - 1)) % 2 ^ 64 : ℕ) : ℤ) - 1

/-- Embedding of `signed_min` (2cpp.c, lines 237-243): `~signed_max (sig)` is
`-signed_max (sig) - 1` in two's complement. -/
def signed_min (sig : signal_t) : ℤ :=
  if sig.bit_length = 64 then -9223372036854775808
  else -(signed_max sig) - 1

/-- Embedding of `unsigned_max` (2cpp.c, lines 244-250). -/
def unsigned_max (sig : signal_t) : ℕ :=
  if sig.bit_length = 64 then 18446744073709551615
  else (1 <<< sig.bit_length) % 2 ^ 64 - 1

/-- The flag `gmin` as `signal2scaling_encode` (lines 269-282) and
`signal2scaling_decode` (lines 327-340) compute it: whether the check against
`minimum` is printed.  The block for floating signals assigns `gmax` twice and leaves
`gmin` as it is.  (The comparison is made in `double`; here and in `gmax` the
conversion of the integer bound, `-2^(n-1)`, `2^(n-1) - 1` or `2^n - 1`, to `double`
changes it only when it is `2^k - 1` with `k > 53`, to `2^k`, and no `double` lies
from `2^k - 1` up to `2^k`, so that the outcome for a `double` is the same.) -/
def gmin (sig : signal_t) : Bool :=
  let gmin := if sig.is_signed then decide (sig.minimum > (signed_min sig : ℚ))
    else decide (sig.minimum > 0)
  gmin

/-- The flag `gmax` as `signal2scaling_encode` and `signal2scaling_decode` compute
it: whether the check against `maximum` is printed. -/
def gmax (sig : signal_t) : Bool :=
  let gmax := if sig.is_signed then decide (sig.maximum < (signed_max sig : ℚ))
    else decide (sig.maximum < (unsigned_max sig : ℚ))
  let gmax := if sig.is_floating then true else gmax
  let gmax := if sig.is_floating then true else gmax
  gmax

/-- Result of a generated `encode_<signal>` call: the returned status and the value
of the signal's member after the call. -/
structure encode_result where
  ret : ℤ
  stored : ℚ
  deriving DecidableEq, Repr

/-- Result of a generated `decode_<signal>` call: the returned status and the value
written to `*out`. -/
structure decode_result where
  ret : ℤ
  out : ℚ
  deriving DecidableEq, Repr

/-- Whether a printed C type is one of the integer types. -/
def ctype.is_integer : ctype → Bool
  | .float | .double => false
  | _ => true

/-- The least value of an integer type. -/
def ctype.lowest (t : ctype) : ℤ :=
  match t with
  | .int8_t | .int16_t | .int32_t | .int64_t => -2 ^ (t.width - 1)
  | _ => 0

/-- The greatest value of an integer type. -/
def ctype.highest (t : ctype) : ℤ :=
  match t with
  | .int8_t | .int16_t | .int32_t | .int64_t => 2 ^ (t.width - 1) - 1
  | _ => 2 ^ t.width - 1

/-- Whether the rational `q` is a (finite) value of the C type `t`: an integer within
the range of an integer type, a value that rounding to the format leaves unchanged
and that is below the overflow threshold for `float` and `double`. -/
def ctype.holds (t : ctype) (q : ℚ) : Bool :=
  match t with
  | .float => decide (round_float q = q) && decide (|q| < 2 ^ 128)
  | .double => decide (round_double q = q) && decide (|q| < 2 ^ 1024)
  | _ => decide (q.den = 1) && decide ((t.lowest : ℚ) ≤ q) && decide (q ≤ (t.highest : ℚ))

/-- The conversions that the generated scaling functions apply on an assignment or a
cast to the type `t`: to `float` or `double` the value is rounded (`none` when it
overflows); to an integer type a `float` or `double` is truncated toward zero, which
is undefined (`none`) outside the range of the type.  An integer is only ever
converted to its own type there, which keeps it. -/
def ctype.assign (t : ctype) (q : ℚ) : Option ℚ :=
  match t with
  | .float => if |round_float q| < 2 ^ 128 then some (round_float q) else none
  | .double => if |round_double q| < 2 ^ 1024 then some (round_double q) else none
  | _ =>
    if t.lowest ≤ c_trunc q ∧ c_trunc q ≤ t.highest then some ((c_trunc q : ℤ) : ℚ) else none

/-- The local `type` of `signal2scaling_encode` (lines 257-259) and of
`signal2scaling_decode` (lines 308-310): `float` when the signal has a scaling or an
offset, `determine_type (bit_length, is_signed)` otherwise. -/
def scaling_type (sig : signal_t) : ctype :=
  if sig.scaling ≠ 1 ∨ sig.offset ≠ 0 then ctype.float
  else determine_type sig.bit_length sig.is_signed

/-- The type printed for the parameter `in` of the encoder (line 264) and for `*out`
of the decoder (line 315): `copts->use_doubles_for_encoding ? "float" : type`. -/
def scaling_io_type (sig : signal_t) (use_doubles : Bool) : ctype :=
  if use_doubles then ctype.float else scaling_type sig

/-- The type that `signal2type` (lines 176-207) prints for the signal's member:
`double` or `float` for a floating signal (64 bits or not), and
`determine_type (bit_length, is_signed)` otherwise. -/
def member_type (sig : signal_t) : ctype :=
  if sig.is_floating then (if sig.bit_length = 64 then ctype.double else ctype.float)
  else determine_type sig.bit_length sig.is_signed

/-- The two values that a printed comparison `v < K`, `v > K`, `v >= K` or `v <= K`
compares, `v` being a variable of type `t` and `K` the constant printed with `%g` for
`x`, after the usual arithmetic conversions.  A `float` variable is compared with the
value of the constant (an `int` constant converts to `float` unchanged, and the
conversion of the variable to `double` is exact).  An integer variable is converted
to `double`, which rounds it, when the constant is a `double`; with an `int` constant
it keeps its value, and the constant is converted to the variable's type when that is
`uint32_t` or `uint64_t` (reduction modulo `2 ^ width`). -/
def c_compare (t : ctype) (v x : ℚ) : ℚ × ℚ :=
  if t.is_integer then
    if c_const_is_int x then
      (v, if t = ctype.uint32_t ∨ t = ctype.uint64_t
        then ((c_trunc (fmt_g x) % 2 ^ t.width : ℤ) : ℚ) else fmt_g x)
    else (round_double v, c_const x)
  else (v, c_const x)

/-- The printed test `v < K`. -/
def c_lt (t : ctype) (v x : ℚ) : Bool :=
  decide ((c_compare t v x).1 < (c_compare t v x).2)

/-- The printed test `v > K`. -/
def c_gt (t : ctype) (v x : ℚ) : Bool :=
  decide ((c_compare t v x).1 > (c_compare t v x).2)

/-- The printed test `v >= K`. -/
def c_ge (t : ctype) (v x : ℚ) : Bool :=
  decide ((c_compare t v x).1 ≥ (c_compare t v x).2)

/-- The printed test `v <= K`. -/
def c_le (t : ctype) (v x : ℚ) : Bool :=
  decide ((c_compare t v x).1 ≤ (c_compare t v x).2)

/-- The value that a printed statement `v += K;` (`op` the sum) or `v *= K;` (`op` the
product) leaves in the `float` variable `v` that holds `a`, `K` being the constant
printed with `%g` for `x`: with an `int` constant the operation is a `float`
operation on `a` and the constant converted to `float` (unchanged); with a `double`
constant it is a `double` operation whose result is converted to `float`.  The
exponent is not bounded above: a magnitude of `2 ^ 128` and beyond stands for an
infinity. -/
def c_float_op (op : ℚ → ℚ → ℚ) (a x : ℚ) : ℚ :=
  if c_const_is_int x then round_float (op a (c_const x))
  else round_float (round_double (op a (c_const x)))

/-- The value of `in` after the statements `in += <-offset>;` and `in *= <1/scaling>;`
that `signal2scaling_encode` prints (lines 294-297); the quotient `1.0 / sig->scaling`
is a `double` division in the generator.  `in` is a `float` whenever one of the two
statements is printed. -/
def encode_arith (sig : signal_t) (inp : ℚ) : ℚ :=
  let inp := if sig.offset ≠ 0 then c_float_op (· + ·) inp (-1 * sig.offset) else inp
  let inp := if sig.scaling ≠ 1 then c_float_op (· * ·) inp (round_double (1 / sig.scaling))
    else inp
  inp

/-- Whether one of the two statements of `encode_arith` overflows to an infinity. -/
def encode_overflows (sig : signal_t) (inp : ℚ) : Bool :=
  (decide (sig.offset ≠ 0) &&
      decide (2 ^ 128 ≤ |c_float_op (· + ·) inp (-1 * sig.offset)|))
    || (decide (sig.scaling ≠ 1) && decide (2 ^ 128 ≤ |encode_arith sig inp|))

/-- Embedding of the function body that `signal2scaling_encode` prints (2cpp.c,
lines 251-300, `header` false).  `use_doubles` is the option
`copts->use_doubles_for_encoding`, `old` is the member before the call and `inp` the
value of the parameter `in`.  The result is `none`
* on a zero `scaling`, where the generator calls `error` (util.c, not among the
  sources), taken to stop it as section 7 has an invalid descriptor fatal;
* when `inp` is not a value of the parameter's type;
* when a statement overflows to an infinity or the assignment to the member is an
  undefined conversion. -/
def signal2scaling_encode (sig : signal_t) (use_doubles : Bool) (old inp : ℚ) :
    Option encode_result :=
  if sig.scaling = 0 then none
  else
    let t := scaling_io_type sig use_doubles
    if !t.holds inp then none
    else
      let valid := signal_are_min_max_valid sig
      let stored := if valid && (gmin sig || gmax sig) then 0 else old
      if valid && gmin sig && c_lt t inp sig.minimum then some ⟨-1, stored⟩
      else if valid && gmax sig && c_gt t inp sig.maximum then some ⟨-1, stored⟩
      else if encode_overflows sig inp then none
      else ((member_type sig).assign (encode_arith sig inp)).map fun m => ⟨0, m⟩

/-- The value of `rval` after the statements `rval *= <scaling>;` and
`rval += <offset>;` that `signal2scaling_decode` prints (lines 322-325), `r0` being
its initial value.  `rval` is a `float` whenever one of the two is printed. -/
def decode_arith (sig : signal_t) (r0 : ℚ) : ℚ :=
  let rval := if sig.scaling ≠ 1 then c_float_op (· * ·) r0 sig.scaling else r0
  let rval := if sig.offset ≠ 0 then c_float_op (· + ·) rval sig.offset else rval
  rval

/-- Whether one of the two statements of `decode_arith` overflows to an infinity. -/
def decode_overflows (sig : signal_t) (r0 : ℚ) : Bool :=
  (decide (sig.scaling ≠ 1) && decide (2 ^ 128 ≤ |c_float_op (· * ·) r0 sig.scaling|))
    || (decide (sig.offset ≠ 0) && decide (2 ^ 128 ≤ |decode_arith sig r0|))

/-- The value of `rval` when the generated decoder reaches its tests: the
initialisation `type rval = (type)(<signal>);` (line 319) converts the member `raw`
to `type`, then the two statements of `decode_arith`.  `none` when the conversion is
undefined or a step overflows. -/
def decode_rval (sig : signal_t) (raw : ℚ) : Option ℚ :=
  ((scaling_type sig).assign raw).bind fun r0 =>
    if decode_overflows sig r0 then none else some (decode_arith sig r0)

/-- The assignment `*out = rval;` of the generated decoder: `*out` is a `float` when
`use_doubles_for_encoding` is set, which rounds an integer `rval`. -/
def decode_out (sig : signal_t) (use_doubles : Bool) (rval : ℚ) : ℚ :=
  if use_doubles && (scaling_type sig).is_integer then round_float rval else rval

/-- Embedding of the function body that `signal2scaling_decode` prints (2cpp.c,
lines 302-368, `header` false).  `use_doubles` is the option
`copts->use_doubles_for_encoding` and `raw` the signal's member.  The result is
`none` on a zero `scaling`, where the generator calls `error` (util.c, not among the
sources), taken to stop it as section 7 has an invalid descriptor fatal; when `raw`
is not a value of the member's type; and when `decode_rval` is `none`. -/
def signal2scaling_decode (sig : signal_t) (use_doubles : Bool) (raw : ℚ) :
    Option decode_result :=
  if sig.scaling = 0 then none
  else if !(member_type sig).holds raw then none
  else
    (decode_rval sig raw).map fun rval =>
      let t := scaling_type sig
      if signal_are_min_max_valid sig then
        if !gmax sig && !gmin sig then ⟨0, decode_out sig use_doubles rval⟩
        else
          let cond :=
            if gmin sig && gmax sig then c_ge t rval sig.minimum && c_le t rval sig.maximum
            else if gmax sig then c_le t rval sig.maximum
            else c_ge t rval sig.minimum
          if cond then ⟨0, decode_out sig use_doubles rval⟩ else ⟨-1, 0⟩
      else ⟨0, decode_out sig use_doubles rval⟩

/-! ## Generation (`signal2type`, `msg2h`, `msg2c`, `dbc2cpp`) -/

/-- Modelled from the spec: `can_msg_t` is declared in can.h, which is not among the
sources; these are the fields of a Message in section 3 that 2cpp.c reads, without
the name, which only appears in the printed text. -/
structure can_msg_t where
  id : ℕ
  dlc : ℕ
  sigs : List signal_t
  deriving DecidableEq, Repr

/-- Modelled from the spec: `dbc_t` is declared in can.h, which is not among the
sources; section 3 has a Database as an ordered collection of Messages. -/
structure dbc_t where
  messages : List can_msg_t
  deriving DecidableEq, Repr

/-- Embedding of the value returned by `signal2type` (2cpp.c, lines 176-207): -1 for
a bit length of 0 and for a floating signal whose length is neither 32 nor 64,
otherwise the value `printed` that the last `fprintf` returns. -/
def signal2type (sig : signal_t) (printed : ℤ) : ℤ :=
  let length := sig.bit_length
  if length = 0 then -1
  else if sig.is_floating && (length != 32 && length != 64) then -1
  else printed

/-- How a call of the generator function `signal2scaling_encode` (lines 251-300) ends:
with `header` set it returns after the prototype; otherwise a zero scaling reaches
`error`, taken to stop the generator (`none`), and any other signal makes it return
what the last `fputs` returns. -/
def signal2scaling_encode_call (sig : signal_t) (header : Bool) (printed : ℤ) : Option ℤ :=
  if header then some printed
  else if sig.scaling = 0 then none
  else some printed

/-- How a call of the generator function `signal2scaling_decode` (lines 302-368) ends,
as for `signal2scaling_encode_call`. -/
def signal2scaling_decode_call (sig : signal_t) (header : Bool) (printed : ℤ) : Option ℤ :=
  if header then some printed
  else if sig.scaling = 0 then none
  else some printed

/-- The loop over the signals in `msg2h` (lines 472-477): the three results of each
round are dropped. -/
def msg2h_signals : List signal_t → ℤ → Option Unit
  | [], _ => some ()
  | sig :: rest, printed =>
    let _ := signal2type sig printed
    (signal2scaling_encode_call sig true printed).bind fun _ =>
      (signal2scaling_decode_call sig true printed).bind fun _ =>
        msg2h_signals rest printed

/-- Embedding of the value returned by `msg2h` (2cpp.c, lines 459-494). -/
def msg2h (msg : can_msg_t) (printed : ℤ) : Option ℤ :=
  (msg2h_signals msg.sigs printed).map fun _ => 0

/-- The loop over the signals in `msg2c` (lines 507-511): the two results of each
round are dropped. -/
def msg2c_signals : List signal_t → ℤ → Option Unit
  | [], _ => some ()
  | sig :: rest, printed =>
    (signal2scaling_encode_call sig false printed).bind fun _ =>
      (signal2scaling_decode_call sig false printed).bind fun _ =>
        msg2c_signals rest printed

/-- Embedding of the value returned by `msg2c` (2cpp.c, lines 496-524). -/
def msg2c (msg : can_msg_t) (printed : ℤ) : Option ℤ :=
  (msg2c_signals msg.sigs printed).map fun _ => 0

/-- The loop `if (msg2h (...) < 0) return -1;` of `dbc2cpp` (lines 584-586); `true`
when it runs to its end. -/
def dbc2cpp_headers : List can_msg_t → ℤ → Option Bool
  | [], _ => some true
  | msg :: rest, printed =>
    (msg2h msg printed).bind fun r =>
      if r < 0 then some false else dbc2cpp_headers rest printed

/-- The loop `if (msg2c (...) < 0) return -1;` of `dbc2cpp` (lines 597-599); `true`
when it runs to its end. -/
def dbc2cpp_bodies : List can_msg_t → ℤ → Option Bool
  | [], _ => some true
  | msg :: rest, printed =>
    (msg2c msg printed).bind fun r =>
      if r < 0 then some false else dbc2cpp_bodies rest printed

/-- Embedding of the value returned by `dbc2cpp` (2cpp.c, lines 526-602): -1 when a
message fails, 1 at the end, `none` when `error` stopped the generator.  The two
`qsort` calls only reorder the messages and the signals of each message, which does
not change the result. -/
def dbc2cpp (dbc : dbc_t) (printed : ℤ) : Option ℤ :=
  (dbc2cpp_headers dbc.messages printed).bind fun ok =>
    if !ok then some (-1)
    else (dbc2cpp_bodies dbc.messages printed).bind fun ok =>
      if !ok then some (-1) else some 1

/-! ## Reference definitions, following the specification's words -/

/-- The lower bound is active (not redundant) in the words of section 4.4:
`minimum` above the representable signed minimum `-2^(n-1)` for a signed signal,
above 0 for an unsigned one.  (Section 4.4 has both bounds of a floating signal
redundant outright; this definition and the next go by signedness alone, so a bound
that is redundant here is redundant there too.) -/
def spec_lower_active (sig : signal_t) : Prop :=
  if sig.is_signed then sig.minimum > -(2 : ℚ) ^ (sig.bit_length - 1) else sig.minimum > 0

/-- The upper bound is active (not redundant) in the words of section 4.4:
`maximum` below the representable maximum, `2^(n-1) - 1` for a signed signal,
`2^n - 1` for an unsigned one. -/
def spec_upper_active (sig : signal_t) : Prop :=
  if sig.is_signed then sig.maximum < (2 : ℚ) ^ (sig.bit_length - 1) - 1
  else sig.maximum < (2 : ℚ) ^ sig.bit_length - 1

instance (sig : signal_t) : Decidable (spec_lower_active sig) := by
  unfold spec_lower_active
  infer_instance

instance (sig : signal_t) : Decidable (spec_upper_active sig) := by
  unfold spec_upper_active
  infer_instance

/-- The decode rule of section 4.4 for a raw value `r`: `physical = raw*scaling +
offset`, returned unconditionally when range checking is off or both bounds are
redundant, otherwise returned when it satisfies every active bound and replaced by
the zero fallback with status -1 when it violates one. -/
def spec_decode (sig : signal_t) (r : ℤ) : decode_result :=
  let physical := (r : ℚ) * sig.scaling + sig.offset
  if sig.minimum = sig.maximum ∨ (¬ spec_lower_active sig ∧ ¬ spec_upper_active sig) then
    ⟨0, physical⟩
  else if (spec_lower_active sig → physical ≥ sig.minimum) ∧
      (spec_upper_active sig → physical ≤ sig.maximum) then ⟨0, physical⟩
  else ⟨-1, 0⟩

/-- The rejection condition of section 4.4 for a value `v`: range checking is on
(`minimum` and `maximum` differ) and `v` is outside an active bound. -/
def spec_rejects (sig : signal_t) (v : ℚ) : Prop :=
  sig.minimum ≠ sig.maximum ∧
    ((spec_lower_active sig ∧ v < sig.minimum) ∨ (spec_upper_active sig ∧ v > sig.maximum))

/-- The rejection condition with the bounds as the generated code has them: range
checking is on and `v` fails the printed test of an active bound, in which the bound
is the constant printed with `%g` and the operands are converted as C converts them
(`c_lt`, `c_gt`). -/
def spec_rejects_printed (sig : signal_t) (use_doubles : Bool) (v : ℚ) : Prop :=
  sig.minimum ≠ sig.maximum ∧
    ((spec_lower_active sig ∧ c_lt (scaling_io_type sig use_doubles) v sig.minimum = true)
      ∨ (spec_upper_active sig ∧ c_gt (scaling_io_type sig use_doubles) v sig.maximum = true))

/-- The decode rule with the bounds as the generated code has them, for the value
`physical` that the generated arithmetic has computed: returned unconditionally when
range checking is off or both bounds are redundant, otherwise returned when it passes
the printed test of every active bound and replaced by the zero fallback with status
-1 when it fails one. -/
def spec_decode_printed (sig : signal_t) (use_doubles : Bool) (physical : ℚ) :
    decode_result :=
  if sig.minimum = sig.maximum ∨ (¬ spec_lower_active sig ∧ ¬ spec_upper_active sig) then
    ⟨0, decode_out sig use_doubles physical⟩
  else if (spec_lower_active sig → c_ge (scaling_type sig) physical sig.minimum = true) ∧
      (spec_upper_active sig → c_le (scaling_type sig) physical sig.maximum = true) then
    ⟨0, decode_out sig use_doubles physical⟩
  else ⟨-1, 0⟩

/-- The specification's effective start (section 4.2): `start_bit` for intel, and
`8*(7 - start_bit/8) + (start_bit%8) - (length-1)` for motorola, over the integers. -/
def spec_effective_start (sig : signal_t) : ℤ :=
  match sig.endianess with
  | .endianess_intel_e => (sig.start_bit : ℤ)
  | .endianess_motorola_e =>
    8 * (7 - (sig.start_bit : ℤ) / 8) + (sig.start_bit : ℤ) % 8 - ((sig.bit_length : ℤ) - 1)

/-- The specification's field mask (section 4.2): `(1<<length)-1`, all ones if
`length==64`. -/
def spec_mask (length : ℕ) : ℕ :=
  if length = 64 then 2 ^ 64 - 1 else 2 ^ length - 1

/-- The specification's `extract` (section 4.2): shift right by the effective start
and mask. -/
def spec_extract (w : ℕ) (sig : signal_t) : ℕ :=
  (w >>> (spec_effective_start sig).toNat) &&& spec_mask sig.bit_length

/-- The natural width of section 4.2: the smallest of 8, 16, 32, 64 that is at least
`length`. -/
def spec_natural_width (length : ℕ) : ℕ :=
  if length ≤ 8 then 8 else if length ≤ 16 then 16 else if length ≤ 32 then 32 else 64

/-- The value that IEEE-754 assigns to the word `i` of a binary format with `bits`
bits and `expbits` exponent bits: with `s` the sign bit, `e` the exponent field, `m`
the mantissa field and `bias = 2^(expbits-1) - 1`, an all-ones `e` is an infinity
when `m` is 0 and a NaN otherwise, a zero `e` is a signed zero when `m` is 0 and the
subnormal `(-1)^s * m/2^significandbits * 2^(1-bias)` otherwise, and any other `e` is
the normal `(-1)^s * (1 + m/2^significandbits) * 2^(e-bias)`. -/
def spec_ieee754 (i bits expbits : ℕ) : c_double :=
  let significandbits := bits - expbits - 1
  let s := i / 2 ^ (bits - 1) % 2
  let e := i / 2 ^ significandbits % 2 ^ expbits
  let m := i % 2 ^ significandbits
  let bias : ℤ := 2 ^ (expbits - 1) - 1
  if e = 2 ^ expbits - 1 then
    if m = 0 then c_double.inf (decide (s = 1)) else c_double.nan
  else if e = 0 then
    if m = 0 then c_double.zero (decide (s = 1))
    else c_double.finite
      ((-1) ^ s * ((m : ℚ) / 2 ^ significandbits) * (2 : ℚ) ^ (1 - bias))
  else c_double.finite
    ((-1) ^ s * (1 + (m : ℚ) / 2 ^ significandbits) * (2 : ℚ) ^ ((e : ℤ) - bias))

/-- The range representable in the `n` bits of the signal (section 4.4): `0` to
`2^n - 1` for an unsigned signal, `-2^(n-1)` to `2^(n-1) - 1` for a signed one. -/
def spec_raw_in_range (sig : signal_t) (raw : ℚ) : Prop :=
  if sig.is_signed then
    -(2 : ℚ) ^ (sig.bit_length - 1) ≤ raw ∧ raw ≤ 2 ^ (sig.bit_length - 1) - 1
  else 0 ≤ raw ∧ raw ≤ 2 ^ sig.bit_length - 1

instance (sig : signal_t) (raw : ℚ) : Decidable (spec_raw_in_range sig raw) := by
  unfold spec_raw_in_range
  infer_instance

/-- A descriptor that section 4.1 has construction reject: zero bit length, a
floating signal whose length is neither 32 nor 64, a bit range that does not fit the
64-bit frame, or a zero scaling. -/
def spec_malformed (sig : signal_t) : Prop :=
  sig.bit_length = 0
    ∨ (sig.is_floating = true ∧ sig.bit_length ≠ 32 ∧ sig.bit_length ≠ 64)
    ∨ ¬ (0 ≤ spec_effective_start sig ∧ spec_effective_start sig + sig.bit_length ≤ 64)
    ∨ sig.scaling = 0

instance (sig : signal_t) : Decidable (spec_malformed sig) := by
  unfold spec_malformed
  infer_instance

/-- The error kinds of section 7. -/
inductive codec_error where
  | InvalidDescriptor
  | RangeViolation
  deriving DecidableEq, Repr

/-- The bits that the frame encode hands to the bit codec for a raw value: the value
itself for an integer signal, its floating-point value for a floating one. -/
def spec_raw_member (sig : signal_t) (raw : ℚ) : member_value :=
  if sig.is_floating then
    member_value.floating (if raw = 0 then c_double.zero false else c_double.finite raw)
  else member_value.integer (c_trunc raw)

/-- Modelled from the spec: the frame encode (the body of `pack`) is not among the
sources: 2cpp.c only prints the declaration `uint32_t pack(uint64_t *data);` and
never calls `signal2serializer`.  Section 4.5: for each signal in the message, run
the scaling transform on its physical value and then the bit codec insert; if a
signal's scaling step fails, the whole operation fails immediately with that
signal's error and produces no frame.  The scaling step and the insert are the
generated ones (the scaling step under the option `use_doubles`); a step that the
generated code does not define for the descriptor and the value is an
`InvalidDescriptor`. -/
def spec_frame_encode (use_doubles : Bool) : List (signal_t × ℚ) → ℕ → Except codec_error ℕ
  | [], frame => Except.ok frame
  | (sig, value) :: rest, frame =>
    match signal2scaling_encode sig use_doubles 0 value with
    | none => Except.error codec_error.InvalidDescriptor
    | some r =>
      if r.ret ≠ 0 then Except.error codec_error.RangeViolation
      else
        match signal2serializer sig (spec_raw_member sig r.stored) frame with
        | none => Except.error codec_error.InvalidDescriptor
        | some frame' => spec_frame_encode use_doubles rest frame'

/-! ## Theorems: bit codec -/

theorem field_mask_eq (n : ℕ) (hn : n ≤ 64) : field_mask n = 2 ^ n - 1 := by
  unfold field_mask
  split_ifs with h
  · subst h; norm_num
  · have hlt : n < 64 := by omega
    have : 2 ^ n < 2 ^ 64 := Nat.pow_lt_pow_right (by norm_num) hlt
    rw [Nat.shiftLeft_eq, one_mul, Nat.mod_eq_of_lt this]

theorem and_field_mask (x n : ℕ) (hn : n ≤ 64) : x &&& field_mask n = x % 2 ^ n := by
  rw [field_mask_eq n hn, Nat.and_pow_two_sub_one_eq_mod]

/-- What the deserializer's first statement computes when its shift is defined. -/
theorem signal2deserializer_x_eq (sig : signal_t) (w : ℕ) (hn : sig.bit_length ≤ 64)
    (he : effective_start sig < 64) :
    signal2deserializer_x sig w = some (w / 2 ^ effective_start sig % 2 ^ sig.bit_length) := by
  unfold signal2deserializer_x
  by_cases h0 : effective_start sig = 0
  · simp [h0, and_field_mask _ _ hn]
  · simp [h0, shr64, he, and_field_mask _ _ hn, Nat.shiftRight_eq_div_pow]

/-- What the serializer's statements compute when its shift is defined. -/
theorem signal2serializer_x_eq (sig : signal_t) (x0 acc : ℕ) (hn : sig.bit_length ≤ 64)
    (he : effective_start sig < 64) :
    signal2serializer_x sig x0 acc
      = some (acc ||| (x0 % 2 ^ sig.bit_length * 2 ^ effective_start sig) % 2 ^ 64) := by
  unfold signal2serializer_x
  by_cases h0 : effective_start sig = 0
  · have : x0 % 2 ^ sig.bit_length < 2 ^ 64 :=
      lt_of_lt_of_le (Nat.mod_lt _ (by positivity)) (Nat.pow_le_pow_right (by norm_num) hn)
    have h64 : x0 % 2 ^ sig.bit_length % 2 ^ 64 = x0 % 2 ^ sig.bit_length :=
      Nat.mod_eq_of_lt this
    simp only [h0, ne_eq, not_true_eq_false, if_false, and_field_mask _ _ hn, pow_zero,
      mul_one, h64]
  · simp [h0, shl64, he, and_field_mask _ _ hn, Nat.shiftLeft_eq]

/-- C1. Bit round trip: for a signal of either byte order whose field fits the word
(length in 1..64, effective start + length at most 64) and a value `v` below
`2 ^ length`, the deserializer's shift-and-mask applied to the word that the
serializer's mask-shift-OR builds from `v` and a zero accumulator returns `v`. -/
theorem bit_round_trip (sig : signal_t) (v : ℕ)
    (hlen : 1 ≤ sig.bit_length) (hlen64 : sig.bit_length ≤ 64)
    (hfit : effective_start sig + sig.bit_length ≤ 64) (hv : v < 2 ^ sig.bit_length) :
    (signal2serializer_x sig v 0).bind (signal2deserializer_x sig) = some v := by
  have he : effective_start sig < 64 := by omega
  rw [signal2serializer_x_eq sig v 0 hlen64 he, Option.some_bind,
    signal2deserializer_x_eq sig _ hlen64 he, Nat.zero_or, Nat.mod_eq_of_lt hv]
  have hlt : v * 2 ^ effective_start sig < 2 ^ 64 :=
    calc v * 2 ^ effective_start sig
        < 2 ^ sig.bit_length * 2 ^ effective_start sig :=
          Nat.mul_lt_mul_of_pos_right hv (by positivity)
      _ = 2 ^ (sig.bit_length + effective_start sig) := (pow_add 2 _ _).symm
      _ ≤ 2 ^ 64 := Nat.pow_le_pow_right (by norm_num) (by omega)
  rw [Nat.mod_eq_of_lt hlt, Nat.mul_div_cancel _ (by positivity), Nat.mod_eq_of_lt hv]

/-- Witness of `bit_round_trip`: a 12-bit motorola signal starting at bit 7, value
`2 ^ 12 - 1`. -/
theorem bit_round_trip_witness :
    (signal2serializer_x ⟨7, 12, .endianess_motorola_e, false, false, 1, 0, 0, 0⟩ 4095 0).bind
      (signal2deserializer_x ⟨7, 12, .endianess_motorola_e, false, false, 1, 0, 0, 0⟩)
      = some 4095 :=
  bit_round_trip ⟨7, 12, .endianess_motorola_e, false, false, 1, 0, 0, 0⟩ 4095
    (by decide) (by decide) (by decide) (by decide)

/-- C2. Insertion leaves the neighbours alone: for a 64-bit accumulator `f`, a signal
of length `n` in 1..64 with effective start `e`, `e + n ≤ 64`, and any value `v`
(also one wider than `n` bits), the serializer yields a 64-bit word whose bit `i` is
`f`'s bit outside `[e, e + n)` and `f`'s bit OR bit `i - e` of `v` inside it. -/
theorem insert_preserves_neighbours (sig : signal_t) (f v : ℕ) (hf : f < 2 ^ 64)
    (hlen : 1 ≤ sig.bit_length)
    (hfit : effective_start sig + sig.bit_length ≤ 64) :
    ∃ r, signal2serializer_x sig v f = some r ∧ r < 2 ^ 64 ∧
      ∀ i, r.testBit i =
        if effective_start sig ≤ i ∧ i < effective_start sig + sig.bit_length
        then (f.testBit i || v.testBit (i - effective_start sig)) else f.testBit i := by
  have he : effective_start sig < 64 := by omega
  have hlen64 : sig.bit_length ≤ 64 := by omega
  have hlt : v % 2 ^ sig.bit_length * 2 ^ effective_start sig < 2 ^ 64 :=
    calc v % 2 ^ sig.bit_length * 2 ^ effective_start sig
        < 2 ^ sig.bit_length * 2 ^ effective_start sig :=
          Nat.mul_lt_mul_of_pos_right (Nat.mod_lt _ (by positivity)) (by positivity)
      _ = 2 ^ (sig.bit_length + effective_start sig) := (pow_add 2 _ _).symm
      _ ≤ 2 ^ 64 := Nat.pow_le_pow_right (by norm_num) (by omega)
  refine ⟨_, signal2serializer_x_eq sig v f hlen64 he, ?_, ?_⟩
  · rw [Nat.mod_eq_of_lt hlt]
    exact Nat.or_lt_two_pow hf hlt
  · intro i
    rw [Nat.mod_eq_of_lt hlt, Nat.testBit_or, Nat.mul_comm, Nat.testBit_mul_pow_two,
      Nat.testBit_mod_two_pow]
    by_cases h1 : effective_start sig ≤ i
    · by_cases h2 : i < effective_start sig + sig.bit_length
      · have h3 : i - effective_start sig < sig.bit_length := by omega
        simp [h1, h2, h3]
      · have h3 : ¬ (i - effective_start sig < sig.bit_length) := by omega
        simp [h1, h2, h3]
    · simp [h1]

/-- Witness of `insert_preserves_neighbours`: an all-ones accumulator, a 4-bit intel
signal at bit 8 and a value wider than the field. -/
theorem insert_preserves_neighbours_witness :
    ∃ r, signal2serializer_x ⟨8, 4, .endianess_intel_e, false, false, 1, 0, 0, 0⟩ 0x1F5
        0xFFFFFFFFFFFFFFFF = some r ∧ r < 2 ^ 64 ∧
      ∀ i, r.testBit i =
        if effective_start ⟨8, 4, .endianess_intel_e, false, false, 1, 0, 0, 0⟩ ≤ i ∧
            i < effective_start ⟨8, 4, .endianess_intel_e, false, false, 1, 0, 0, 0⟩
              + (⟨8, 4, .endianess_intel_e, false, false, 1, 0, 0, 0⟩ : signal_t).bit_length
        then (Nat.testBit 0xFFFFFFFFFFFFFFFF i ||
          Nat.testBit 0x1F5
            (i - effective_start ⟨8, 4, .endianess_intel_e, false, false, 1, 0, 0, 0⟩))
        else Nat.testBit 0xFFFFFFFFFFFFFFFF i :=
  insert_preserves_neighbours ⟨8, 4, .endianess_intel_e, false, false, 1, 0, 0, 0⟩
    0xFFFFFFFFFFFFFFFF 0x1F5 (by norm_num) (by decide) (by decide)

theorem spec_effective_start_eq (sig : signal_t) (h0 : 0 ≤ spec_effective_start sig)
    (hs : sig.start_bit ≤ 63) (hlen : 1 ≤ sig.bit_length) :
    effective_start sig = (spec_effective_start sig).toNat ∧
      (spec_effective_start sig).toNat < 64 := by
  unfold effective_start fix_start_bit is_motorola
  unfold spec_effective_start at h0 ⊢
  cases hE : sig.endianess
  · rw [hE] at h0
    simp only [beq_self_eq_true, if_true] at h0 ⊢
    push_cast
    omega
  · simp only [Int.toNat_ofNat]
    refine ⟨by rfl, hs.trans_lt (by norm_num)⟩

/-- C3. Extract equals its reference definition: for a signal of length in 1..64 and
start bit in 0..63 whose effective start `e` (the start bit for intel,
`8*(7 - start_bit/8) + start_bit%8 - (length-1)` for motorola) is not negative, the
deserializer yields `(w >> e) & mask`, which is `floor (w / 2^e) mod 2^length`. -/
theorem extract_eq_reference (sig : signal_t) (w : ℕ)
    (hlen : 1 ≤ sig.bit_length) (hlen64 : sig.bit_length ≤ 64) (hs : sig.start_bit ≤ 63)
    (h0 : 0 ≤ spec_effective_start sig) :
    signal2deserializer_x sig w = some (spec_extract w sig) ∧
      spec_extract w sig
        = w / 2 ^ (spec_effective_start sig).toNat % 2 ^ sig.bit_length := by
  obtain ⟨he, hlt⟩ := spec_effective_start_eq sig h0 hs hlen
  have hm : spec_mask sig.bit_length = 2 ^ sig.bit_length - 1 := by
    unfold spec_mask
    split_ifs with h
    · rw [h]
    · rfl
  have hx : spec_extract w sig
      = w / 2 ^ (spec_effective_start sig).toNat % 2 ^ sig.bit_length := by
    unfold spec_extract
    rw [hm, Nat.and_pow_two_sub_one_eq_mod, Nat.shiftRight_eq_div_pow]
  refine ⟨?_, hx⟩
  rw [signal2deserializer_x_eq sig w hlen64 (he ▸ hlt), hx, he]

/-- Witness of `extract_eq_reference`: a 12-bit motorola signal starting at bit 7. -/
theorem extract_eq_reference_witness :
    signal2deserializer_x ⟨7, 12, .endianess_motorola_e, false, false, 1, 0, 0, 0⟩
        0xFEDCBA9876543210
      = some (spec_extract 0xFEDCBA9876543210
          ⟨7, 12, .endianess_motorola_e, false, false, 1, 0, 0, 0⟩) ∧
      spec_extract 0xFEDCBA9876543210 ⟨7, 12, .endianess_motorola_e, false, false, 1, 0, 0, 0⟩
        = 0xFEDCBA9876543210
            / 2 ^ (spec_effective_start
                ⟨7, 12, .endianess_motorola_e, false, false, 1, 0, 0, 0⟩).toNat
            % 2 ^ (⟨7, 12, .endianess_motorola_e, false, false, 1, 0, 0, 0⟩ : signal_t).bit_length :=
  extract_eq_reference ⟨7, 12, .endianess_motorola_e, false, false, 1, 0, 0, 0⟩
    0xFEDCBA9876543210 (by decide) (by decide) (by decide) (by decide)

theorem determine_signed_type_width (n : ℕ) :
    (determine_signed_type n).width = spec_natural_width n := by
  unfold determine_signed_type spec_natural_width
  by_cases h8 : n ≤ 8
  · simp [h8, ctype.width]
  · by_cases h16 : n ≤ 16
    · simp [h8, h16, ctype.width]
    · by_cases h32 : n ≤ 32
      · simp [h8, h16, h32, ctype.width]
      · simp [h8, h16, h32, ctype.width]

theorem negative_mask_eq (n : ℕ) (h1 : 1 ≤ n) (h64 : n ≤ 64) :
    negative_mask n = 2 ^ spec_natural_width n - 2 ^ n := by
  interval_cases n <;> rfl

theorem testBit_top_iff (x n : ℕ) (h1 : 1 ≤ n) (hx : x < 2 ^ n) :
    x.testBit (n - 1) = true ↔ 2 ^ (n - 1) ≤ x := by
  obtain ⟨k, rfl⟩ : ∃ k, n = k + 1 := ⟨n - 1, by omega⟩
  simp only [Nat.add_sub_cancel]
  rw [Nat.testBit_to_div_mod, decide_eq_true_eq]
  have hdiv : x / 2 ^ k < 2 := by
    rw [Nat.div_lt_iff_lt_mul (by positivity)]
    rw [pow_succ] at hx
    omega
  have hle : 2 ^ k ≤ x ↔ 1 ≤ x / 2 ^ k := by
    rw [Nat.le_div_iff_mul_le (by positivity), one_mul]
  rw [hle]
  generalize x / 2 ^ k = q at hdiv ⊢
  omega

theorem and_top_ne_zero_iff (x k : ℕ) : x &&& 2 ^ k ≠ 0 ↔ x.testBit k = true := by
  constructor
  · intro h
    by_contra hb
    apply h
    apply Nat.eq_of_testBit_eq
    intro i
    rw [Nat.testBit_and, Nat.zero_testBit, Nat.testBit_two_pow]
    by_cases hik : k = i
    · subst hik; simp [hb]
    · simp [hik]
  · intro hb h
    have := congrArg (fun y => Nat.testBit y k) h
    simp [Nat.testBit_two_pow_self, hb] at this

theorem convert_signed_eq (n : ℕ) (z : ℤ) :
    (determine_signed_type n).convert z
      = if z % 2 ^ spec_natural_width n < 2 ^ (spec_natural_width n - 1)
        then z % 2 ^ spec_natural_width n
        else z % 2 ^ spec_natural_width n - 2 ^ spec_natural_width n := by
  unfold determine_signed_type spec_natural_width
  by_cases h8 : n ≤ 8
  · simp [h8, ctype.convert, ctype.width]
  · by_cases h16 : n ≤ 16
    · simp [h8, h16, ctype.convert, ctype.width]
    · by_cases h32 : n ≤ 32
      · simp [h8, h16, h32, ctype.convert, ctype.width]
      · simp [h8, h16, h32, ctype.convert, ctype.width]

theorem spec_natural_width_ge (n : ℕ) (h64 : n ≤ 64) :
    n ≤ spec_natural_width n ∧ 1 ≤ spec_natural_width n := by
  unfold spec_natural_width
  split_ifs <;> omega

theorem sign_extend_eq (n x : ℕ) (h1 : 1 ≤ n) (h64 : n ≤ 64) (hx : x < 2 ^ n) :
    sign_extend n x
      = if x.testBit (n - 1) then x + (2 ^ spec_natural_width n - 2 ^ n) else x := by
  have hW := (spec_natural_width_ge n h64).1
  have htop : (1 <<< (n - 1)) % 2 ^ 64 = 2 ^ (n - 1) := by
    rw [Nat.shiftLeft_eq, one_mul]
    exact Nat.mod_eq_of_lt (Nat.pow_lt_pow_right (by norm_num) (by omega))
  have hor : x ||| (2 ^ spec_natural_width n - 2 ^ n)
      = x + (2 ^ spec_natural_width n - 2 ^ n) := by
    have hsplit : 2 ^ spec_natural_width n - 2 ^ n
        = 2 ^ n * (2 ^ (spec_natural_width n - n) - 1) := by
      rw [Nat.mul_sub, mul_one, ← pow_add, Nat.add_sub_cancel' hW]
    rw [hsplit, Nat.lor_comm, ← Nat.mul_add_lt_is_or hx, Nat.add_comm]
  unfold sign_extend
  simp only [htop, negative_mask_eq n h1 h64, and_top_ne_zero_iff, hor]
  by_cases hz : 2 ^ spec_natural_width n - 2 ^ n = 0
  · simp [hz]
  · simp [hz]

theorem store_signed_eq (n y : ℕ) (h1 : 1 ≤ n) (h64 : n ≤ 64) (hy : y < 2 ^ n) :
    (determine_signed_type n).convert (sign_extend n y)
      = (if y.testBit (n - 1) then (y : ℤ) - 2 ^ n else (y : ℤ)) := by
  obtain ⟨hW, hW1⟩ := spec_natural_width_ge n h64
  rw [convert_signed_eq, sign_extend_eq _ _ h1 h64 hy]
  have hbit := testBit_top_iff y n h1 hy
  obtain ⟨m, hm⟩ : ∃ m, spec_natural_width n = m + 1 :=
    ⟨spec_natural_width n - 1, by omega⟩
  rw [hm] at hW ⊢
  obtain ⟨k, rfl⟩ : ∃ k, n = k + 1 := ⟨n - 1, by omega⟩
  have hkm : (2 : ℕ) ^ k ≤ 2 ^ m := Nat.pow_le_pow_right (by norm_num) (by omega)
  simp only [Nat.add_sub_cancel] at hbit ⊢
  have e1 : (2 : ℕ) ^ (k + 1) = 2 * 2 ^ k := by rw [pow_succ]; ring
  have e2 : (2 : ℕ) ^ (m + 1) = 2 * 2 ^ m := by rw [pow_succ]; ring
  have e3 : (2 : ℤ) ^ (k + 1) = 2 * 2 ^ k := by rw [pow_succ]; ring
  have e4 : (2 : ℤ) ^ (m + 1) = 2 * 2 ^ m := by rw [pow_succ]; ring
  have c1 : ((2 ^ k : ℕ) : ℤ) = 2 ^ k := by push_cast; rfl
  have c2 : ((2 ^ m : ℕ) : ℤ) = 2 ^ m := by push_cast; rfl
  rw [e1] at hy
  rw [e1, e2, e3, e4]
  generalize (2 : ℤ) ^ k = A at c1 ⊢
  generalize (2 : ℤ) ^ m = B at c2 ⊢
  generalize (2 : ℕ) ^ k = a at hkm hbit hy c1 ⊢
  generalize (2 : ℕ) ^ m = b at hkm c2 ⊢
  by_cases hb : y.testBit k = true
  · have hay := hbit.mp hb
    simp only [hb, if_true]
    have hz : ((y + (2 * b - 2 * a) : ℕ) : ℤ) = y + 2 * B - 2 * A := by
      rw [← c1, ← c2]; omega
    rw [hz]
    have hmod : ((y : ℤ) + 2 * B - 2 * A) % (2 * B) = y + 2 * B - 2 * A :=
      Int.emod_eq_of_lt (by omega) (by omega)
    rw [hmod, if_neg (by omega)]
    ring
  · have hay : ¬ a ≤ y := fun h => hb (hbit.mpr h)
    have hmod : (y : ℤ) % (2 * B) = y := Int.emod_eq_of_lt (by omega) (by omega)
    simp only [hb, Bool.false_eq_true, if_false]
    rw [hmod, if_pos (by omega)]

/-- C4. Sign extension: for a signed integer signal of length `n` in 1..64 and an
extracted value `x` below `2 ^ n`, the value the deserializer stores, read as a two's
complement integer of the natural width `W`, is `x - 2 ^ n` when bit `n - 1` of `x`
is set and `x` otherwise; the member's type is `W` bits wide, `W` the smallest of
8, 16, 32, 64 that is at least `n`; the extension mask is the complement of the
field mask truncated to `W` bits; and with `n = 8` raw `0xFF` is stored as `-1` and
raw `0x80` as `-128`. -/
theorem sign_extension (sig : signal_t) (x : ℕ) (hs : sig.is_signed = true)
    (h1 : 1 ≤ sig.bit_length) (h64 : sig.bit_length ≤ 64) (hx : x < 2 ^ sig.bit_length) :
    signal2deserializer_store sig x
        = (if x.testBit (sig.bit_length - 1) then (x : ℤ) - 2 ^ sig.bit_length else (x : ℤ))
      ∧ (determine_type sig.bit_length sig.is_signed).width
        = spec_natural_width sig.bit_length
      ∧ negative_mask sig.bit_length
        = (2 ^ 64 - 1 - spec_mask sig.bit_length) % 2 ^ spec_natural_width sig.bit_length
      ∧ (sig.bit_length = 8 →
          signal2deserializer_store sig 0xFF = -1 ∧
          signal2deserializer_store sig 0x80 = -128) := by
  have key : ∀ y : ℕ, y < 2 ^ sig.bit_length → signal2deserializer_store sig y
      = (if y.testBit (sig.bit_length - 1) then (y : ℤ) - 2 ^ sig.bit_length
          else (y : ℤ)) := by
    intro y hy
    unfold signal2deserializer_store determine_type
    simp only [hs, if_true]
    exact store_signed_eq _ y h1 h64 hy
  refine ⟨key x hx, ?_, ?_, ?_⟩
  · unfold determine_type
    simp only [hs, if_true]
    exact determine_signed_type_width _
  · rw [negative_mask_eq _ h1 h64]
    generalize sig.bit_length = n at h1 h64
    interval_cases n <;> rfl
  · intro h8
    have ha := key 0xFF (by rw [h8]; norm_num)
    have hb := key 0x80 (by rw [h8]; norm_num)
    rw [h8] at ha hb
    exact ⟨ha.trans (by decide), hb.trans (by decide)⟩

/-- Witness of `sign_extension`: an 8-bit signed signal and raw `0xFF`. -/
theorem sign_extension_witness :
    signal2deserializer_store ⟨0, 8, .endianess_intel_e, true, false, 1, 0, 0, 0⟩ 0xFF = -1 :=
  ((sign_extension ⟨0, 8, .endianess_intel_e, true, false, 1, 0, 0, 0⟩ 0xFF rfl
    (by decide) (by decide) (by decide)).2.2.2 rfl).1

/-! ## Theorems: rounding and `%g` -/

theorem round_half_even_spec (q : ℚ) :
    |(round_half_even q : ℚ) - q| ≤ 1 / 2 ∧
      (|(round_half_even q : ℚ) - q| = 1 / 2 → round_half_even q % 2 = 0) := by
  have h1 := Int.floor_le q
  have h2 := Int.lt_floor_add_one q
  unfold round_half_even
  split_ifs with ha hb hc
  · refine ⟨by rw [abs_le]; constructor <;> linarith, fun h => ?_⟩
    rw [abs_sub_comm, abs_of_nonneg (by linarith)] at h
    linarith
  · refine ⟨by rw [abs_le]; push_cast; constructor <;> linarith, fun h => ?_⟩
    push_cast at h
    rw [abs_of_nonneg (by linarith)] at h
    linarith
  · exact ⟨by rw [abs_le]; constructor <;> linarith, fun _ => hc⟩
  · refine ⟨by rw [abs_le]; push_cast; constructor <;> linarith, fun _ => ?_⟩
    omega

theorem round_half_even_unique (q : ℚ) (n : ℤ) (h : |(n : ℚ) - q| ≤ 1 / 2)
    (he : |(n : ℚ) - q| = 1 / 2 → n % 2 = 0) : round_half_even q = n := by
  obtain ⟨h1, h2⟩ := round_half_even_spec q
  generalize round_half_even q = m at h1 h2
  rw [abs_le] at h h1
  have hlt : (m : ℚ) - n ≤ 1 ∧ (n : ℚ) - m ≤ 1 := ⟨by linarith, by linarith⟩
  have hlt' : m - n ≤ 1 ∧ n - m ≤ 1 := by
    constructor
    · have : ((m - n : ℤ) : ℚ) ≤ ((1 : ℤ) : ℚ) := by push_cast; exact hlt.1
      exact_mod_cast this
    · have : ((n - m : ℤ) : ℚ) ≤ ((1 : ℤ) : ℚ) := by push_cast; exact hlt.2
      exact_mod_cast this
  by_contra hne
  have hcases : m = n + 1 ∨ n = m + 1 := by omega
  rcases hcases with hc | hc
  · have hmq : (m : ℚ) = n + 1 := by exact_mod_cast hc
    have e1 : (m : ℚ) - q = 1 / 2 := by linarith
    have e2 : (n : ℚ) - q = -(1 / 2) := by linarith
    have p1 := h2 (by rw [e1]; norm_num)
    have p2 := he (by rw [e2]; norm_num)
    omega
  · have hmq : (n : ℚ) = m + 1 := by exact_mod_cast hc
    have e1 : (n : ℚ) - q = 1 / 2 := by linarith
    have e2 : (m : ℚ) - q = -(1 / 2) := by linarith
    have p1 := he (by rw [e1]; norm_num)
    have p2 := h2 (by rw [e2]; norm_num)
    omega

theorem round_half_even_near (q : ℚ) (n : ℤ) (h : |(n : ℚ) - q| < 1 / 2) :
    round_half_even q = n :=
  round_half_even_unique q n h.le (fun he => absurd he (ne_of_lt h))

theorem round_half_even_intCast (z : ℤ) : round_half_even (z : ℚ) = z :=
  round_half_even_near _ z (by simp)

theorem round_half_even_neg (q : ℚ) : round_half_even (-q) = -round_half_even q := by
  obtain ⟨h1, h2⟩ := round_half_even_spec q
  apply round_half_even_unique
  · push_cast
    rw [show -(round_half_even q : ℚ) - -q = -((round_half_even q : ℚ) - q) by ring, abs_neg]
    exact h1
  · intro h
    push_cast at h
    rw [show -(round_half_even q : ℚ) - -q = -((round_half_even q : ℚ) - q) by ring, abs_neg] at h
    have := h2 h
    omega

theorem round_half_even_mono {q r : ℚ} (h : q ≤ r) : round_half_even q ≤ round_half_even r := by
  obtain ⟨h1, h2⟩ := round_half_even_spec q
  obtain ⟨h3, h4⟩ := round_half_even_spec r
  by_contra hlt
  rw [not_le] at hlt
  have hlt' : (round_half_even r : ℚ) + 1 ≤ round_half_even q := by exact_mod_cast hlt
  rw [abs_le] at h1 h3
  have e1 : (round_half_even q : ℚ) - q = 1 / 2 := by linarith
  have e3 : (round_half_even r : ℚ) - r = -(1 / 2) := by linarith
  have hqr : q = r := by linarith
  subst hqr
  omega

theorem int_log_eq (b : ℕ) (hb : 1 < b) (q : ℚ) (k : ℤ) (h1 : (b : ℚ) ^ k ≤ q)
    (h2 : q < (b : ℚ) ^ (k + 1)) : Int.log b q = k := by
  have hq : 0 < q := lt_of_lt_of_le (zpow_pos (by exact_mod_cast (by omega : 0 < b)) k) h1
  have a1 := (Int.zpow_le_iff_le_log hb hq).mp h1
  have a2 := (Int.lt_zpow_iff_log_lt hb hq).mp h2
  omega

theorem round_scaled_eval (b : ℕ) (hb : 1 < b) (q : ℚ) (k : ℤ)
    (h1 : (b : ℚ) ^ k ≤ |q|) (h2 : |q| < (b : ℚ) ^ (k + 1)) :
    q ≠ 0 ∧ Int.log b |q| = k := by
  have hpos : 0 < |q| := lt_of_lt_of_le (zpow_pos (by exact_mod_cast (by omega : 0 < b)) k) h1
  exact ⟨abs_pos.mp hpos, int_log_eq b hb _ k h1 h2⟩

theorem round_binary_eval (p : ℕ) (emin : ℤ) (q : ℚ) (k : ℤ) (h1 : (2 : ℚ) ^ k ≤ |q|)
    (h2 : |q| < (2 : ℚ) ^ (k + 1)) :
    round_binary p emin q
      = (round_half_even (q / 2 ^ (max k emin - ((p : ℤ) - 1))) : ℚ)
        * 2 ^ (max k emin - ((p : ℤ) - 1)) := by
  have h := round_scaled_eval 2 (by norm_num) q k (by exact_mod_cast h1)
    (by exact_mod_cast h2)
  unfold round_binary
  rw [if_neg h.1]
  simp only [h.2]

theorem fmt_g_eval (q : ℚ) (k : ℤ) (h1 : (10 : ℚ) ^ k ≤ |q|) (h2 : |q| < (10 : ℚ) ^ (k + 1)) :
    fmt_g q = (round_half_even (q / 10 ^ (k - 5)) : ℚ) * 10 ^ (k - 5) := by
  have h := round_scaled_eval 10 (by norm_num) q k (by exact_mod_cast h1)
    (by exact_mod_cast h2)
  unfold fmt_g
  rw [if_neg h.1]
  simp only [h.2]

/-- A multiple `m * b ^ e` of a power of the base with `|m| < b ^ p` is left unchanged by
rounding to `p` digits at any unit `b ^ u` with `u` at most `e` and... -/
theorem scaled_fixed (b : ℕ) (hb : 1 < b) (m e u : ℤ) (hu : u ≤ e) :
    (round_half_even ((m : ℚ) * (b : ℚ) ^ e / (b : ℚ) ^ u) : ℚ) * (b : ℚ) ^ u
      = (m : ℚ) * (b : ℚ) ^ e := by
  have hb0 : (b : ℚ) ≠ 0 := by exact_mod_cast (by omega : b ≠ 0)
  obtain ⟨n, hn⟩ := Int.eq_ofNat_of_zero_le (sub_nonneg.mpr hu)
  have he : e = u + n := by omega
  have hq : (m : ℚ) * (b : ℚ) ^ e / (b : ℚ) ^ u = ((m * (b : ℤ) ^ n : ℤ) : ℚ) := by
    rw [he, zpow_add₀ hb0, zpow_natCast]
    push_cast
    field_simp
    ring
  rw [hq, round_half_even_intCast, he, zpow_add₀ hb0, zpow_natCast]
  push_cast
  ring

theorem log_lt_of_abs_lt (b : ℕ) (hb : 1 < b) (q : ℚ) (hq : q ≠ 0) (x : ℤ)
    (h : |q| < (b : ℚ) ^ x) : Int.log b |q| < x :=
  (Int.lt_zpow_iff_log_lt hb (abs_pos.mpr hq)).mp h

theorem round_binary_fixed (p : ℕ) (emin : ℤ) (m e : ℤ) (hm : |m| < 2 ^ p)
    (he : emin - ((p : ℤ) - 1) ≤ e) :
    round_binary p emin ((m : ℚ) * 2 ^ e) = (m : ℚ) * 2 ^ e := by
  unfold round_binary
  split_ifs with h0
  · exact h0.symm
  · simp only []
    have hlt : |(m : ℚ) * 2 ^ e| < ((2 : ℕ) : ℚ) ^ ((p : ℤ) + e) := by
      rw [abs_mul, abs_of_pos (zpow_pos (by norm_num : (0 : ℚ) < 2) e), zpow_add₀ (by norm_num)]
      apply mul_lt_mul_of_pos_right _ (zpow_pos (by norm_num) e)
      rw [zpow_natCast]
      have : ((|m| : ℤ) : ℚ) < ((2 ^ p : ℤ) : ℚ) := by exact_mod_cast hm
      push_cast at this
      exact_mod_cast this
    have hlog := log_lt_of_abs_lt 2 (by norm_num) _ h0 _ hlt
    have hu : max (Int.log 2 |(m : ℚ) * 2 ^ e|) emin - ((p : ℤ) - 1) ≤ e := by
      rcases max_cases (Int.log 2 |(m : ℚ) * 2 ^ e|) emin with ⟨h, -⟩ | ⟨h, -⟩ <;> rw [h] <;> omega
    have := scaled_fixed 2 (by norm_num) m e _ hu
    exact_mod_cast this

theorem fmt_g_fixed (m e : ℤ) (hm : |m| < 10 ^ 6) :
    fmt_g ((m : ℚ) * 10 ^ e) = (m : ℚ) * 10 ^ e := by
  unfold fmt_g
  split_ifs with h0
  · exact h0.symm
  · simp only []
    have hlt : |(m : ℚ) * 10 ^ e| < ((10 : ℕ) : ℚ) ^ ((6 : ℤ) + e) := by
      rw [abs_mul, abs_of_pos (zpow_pos (by norm_num : (0 : ℚ) < 10) e), zpow_add₀ (by norm_num)]
      apply mul_lt_mul_of_pos_right _ (zpow_pos (by norm_num) e)
      have : ((|m| : ℤ) : ℚ) < ((10 ^ 6 : ℤ) : ℚ) := by exact_mod_cast hm
      push_cast at this
      exact_mod_cast this
    have hlog := log_lt_of_abs_lt 10 (by norm_num) _ h0 _ hlt
    have hu : Int.log 10 |(m : ℚ) * 10 ^ e| - 5 ≤ e := by omega
    have := scaled_fixed 10 (by norm_num) m e _ hu
    exact_mod_cast this

theorem round_binary_neg (p : ℕ) (emin : ℤ) (q : ℚ) :
    round_binary p emin (-q) = -round_binary p emin q := by
  unfold round_binary
  by_cases h0 : q = 0
  · simp [h0]
  · rw [if_neg h0, if_neg (neg_ne_zero.mpr h0)]
    simp only [abs_neg, neg_div, round_half_even_neg]
    push_cast
    ring

theorem round_binary_nonneg (p : ℕ) (emin : ℤ) (q : ℚ) (hq : 0 ≤ q) :
    0 ≤ round_binary p emin q := by
  unfold round_binary
  split_ifs with h0
  · exact le_refl 0
  · simp only []
    apply mul_nonneg _ (zpow_pos (by norm_num) _).le
    have h := round_half_even_mono (q := 0) (r := q / 2 ^ (max (Int.log 2 |q|) emin - ((p : ℤ) - 1)))
      (div_nonneg hq (zpow_pos (by norm_num) _).le)
    have h0' : round_half_even 0 = 0 := by
      have := round_half_even_intCast 0
      simpa using this
    rw [h0'] at h
    exact_mod_cast h

/-- A positive value rounds to at most the next power of two above its unit range. -/
theorem round_binary_le_pow (p : ℕ) (emin : ℤ) (q : ℚ) (hq : 0 < q) :
    round_binary p emin q ≤ 2 ^ (max (Int.log 2 |q|) emin + 1) := by
  have h0 : q ≠ 0 := hq.ne'
  unfold round_binary
  rw [if_neg h0]
  simp only []
  set E := max (Int.log 2 |q|) emin with hE
  have hu : (0 : ℚ) < 2 ^ (E - ((p : ℤ) - 1)) := zpow_pos (by norm_num) _
  have hlt : q < 2 ^ (E + 1) := by
    have h1 := Int.lt_zpow_succ_log_self (b := 2) (by norm_num) |q|
    rw [abs_of_pos hq] at h1 hE
    have h2 : ((2 : ℕ) : ℚ) ^ (Int.log 2 q + 1) ≤ ((2 : ℕ) : ℚ) ^ (E + 1) :=
      zpow_le_zpow_right₀ (by norm_num) (by rw [hE]; have := le_max_left (Int.log 2 q) emin; omega)
    have := lt_of_lt_of_le h1 h2
    exact_mod_cast this
  have hdiv : q / 2 ^ (E - ((p : ℤ) - 1)) ≤ (((2 : ℤ) ^ p : ℤ) : ℚ) := by
    rw [div_le_iff₀ hu]
    push_cast
    rw [← zpow_natCast, ← zpow_add₀ (by norm_num)]
    rw [show (p : ℤ) + (E - ((p : ℤ) - 1)) = E + 1 by ring]
    exact hlt.le
  have h := round_half_even_mono hdiv
  rw [round_half_even_intCast] at h
  have h' : (round_half_even (q / 2 ^ (E - ((p : ℤ) - 1))) : ℚ) ≤ (((2 : ℤ) ^ p : ℤ) : ℚ) := by
    exact_mod_cast h
  calc (round_half_even (q / 2 ^ (E - ((p : ℤ) - 1))) : ℚ) * 2 ^ (E - ((p : ℤ) - 1))
      ≤ (((2 : ℤ) ^ p : ℤ) : ℚ) * 2 ^ (E - ((p : ℤ) - 1)) :=
        mul_le_mul_of_nonneg_right h' hu.le
    _ = 2 ^ (E + 1) := by
        push_cast
        rw [← zpow_natCast, ← zpow_add₀ (by norm_num)]
        congr 1
        ring

/-- A positive value in the normal range rounds to at least the power of two below it. -/
theorem pow_le_round_binary (p : ℕ) (hp : 1 ≤ p) (emin : ℤ) (q : ℚ) (hq : 0 < q)
    (hn : emin ≤ Int.log 2 |q|) :
    2 ^ (Int.log 2 |q|) ≤ round_binary p emin q := by
  have h0 : q ≠ 0 := hq.ne'
  unfold round_binary
  rw [if_neg h0]
  simp only []
  rw [max_eq_left hn]
  set E := Int.log 2 |q| with hE
  have hu : (0 : ℚ) < 2 ^ (E - ((p : ℤ) - 1)) := zpow_pos (by norm_num) _
  have hge : (2 : ℚ) ^ E ≤ q := by
    have h1 := Int.zpow_log_le_self (b := 2) (r := |q|) (by norm_num) (abs_pos.mpr h0)
    rw [abs_of_pos hq] at h1 hE
    rw [hE]
    exact_mod_cast h1
  obtain ⟨n, hn'⟩ : ∃ n : ℕ, p = n + 1 := ⟨p - 1, by omega⟩
  have hdiv : (((2 : ℤ) ^ n : ℤ) : ℚ) ≤ q / 2 ^ (E - ((p : ℤ) - 1)) := by
    rw [le_div_iff₀ hu]
    push_cast
    rw [← zpow_natCast, ← zpow_add₀ (by norm_num)]
    rw [show (n : ℤ) + (E - ((p : ℤ) - 1)) = E by rw [hn']; push_cast; ring]
    exact hge
  have h := round_half_even_mono hdiv
  rw [round_half_even_intCast] at h
  have h' : (((2 : ℤ) ^ n : ℤ) : ℚ) ≤ (round_half_even (q / 2 ^ (E - ((p : ℤ) - 1))) : ℚ) := by
    exact_mod_cast h
  calc (2 : ℚ) ^ E = (((2 : ℤ) ^ n : ℤ) : ℚ) * 2 ^ (E - ((p : ℤ) - 1)) := by
        push_cast
        rw [← zpow_natCast, ← zpow_add₀ (by norm_num)]
        congr 1
        rw [hn']; push_cast; ring
    _ ≤ _ := mul_le_mul_of_nonneg_right h' hu.le

theorem round_binary_mono_pos (p : ℕ) (hp : 1 ≤ p) (emin : ℤ) (x y : ℚ) (hx : 0 < x)
    (hxy : x ≤ y) : round_binary p emin x ≤ round_binary p emin y := by
  have hy : 0 < y := lt_of_lt_of_le hx hxy
  have hlog : Int.log 2 |x| ≤ Int.log 2 |y| := by
    rw [abs_of_pos hx, abs_of_pos hy]
    exact Int.log_mono_right hx hxy
  rcases lt_or_eq_of_le (max_le_max hlog (le_refl emin)) with hlt | heq
  · have hn : emin ≤ Int.log 2 |y| := by
      by_contra hc
      rw [not_le] at hc
      rw [max_eq_right hc.le] at hlt
      have := le_max_right (Int.log 2 |x|) emin
      omega
    have hEy : max (Int.log 2 |y|) emin = Int.log 2 |y| := max_eq_left hn
    rw [hEy] at hlt
    calc round_binary p emin x ≤ 2 ^ (max (Int.log 2 |x|) emin + 1) :=
          round_binary_le_pow p emin x hx
      _ ≤ 2 ^ (Int.log 2 |y|) := zpow_le_zpow_right₀ (by norm_num) (by omega)
      _ ≤ round_binary p emin y := pow_le_round_binary p hp emin y hy hn
  · unfold round_binary
    rw [if_neg hx.ne', if_neg hy.ne']
    simp only []
    rw [heq]
    have hu : (0 : ℚ) < 2 ^ (max (Int.log 2 |y|) emin - ((p : ℤ) - 1)) := zpow_pos (by norm_num) _
    apply mul_le_mul_of_nonneg_right _ hu.le
    have := round_half_even_mono (div_le_div_of_nonneg_right hxy hu.le)
    exact_mod_cast this

theorem round_binary_mono (p : ℕ) (hp : 1 ≤ p) (emin : ℤ) {x y : ℚ} (hxy : x ≤ y) :
    round_binary p emin x ≤ round_binary p emin y := by
  rcases lt_trichotomy 0 x with hx | hx | hx
  · exact round_binary_mono_pos p hp emin x y hx hxy
  · rw [← hx] at hxy ⊢
    have : round_binary p emin 0 = 0 := by simp [round_binary]
    rw [this]
    exact round_binary_nonneg p emin y hxy
  · rcases le_or_lt 0 y with hy | hy
    · have h1 := round_binary_nonneg p emin (-x) (by linarith)
      rw [round_binary_neg] at h1
      have h2 := round_binary_nonneg p emin y hy
      linarith
    · have h := round_binary_mono_pos p hp emin (-y) (-x) (by linarith) (by linarith)
      rw [round_binary_neg, round_binary_neg] at h
      linarith

/-! ## Theorems: scaling transform -/

theorem signed_max_eq (sig : signal_t) (h1 : 1 ≤ sig.bit_length) (h64 : sig.bit_length ≤ 64) :
    (signed_max sig : ℚ) = 2 ^ (sig.bit_length - 1) - 1 := by
  unfold signed_max
  split_ifs with h
  · rw [h]; norm_num
  · have hlt : 2 ^ (sig.bit_length - 1) < 2 ^ 64 :=
      Nat.pow_lt_pow_right (by norm_num) (by omega)
    rw [Nat.shiftLeft_eq, one_mul, Nat.mod_eq_of_lt hlt]
    push_cast
    ring

theorem signed_min_eq (sig : signal_t) (h1 : 1 ≤ sig.bit_length) (h64 : sig.bit_length ≤ 64) :
    (signed_min sig : ℚ) = -2 ^ (sig.bit_length - 1) := by
  unfold signed_min
  split_ifs with h
  · rw [h]; norm_num
  · push_cast
    rw [signed_max_eq sig h1 h64]
    ring

theorem unsigned_max_eq (sig : signal_t) (h64 : sig.bit_length ≤ 64) :
    (unsigned_max sig : ℚ) = 2 ^ sig.bit_length - 1 := by
  unfold unsigned_max
  split_ifs with h
  · rw [h]; norm_num
  · have hlt : 2 ^ sig.bit_length < 2 ^ 64 :=
      Nat.pow_lt_pow_right (by norm_num) (by omega)
    rw [Nat.shiftLeft_eq, one_mul, Nat.mod_eq_of_lt hlt,
      Nat.cast_pred (by positivity)]
    push_cast
    ring

theorem gmin_iff (sig : signal_t) (h1 : 1 ≤ sig.bit_length) (h64 : sig.bit_length ≤ 64) :
    gmin sig = true ↔ spec_lower_active sig := by
  unfold gmin spec_lower_active
  cases hsg : sig.is_signed
  · simp
  · simp [signed_min_eq sig h1 h64]

theorem gmax_iff (sig : signal_t) (hf : sig.is_floating = false) (h1 : 1 ≤ sig.bit_length)
    (h64 : sig.bit_length ≤ 64) : gmax sig = true ↔ spec_upper_active sig := by
  unfold gmax spec_upper_active
  cases hsg : sig.is_signed
  · simp [hf, unsigned_max_eq sig h64]
  · simp [hf, signed_max_eq sig h1 h64]

theorem c_trunc_intCast (z : ℤ) : c_trunc (z : ℚ) = z := by
  unfold c_trunc
  split_ifs <;> simp

theorem round_double_fixed (m e : ℤ) (hm : |m| < 2 ^ 53) (he : -1074 ≤ e) :
    round_double ((m : ℚ) * 2 ^ e) = (m : ℚ) * 2 ^ e :=
  round_binary_fixed 53 (-1022) m e hm (by norm_num; omega)

theorem round_float_fixed (m e : ℤ) (hm : |m| < 2 ^ 24) (he : -149 ≤ e) :
    round_float ((m : ℚ) * 2 ^ e) = (m : ℚ) * 2 ^ e :=
  round_binary_fixed 24 (-126) m e hm (by norm_num; omega)

theorem round_double_mono {x y : ℚ} (h : x ≤ y) : round_double x ≤ round_double y :=
  round_binary_mono 53 (by norm_num) (-1022) h

theorem round_float_mono {x y : ℚ} (h : x ≤ y) : round_float x ≤ round_float y :=
  round_binary_mono 24 (by norm_num) (-126) h

/-- An integer of magnitude at most `2 ^ 53` is a `double`. -/
theorem round_double_intCast (z : ℤ) (hz : |z| ≤ 2 ^ 53) : round_double (z : ℚ) = z := by
  rcases lt_or_eq_of_le hz with h | h
  · have := round_double_fixed z 0 h (by norm_num)
    simpa using this
  · have hz2 : z = 2 ^ 53 ∨ z = -2 ^ 53 := by
      rcases abs_cases z with ⟨h1, -⟩ | ⟨h1, -⟩ <;> [left; right] <;> omega
    rcases hz2 with rfl | rfl
    · have := round_double_fixed 1 53 (by norm_num) (by norm_num)
      norm_num at this ⊢
      exact this
    · have := round_double_fixed (-1) 53 (by norm_num) (by norm_num)
      norm_num at this ⊢
      exact this

/-- A value of `float` is a value of `double`. -/
theorem float_is_double (q : ℚ) (h : round_float q = q) : round_double q = q := by
  by_cases h0 : q = 0
  · subst h0
    simp [round_double, round_binary]
  · unfold round_float round_binary at h
    rw [if_neg h0] at h
    simp only [] at h
    have hu : (0 : ℚ) < 2 ^ (max (Int.log 2 |q|) (-126) - (((24 : ℕ) : ℤ) - 1)) :=
      zpow_pos (by norm_num) _
    have hlt : |q / 2 ^ (max (Int.log 2 |q|) (-126) - (((24 : ℕ) : ℤ) - 1))| < 2 ^ 24 := by
      rw [abs_div, abs_of_pos hu, div_lt_iff₀ hu]
      have h1 := Int.lt_zpow_succ_log_self (b := 2) (by norm_num) |q|
      have h2 : ((2 : ℕ) : ℚ) ^ (Int.log 2 |q| + 1)
          ≤ 2 ^ 24 * 2 ^ (max (Int.log 2 |q|) (-126) - (((24 : ℕ) : ℤ) - 1)) := by
        rw [show ((2 : ℚ) ^ 24) = 2 ^ (24 : ℤ) by norm_num, ← zpow_add₀ (by norm_num)]
        push_cast
        apply zpow_le_zpow_right₀ (by norm_num)
        have := le_max_left (Int.log 2 |q|) (-126)
        omega
      exact lt_of_lt_of_le h1 h2
    obtain ⟨hs, -⟩ := round_half_even_spec
      (q / 2 ^ (max (Int.log 2 |q|) (-126) - (((24 : ℕ) : ℤ) - 1)))
    generalize round_half_even (q / 2 ^ (max (Int.log 2 |q|) (-126) - (((24 : ℕ) : ℤ) - 1)))
      = z at h hs
    have hz : |z| < 2 ^ 53 := by
      have hzq : |(z : ℚ)| < 2 ^ 24 + 1 := by
        have := abs_sub_abs_le_abs_sub (z : ℚ)
          (q / 2 ^ (max (Int.log 2 |q|) (-126) - (((24 : ℕ) : ℤ) - 1)))
        linarith
      have hzi : |z| < 2 ^ 24 + 1 := by
        have : ((|z| : ℤ) : ℚ) < ((2 ^ 24 + 1 : ℤ) : ℚ) := by
          push_cast
          norm_num at hzq ⊢
          exact hzq
        exact_mod_cast this
      omega
    rw [← h]
    apply round_double_fixed z _ hz
    have := le_max_right (Int.log 2 |q|) (-126)
    push_cast
    omega

theorem holds_float (q : ℚ) :
    ctype.holds ctype.float q = true ↔ round_float q = q ∧ |q| < 2 ^ 128 := by
  simp [ctype.holds]

/-- A printed statement whose exact result is a `float` leaves the exact result. -/
theorem c_float_op_exact (op : ℚ → ℚ → ℚ) (a x : ℚ)
    (h : ctype.holds ctype.float (op a (c_const x)) = true) :
    c_float_op op a x = op a (c_const x) := by
  rw [holds_float] at h
  unfold c_float_op
  split_ifs
  · exact h.1
  · rw [float_is_double _ h.1, h.1]

theorem round_float_intCast (z : ℤ) (hz : |z| < 2 ^ 24) : round_float (z : ℚ) = z := by
  have := round_float_fixed z 0 hz (by norm_num)
  simpa using this

theorem fmt_g_intCast (z : ℤ) (hz : |z| < 10 ^ 6) : fmt_g (z : ℚ) = z := by
  have := fmt_g_fixed z 0 hz
  simpa using this

/-- A constant printed for an integer below `10 ^ 6` in magnitude is that integer. -/
theorem c_const_intCast (z : ℤ) (hz : |z| < 10 ^ 6) :
    c_const (z : ℚ) = z ∧ c_const_is_int (z : ℚ) = true := by
  have hq : |(z : ℚ)| < 10 ^ 6 := by
    have : ((|z| : ℤ) : ℚ) < ((10 ^ 6 : ℤ) : ℚ) := by exact_mod_cast hz
    push_cast at this
    exact this
  unfold c_const c_const_is_int
  rw [fmt_g_intCast z hz]
  refine ⟨round_double_intCast z (by omega), ?_⟩
  simp [hq]

/-- The generated encoder on a value of its parameter's type, in terms of the
generator's flags. -/
theorem encode_eq (sig : signal_t) (ud : Bool) (old v : ℚ) (hs : sig.scaling ≠ 0)
    (hv : (scaling_io_type sig ud).holds v = true) :
    signal2scaling_encode sig ud old v =
      if sig.minimum ≠ sig.maximum ∧
          ((gmin sig = true ∧ c_lt (scaling_io_type sig ud) v sig.minimum = true)
            ∨ (gmax sig = true ∧ c_gt (scaling_io_type sig ud) v sig.maximum = true)) then
        some ⟨-1, 0⟩
      else if encode_overflows sig v = true then none
      else ((member_type sig).assign (encode_arith sig v)).map fun m => ⟨0, m⟩ := by
  unfold signal2scaling_encode signal_are_min_max_valid
  simp only [hs, if_false, hv, Bool.not_true, Bool.false_eq_true]
  by_cases hne : sig.minimum = sig.maximum
  · simp [hne]
  · cases hg : gmin sig <;> cases hg' : gmax sig <;>
      cases hl : c_lt (scaling_io_type sig ud) v sig.minimum <;>
      cases hu : c_gt (scaling_io_type sig ud) v sig.maximum <;> simp [hne]

/-- A result of the generated encoder comes from a nonzero scaling and a value of the
parameter's type. -/
theorem encode_some (sig : signal_t) (ud : Bool) (old v : ℚ) (r : encode_result)
    (h : signal2scaling_encode sig ud old v = some r) :
    sig.scaling ≠ 0 ∧ (scaling_io_type sig ud).holds v = true := by
  unfold signal2scaling_encode at h
  by_cases hs : sig.scaling = 0
  · rw [if_pos hs] at h
    exact absurd h (by simp)
  · refine ⟨hs, ?_⟩
    by_contra hv
    rw [if_neg hs] at h
    simp only [hv, Bool.not_false, if_true] at h
    exact absurd h (by simp)

/-- The generated encoder never returns anything but -1 and 0. -/
theorem encode_ret_cases (sig : signal_t) (ud : Bool) (old v : ℚ) (r : encode_result)
    (h : signal2scaling_encode sig ud old v = some r) : r.ret = -1 ∨ r.ret = 0 := by
  obtain ⟨hs, hv⟩ := encode_some sig ud old v r h
  rw [encode_eq sig ud old v hs hv] at h
  split_ifs at h
  · simp only [Option.some.injEq] at h
    subst h
    exact Or.inl rfl
  · rw [Option.map_eq_some'] at h
    obtain ⟨m, -, rfl⟩ := h
    exact Or.inr rfl

/-- Rejection by the generated encoder, in terms of the generator's flags. -/
theorem encode_rejects_iff (sig : signal_t) (ud : Bool) (old v : ℚ) (hs : sig.scaling ≠ 0)
    (hv : (scaling_io_type sig ud).holds v = true) :
    ((∃ r, signal2scaling_encode sig ud old v = some r ∧ r.ret = -1)
        ↔ sig.minimum ≠ sig.maximum ∧
          ((gmin sig = true ∧ c_lt (scaling_io_type sig ud) v sig.minimum = true)
            ∨ (gmax sig = true ∧ c_gt (scaling_io_type sig ud) v sig.maximum = true)))
      ∧ (sig.minimum ≠ sig.maximum ∧
          ((gmin sig = true ∧ c_lt (scaling_io_type sig ud) v sig.minimum = true)
            ∨ (gmax sig = true ∧ c_gt (scaling_io_type sig ud) v sig.maximum = true)) →
          signal2scaling_encode sig ud old v = some ⟨-1, 0⟩) := by
  rw [encode_eq sig ud old v hs hv]
  constructor
  · constructor
    · rintro ⟨r, hr, hret⟩
      by_contra hc
      rw [if_neg hc] at hr
      split_ifs at hr
      rw [Option.map_eq_some'] at hr
      obtain ⟨m, -, rfl⟩ := hr
      exact absurd hret (by norm_num)
    · intro h
      rw [if_pos h]
      exact ⟨_, rfl, rfl⟩
  · intro h
    rw [if_pos h]

/-- C5, as stated, fails: the unsigned 32-bit signal with bounds 0 and 1234567 has an
active upper bound, and the input 1234568 is above `maximum`; the generator prints
the test `in > 1.23457e+06`, so the generated encoder accepts 1234568 and stores it. -/
theorem encode_accepts_above_maximum :
    spec_rejects ⟨0, 32, .endianess_intel_e, false, false, 1, 0, 0, 1234567⟩ 1234568 ∧
      signal2scaling_encode ⟨0, 32, .endianess_intel_e, false, false, 1, 0, 0, 1234567⟩ false
        0 1234568 = some ⟨0, 1234568⟩ := by
  constructor
  · norm_num [spec_rejects, spec_lower_active, spec_upper_active]
  · have hfmt : fmt_g 1234567 = 1234570 := by
      rw [fmt_g_eval 1234567 6 (by norm_num [abs_of_nonneg]) (by norm_num [abs_of_nonneg])]
      have hr : round_half_even ((1234567 : ℚ) / 10 ^ ((6 : ℤ) - 5)) = 123457 := by
        apply round_half_even_near
        norm_num [abs_of_nonneg]
      rw [hr]
      norm_num
    have hc : c_const 1234567 = 1234570 := by
      unfold c_const
      rw [hfmt]
      exact_mod_cast round_double_intCast 1234570 (by norm_num)
    have hv : round_double 1234568 = 1234568 := by
      exact_mod_cast round_double_intCast 1234568 (by norm_num)
    have hi : c_const_is_int 1234567 = false := by
      unfold c_const_is_int
      rw [hfmt]
      norm_num [abs_of_nonneg]
    have htr : c_trunc (1234568 : ℚ) = 1234568 := by
      exact_mod_cast c_trunc_intCast 1234568
    have ht : scaling_io_type ⟨0, 32, .endianess_intel_e, false, false, 1, 0, 0, 1234567⟩ false
        = ctype.uint32_t := by
      simp [scaling_io_type, scaling_type, determine_type, determine_unsigned_type]
    have hm : member_type ⟨0, 32, .endianess_intel_e, false, false, 1, 0, 0, 1234567⟩
        = ctype.uint32_t := by
      simp [member_type, determine_type, determine_unsigned_type]
    rw [encode_eq _ _ _ _ (by norm_num)
      (by rw [ht]; norm_num [ctype.holds, ctype.lowest, ctype.highest, ctype.width])]
    rw [ht, hm]
    norm_num [c_gt, c_lt, c_compare, ctype.is_integer, hi, hc, hv, gmin, gmax, unsigned_max,
      encode_overflows, encode_arith, ctype.assign, htr, ctype.lowest, ctype.highest,
      ctype.width]

theorem spec_rejects_printed_iff (sig : signal_t) (ud : Bool) (v : ℚ)
    (hf : sig.is_floating = false) (h1 : 1 ≤ sig.bit_length) (h64 : sig.bit_length ≤ 64) :
    spec_rejects_printed sig ud v ↔ sig.minimum ≠ sig.maximum ∧
      ((gmin sig = true ∧ c_lt (scaling_io_type sig ud) v sig.minimum = true)
        ∨ (gmax sig = true ∧ c_gt (scaling_io_type sig ud) v sig.maximum = true)) := by
  unfold spec_rejects_printed
  rw [gmin_iff sig h1 h64, gmax_iff sig hf h1 h64]

/-- The values 50 and 150 are values of the parameter of an 8-bit unsigned signal. -/
theorem holds_small (sig : signal_t) (ud : Bool) (z : ℤ) (hz0 : 0 ≤ z) (hz : z ≤ 255)
    (hu : sig.is_signed = false) (h8 : sig.bit_length = 8) :
    (scaling_io_type sig ud).holds (z : ℚ) = true := by
  have hzq0 : (0 : ℚ) ≤ z := by exact_mod_cast hz0
  have hzq : (z : ℚ) ≤ 255 := by exact_mod_cast hz
  have habs : |(z : ℚ)| < 2 ^ 128 := by
    rw [abs_of_nonneg hzq0]
    linarith [show (255 : ℚ) < 2 ^ 128 by norm_num]
  have hfl : ctype.holds ctype.float (z : ℚ) = true := by
    rw [holds_float]
    exact ⟨round_float_intCast z (by rw [abs_of_nonneg hz0]; omega), habs⟩
  unfold scaling_io_type scaling_type
  split_ifs
  · exact hfl
  · exact hfl
  · rw [hu, h8]
    simp [determine_type, determine_unsigned_type, ctype.holds, ctype.lowest, ctype.highest,
      ctype.width, hzq0]
    linarith

/-- C5, amended. Encode accept/reject rule for an integer (non-floating) signal of
length `n` in 1..64 with nonzero scaling and an input `v` of the parameter's type: the
generated encoder returns -1 exactly when `minimum` and `maximum` differ and `v` fails
the printed test of an active bound (active as in section 4.4), where the bound in
the test is the constant printed with `%g`, six significant digits, and the operands
are converted as C converts them; it returns 0 in every other case in which the
assignment to the member is defined.  For a `float` parameter the tests are
`v < c_const minimum` and `v > c_const maximum`.  Consequences: equal bounds disable
checking; an unsigned 8-bit signal with bounds 0 and 255 never rejects; an unsigned
8-bit signal with bounds 0 and 100, scaling 1 and offset 0 rejects 150 and accepts
50. -/
theorem encode_accept_reject (sig : signal_t) (ud : Bool) (old v : ℚ)
    (hf : sig.is_floating = false) (h1 : 1 ≤ sig.bit_length) (h64 : sig.bit_length ≤ 64)
    (hs : sig.scaling ≠ 0) (hv : (scaling_io_type sig ud).holds v = true) :
    ((∃ r, signal2scaling_encode sig ud old v = some r ∧ r.ret = -1)
        ↔ spec_rejects_printed sig ud v)
      ∧ (∀ r, signal2scaling_encode sig ud old v = some r →
          (r.ret = 0 ↔ ¬ spec_rejects_printed sig ud v))
      ∧ (¬ spec_rejects_printed sig ud v → encode_overflows sig v = false →
          ∀ m, (member_type sig).assign (encode_arith sig v) = some m →
            signal2scaling_encode sig ud old v = some ⟨0, m⟩)
      ∧ (scaling_io_type sig ud = ctype.float →
          (spec_rejects_printed sig ud v ↔ sig.minimum ≠ sig.maximum ∧
            ((spec_lower_active sig ∧ v < c_const sig.minimum)
              ∨ (spec_upper_active sig ∧ v > c_const sig.maximum))))
      ∧ (sig.minimum = sig.maximum → ¬ spec_rejects_printed sig ud v)
      ∧ (sig.is_signed = false → sig.bit_length = 8 → sig.minimum = 0 →
          sig.maximum = 255 → ¬ spec_rejects_printed sig ud v)
      ∧ (sig.is_signed = false → sig.bit_length = 8 → sig.minimum = 0 →
          sig.maximum = 100 → sig.scaling = 1 → sig.offset = 0 →
          (signal2scaling_encode sig ud old 150).map encode_result.ret = some (-1) ∧
          (signal2scaling_encode sig ud old 50).map encode_result.ret = some 0) := by
  have hiff := spec_rejects_printed_iff sig ud v hf h1 h64
  obtain ⟨hrej, -⟩ := encode_rejects_iff sig ud old v hs hv
  refine ⟨by rw [hiff]; exact hrej, ?_, ?_, ?_, ?_, ?_, ?_⟩
  · intro r hr
    rw [hiff, ← hrej]
    constructor
    · rintro h0 ⟨r2, hr2, hret⟩
      rw [hr, Option.some_inj] at hr2
      subst hr2
      rw [h0] at hret
      exact absurd hret (by norm_num)
    · intro hno
      rcases encode_ret_cases sig ud old v r hr with h | h
      · exact absurd ⟨r, hr, h⟩ hno
      · exact h
  · intro hno hov m hm
    rw [hiff] at hno
    rw [encode_eq sig ud old v hs hv, if_neg hno, hov, hm]
    rfl
  · intro ht
    unfold spec_rejects_printed c_lt c_gt c_compare
    rw [ht]
    simp [ctype.is_integer]
  · intro heq h
    exact h.1 heq
  · intro hu h8 hmin hmax h
    unfold spec_rejects_printed spec_lower_active spec_upper_active at h
    rw [hu, h8, hmin, hmax] at h
    norm_num at h
  · intro hu h8 hmin hmax hsc hof
    have hgmin : gmin sig = false := by
      unfold gmin
      simp [hu, hmin]
    have hgmax : gmax sig = true := by
      unfold gmax
      simp [hu, hf, hmax, unsigned_max, h8, Nat.shiftLeft_eq]
      norm_num
    have hne : sig.minimum ≠ sig.maximum := by rw [hmin, hmax]; norm_num
    obtain ⟨hc100, hi100⟩ := c_const_intCast 100 (by norm_num)
    have hfmt100 : fmt_g 100 = 100 := by exact_mod_cast fmt_g_intCast 100 (by norm_num)
    have hcmp : ∀ z : ℤ, c_compare (scaling_io_type sig ud) (z : ℚ) sig.maximum
        = ((z : ℚ), 100) ∨ c_compare (scaling_io_type sig ud) (z : ℚ) sig.maximum
        = ((z : ℚ), ((c_trunc (100 : ℚ) % 2 ^ (scaling_io_type sig ud).width : ℤ) : ℚ)) := by
      intro z
      unfold c_compare
      rw [hmax]
      norm_num at hc100 hi100
      rw [hi100, hc100, hfmt100]
      simp only [if_true]
      split_ifs
      · right; rfl
      · left; rfl
      · left; rfl
    have hmember : member_type sig = ctype.uint16_t := by
      simp [member_type, hf, hu, h8, determine_type, determine_unsigned_type]
    have harith : ∀ u : ℚ, encode_arith sig u = u ∧ encode_overflows sig u = false := by
      intro u
      unfold encode_overflows encode_arith
      simp [hsc, hof]
    constructor
    · have h150 := holds_small sig ud 150 (by norm_num) (by norm_num) hu h8
      push_cast at h150
      have hgt : c_gt (scaling_io_type sig ud) 150 sig.maximum = true := by
        unfold c_gt
        have htr : c_trunc (100 : ℚ) = 100 := by exact_mod_cast c_trunc_intCast 100
        rcases hcmp 150 with h | h
        · push_cast at h
          rw [h]
          norm_num
        · push_cast at h
          rw [h, htr]
          unfold scaling_io_type scaling_type
          simp [hsc, hof, hu, h8, determine_type, determine_unsigned_type, ctype.width]
          split_ifs <;> norm_num
      rw [(encode_rejects_iff sig ud old 150 hs h150).2 ⟨hne, Or.inr ⟨hgmax, hgt⟩⟩]
      rfl
    · have h50 := holds_small sig ud 50 (by norm_num) (by norm_num) hu h8
      push_cast at h50
      have hgt : c_gt (scaling_io_type sig ud) 50 sig.maximum = false := by
        unfold c_gt
        have htr : c_trunc (100 : ℚ) = 100 := by exact_mod_cast c_trunc_intCast 100
        rcases hcmp 50 with h | h
        · push_cast at h
          rw [h]
          norm_num
        · push_cast at h
          rw [h, htr]
          unfold scaling_io_type scaling_type
          simp [hsc, hof, hu, h8, determine_type, determine_unsigned_type, ctype.width]
          split_ifs <;> norm_num
      have htr50 : c_trunc (50 : ℚ) = 50 := by exact_mod_cast c_trunc_intCast 50
      rw [encode_eq sig ud old 50 hs h50, if_neg (by simp [hgmin, hgt]), (harith 50).2,
        (harith 50).1, hmember]
      simp [ctype.assign, htr50, ctype.lowest, ctype.highest, ctype.width]

/-- Witness of `encode_accept_reject`: the unsigned 8-bit signal with bounds 0 and
100 rejects 150. -/
theorem encode_accept_reject_witness :
    (signal2scaling_encode ⟨0, 8, .endianess_intel_e, false, false, 1, 0, 0, 100⟩ false 7
      150).map encode_result.ret = some (-1) :=
  ((encode_accept_reject ⟨0, 8, .endianess_intel_e, false, false, 1, 0, 0, 100⟩ false 7 150
    rfl (by decide) (by decide) (by norm_num)
    (by
      have := holds_small ⟨0, 8, .endianess_intel_e, false, false, 1, 0, 0, 100⟩ false 150
        (by norm_num) (by norm_num) rfl rfl
      push_cast at this
      exact this)).2.2.2.2.2.2 rfl rfl rfl rfl rfl rfl).1

/-- An accepted call of the generated encoder, in terms of the generator's flags. -/
theorem encode_accepts (sig : signal_t) (ud : Bool) (old v m : ℚ) (hs : sig.scaling ≠ 0)
    (hv : (scaling_io_type sig ud).holds v = true)
    (hno : ¬ (sig.minimum ≠ sig.maximum ∧
      ((gmin sig = true ∧ c_lt (scaling_io_type sig ud) v sig.minimum = true)
        ∨ (gmax sig = true ∧ c_gt (scaling_io_type sig ud) v sig.maximum = true))))
    (hov : encode_overflows sig v = false)
    (hm : (member_type sig).assign (encode_arith sig v) = some m) :
    signal2scaling_encode sig ud old v = some ⟨0, m⟩ := by
  rw [encode_eq sig ud old v hs hv, if_neg hno, hov, hm]
  rfl

/-- C6, as stated, fails: a 32-bit floating signal with bounds 0 and 100 is
range-checked on encode, and the input 150 is rejected. -/
theorem floating_encode_rejects :
    (⟨0, 32, .endianess_intel_e, false, true, 1, 0, 0, 100⟩ : signal_t).is_floating = true ∧
      signal2scaling_encode ⟨0, 32, .endianess_intel_e, false, true, 1, 0, 0, 100⟩ false 0 150
        = some ⟨-1, 0⟩ := by
  refine ⟨rfl, ?_⟩
  have ht : scaling_io_type ⟨0, 32, .endianess_intel_e, false, true, 1, 0, 0, 100⟩ false
      = ctype.uint32_t := by
    simp [scaling_io_type, scaling_type, determine_type, determine_unsigned_type]
  obtain ⟨hc100, hi100⟩ := c_const_intCast 100 (by norm_num)
  have hfmt100 : fmt_g 100 = 100 := by exact_mod_cast fmt_g_intCast 100 (by norm_num)
  have htr : c_trunc (100 : ℚ) = 100 := by exact_mod_cast c_trunc_intCast 100
  norm_num at hi100
  apply (encode_rejects_iff _ _ _ _ (by norm_num) _).2
  · refine ⟨by norm_num, Or.inr ⟨by simp [gmax], ?_⟩⟩
    rw [ht]
    norm_num [c_gt, c_compare, ctype.is_integer, hi100, hfmt100, htr, ctype.width]
  · rw [ht]
    norm_num [ctype.holds, ctype.lowest, ctype.highest, ctype.width]

/-- C6, amended. On a floating signal with nonzero scaling and an input `v` of the
parameter's type, the upper bound is always checked when `minimum` and `maximum`
differ, whatever the integer range of `bit_length`: an input that fails the printed
test `in > maximum` (for a `float` parameter: `v > c_const maximum`, the bound as
`%g` prints it) is rejected; an input that passes both printed tests is never
rejected and is accepted whenever the arithmetic and the assignment are defined; and
with `minimum` equal to `maximum` nothing is checked. -/
theorem floating_encode_upper_bound (sig : signal_t) (ud : Bool) (old v : ℚ)
    (hf : sig.is_floating = true) (hs : sig.scaling ≠ 0)
    (hv : (scaling_io_type sig ud).holds v = true) :
    (sig.minimum ≠ sig.maximum → c_gt (scaling_io_type sig ud) v sig.maximum = true →
        signal2scaling_encode sig ud old v = some ⟨-1, 0⟩)
      ∧ (scaling_io_type sig ud = ctype.float →
          (c_gt (scaling_io_type sig ud) v sig.maximum = true ↔ v > c_const sig.maximum))
      ∧ (sig.minimum = sig.maximum ∨
          (c_lt (scaling_io_type sig ud) v sig.minimum = false ∧
            c_gt (scaling_io_type sig ud) v sig.maximum = false) →
          (∀ r, signal2scaling_encode sig ud old v = some r → r.ret = 0) ∧
          (encode_overflows sig v = false →
            ∀ m, (member_type sig).assign (encode_arith sig v) = some m →
              signal2scaling_encode sig ud old v = some ⟨0, m⟩)) := by
  have hg : gmax sig = true := by
    unfold gmax
    simp [hf]
  obtain ⟨hrej, hrej2⟩ := encode_rejects_iff sig ud old v hs hv
  refine ⟨fun hne hgt => hrej2 ⟨hne, Or.inr ⟨hg, hgt⟩⟩, ?_, ?_⟩
  · intro ht
    unfold c_gt c_compare
    rw [ht]
    simp [ctype.is_integer]
  · intro h
    have hno : ¬ (sig.minimum ≠ sig.maximum ∧
        ((gmin sig = true ∧ c_lt (scaling_io_type sig ud) v sig.minimum = true)
          ∨ (gmax sig = true ∧ c_gt (scaling_io_type sig ud) v sig.maximum = true))) := by
      rintro ⟨hne, hb⟩
      rcases h with h | ⟨h1, h2⟩
      · exact hne h
      · rcases hb with ⟨-, hb⟩ | ⟨-, hb⟩
        · rw [h1] at hb
          exact absurd hb (by simp)
        · rw [h2] at hb
          exact absurd hb (by simp)
    refine ⟨fun r hr => ?_, fun hov m hm => encode_accepts sig ud old v m hs hv hno hov hm⟩
    rcases encode_ret_cases sig ud old v r hr with h1 | h1
    · exact absurd (hrej.mp ⟨r, hr, h1⟩) hno
    · exact h1

/-- Witness of `floating_encode_upper_bound`: a 32-bit floating signal whose
`maximum` is beyond the 32-bit unsigned range still rejects an input above it. -/
theorem floating_encode_upper_bound_witness :
    signal2scaling_encode ⟨0, 32, .endianess_intel_e, false, true, 1, 0, 0, 5000000000⟩ true 0
      6000000000 = some ⟨-1, 0⟩ := by
  have ht : scaling_io_type ⟨0, 32, .endianess_intel_e, false, true, 1, 0, 0, 5000000000⟩ true
      = ctype.float := rfl
  have hv : round_float 6000000000 = 6000000000 := by
    have := round_float_fixed 5859375 10 (by norm_num) (by norm_num)
    norm_num at this
    exact this
  have hc : c_const 5000000000 = 5000000000 := by
    unfold c_const
    have h1 := fmt_g_fixed 5 9 (by norm_num)
    norm_num at h1
    rw [h1]
    exact_mod_cast round_double_intCast 5000000000 (by norm_num)
  exact (floating_encode_upper_bound
    ⟨0, 32, .endianess_intel_e, false, true, 1, 0, 0, 5000000000⟩ true 0 6000000000 rfl
    (by norm_num)
    (by rw [ht, holds_float]; exact ⟨hv, by norm_num [abs_of_nonneg]⟩)).1 (by norm_num)
    (by rw [ht]; norm_num [c_gt, c_compare, ctype.is_integer, hc])

theorem holds_double (q : ℚ) :
    ctype.holds ctype.double q = true ↔ round_double q = q ∧ |q| < 2 ^ 1024 := by
  simp [ctype.holds]

theorem determine_type_is_integer (n : ℕ) (s : Bool) : (determine_type n s).is_integer = true := by
  unfold determine_type determine_signed_type determine_unsigned_type
  cases s <;> simp only [Bool.false_eq_true, if_false, if_true] <;> split_ifs <;> rfl

/-- The assignment to a variable of an integer type. -/
theorem assign_integer (t : ctype) (ht : t.is_integer = true) (q : ℚ) :
    t.assign q = if t.lowest ≤ c_trunc q ∧ c_trunc q ≤ t.highest
      then some ((c_trunc q : ℤ) : ℚ) else none := by
  cases t <;> first | rfl | exact absurd ht (by simp [ctype.is_integer])

/-- The values of an integer type. -/
theorem holds_integer (t : ctype) (ht : t.is_integer = true) (q : ℚ) :
    t.holds q = true ↔ q.den = 1 ∧ (t.lowest : ℚ) ≤ q ∧ q ≤ (t.highest : ℚ) := by
  cases t <;> first
    | (exfalso; simp [ctype.is_integer] at ht; done)
    | (simp only [ctype.holds, Bool.and_eq_true, decide_eq_true_eq, and_assoc])

/-- A value of the type is assigned unchanged. -/
theorem assign_of_holds (t : ctype) (q : ℚ) (h : t.holds q = true) : t.assign q = some q := by
  by_cases ht : t.is_integer = true
  · rw [holds_integer t ht] at h
    obtain ⟨hden, hlo, hhi⟩ := h
    have hq : q = ((q.num : ℤ) : ℚ) := by
      conv_lhs => rw [← Rat.num_div_den q, hden]
      simp
    rw [assign_integer t ht, hq, c_trunc_intCast]
    rw [hq] at hlo hhi
    rw [if_pos ⟨by exact_mod_cast hlo, by exact_mod_cast hhi⟩]
  · cases t <;> first
      | exact absurd rfl ht
      | (rw [holds_float] at h
         simp only [ctype.assign, h.1, h.2, if_true])
      | (rw [holds_double] at h
         simp only [ctype.assign, h.1, h.2, if_true])

/-- The arithmetic of the generated encoder when the printed constants are `-offset`
and `1/scaling` themselves and the two results are values of `float`. -/
theorem encode_arith_exact (sig : signal_t) (v : ℚ)
    (hoff : sig.offset ≠ 0 → c_const (-1 * sig.offset) = -sig.offset ∧
      ctype.holds ctype.float (v - sig.offset) = true)
    (hscl : sig.scaling ≠ 1 → c_const (round_double (1 / sig.scaling)) = 1 / sig.scaling ∧
      ctype.holds ctype.float ((v - sig.offset) / sig.scaling) = true) :
    encode_arith sig v = (v - sig.offset) / sig.scaling ∧ encode_overflows sig v = false := by
  have ha : (if sig.offset ≠ 0 then c_float_op (· + ·) v (-1 * sig.offset) else v)
      = v - sig.offset := by
    split_ifs with h
    · obtain ⟨hc, hh⟩ := hoff h
      have hh' : ctype.holds ctype.float (v + c_const (-1 * sig.offset)) = true := by
        rw [hc, ← sub_eq_add_neg]
        exact hh
      rw [c_float_op_exact (· + ·) v _ hh', hc]
      ring
    · rw [not_not] at h
      rw [h, sub_zero]
  have hb : encode_arith sig v = (v - sig.offset) / sig.scaling := by
    unfold encode_arith
    simp only [ha]
    split_ifs with h
    · obtain ⟨hc, hh⟩ := hscl h
      have hh' : ctype.holds ctype.float
          ((v - sig.offset) * c_const (round_double (1 / sig.scaling))) = true := by
        rw [hc, mul_one_div]
        exact hh
      rw [c_float_op_exact (· * ·) _ _ hh', hc, mul_one_div]
    · rw [not_not] at h
      rw [h, div_one]
  refine ⟨hb, ?_⟩
  unfold encode_overflows
  rw [hb]
  by_cases h1 : sig.offset ≠ 0
  · have hlt := ((holds_float _).mp (hoff h1).2).2
    rw [if_pos h1] at ha
    rw [ha]
    by_cases h2 : sig.scaling ≠ 1
    · have hlt2 := ((holds_float _).mp (hscl h2).2).2
      simp [h1, h2, not_le.mpr hlt, not_le.mpr hlt2]
    · simp [h1, h2, not_le.mpr hlt]
  · by_cases h2 : sig.scaling ≠ 1
    · have hlt2 := ((holds_float _).mp (hscl h2).2).2
      simp [h1, h2, not_le.mpr hlt2]
    · simp [h1, h2]

/-- The member after an accepted call of the generated encoder. -/
theorem encode_stored (sig : signal_t) (ud : Bool) (old v : ℚ) (r : encode_result)
    (h : signal2scaling_encode sig ud old v = some r) (h0 : r.ret = 0) :
    (member_type sig).assign (encode_arith sig v) = some r.stored ∧
      encode_overflows sig v = false := by
  obtain ⟨hs, hv⟩ := encode_some sig ud old v r h
  rw [encode_eq sig ud old v hs hv] at h
  split_ifs at h with h1 h2
  · simp only [Option.some.injEq] at h
    subst h
    exact absurd h0 (by norm_num)
  · rw [Option.map_eq_some'] at h
    obtain ⟨m, hm, rfl⟩ := h
    exact ⟨hm, by simpa using h2⟩

/-- The member after an accepted call when the arithmetic is exact. -/
theorem encode_stored_exact (sig : signal_t) (ud : Bool) (old v : ℚ)
    (hoff : sig.offset ≠ 0 → c_const (-1 * sig.offset) = -sig.offset ∧
      ctype.holds ctype.float (v - sig.offset) = true)
    (hscl : sig.scaling ≠ 1 → c_const (round_double (1 / sig.scaling)) = 1 / sig.scaling ∧
      ctype.holds ctype.float ((v - sig.offset) / sig.scaling) = true)
    (hmem : sig.is_floating = true →
      (member_type sig).holds ((v - sig.offset) / sig.scaling) = true)
    (r : encode_result) (h : signal2scaling_encode sig ud old v = some r) (h0 : r.ret = 0) :
    r.stored = if sig.is_floating then (v - sig.offset) / sig.scaling
      else (c_trunc ((v - sig.offset) / sig.scaling) : ℚ) := by
  obtain ⟨hst, -⟩ := encode_stored sig ud old v r h h0
  rw [(encode_arith_exact sig v hoff hscl).1] at hst
  cases hfl : sig.is_floating
  · have hint : (member_type sig).is_integer = true := by
      unfold member_type
      rw [hfl]
      exact determine_type_is_integer _ _
    rw [assign_integer _ hint] at hst
    split_ifs at hst
    simp only [Option.some.injEq] at hst
    simp [← hst]
  · rw [assign_of_holds _ _ (hmem hfl), Option.some_inj] at hst
    simp [← hst]

/-- The member after an accepted call, case by case: the value that the printed
arithmetic leaves in `in`, truncated toward zero for an integer signal and rounded to
the member's type for a floating one. -/
theorem encode_stored_value (sig : signal_t) (ud : Bool) (old v : ℚ) (r : encode_result)
    (h : signal2scaling_encode sig ud old v = some r) (h0 : r.ret = 0) :
    (sig.is_floating = false → r.stored = (c_trunc (encode_arith sig v) : ℚ))
      ∧ (sig.is_floating = true → sig.bit_length ≠ 64 →
          r.stored = round_float (encode_arith sig v))
      ∧ (sig.is_floating = true → sig.bit_length = 64 →
          r.stored = round_double (encode_arith sig v)) := by
  obtain ⟨hst, -⟩ := encode_stored sig ud old v r h h0
  refine ⟨fun hfl => ?_, fun hfl hb => ?_, fun hfl hb => ?_⟩
  · have hint : (member_type sig).is_integer = true := by
      unfold member_type
      rw [hfl]
      exact determine_type_is_integer _ _
    rw [assign_integer _ hint] at hst
    split_ifs at hst
    simp only [Option.some.injEq] at hst
    exact hst.symm
  · have hm : member_type sig = ctype.float := by
      unfold member_type
      rw [hfl, if_pos rfl, if_neg hb]
    rw [hm] at hst
    unfold ctype.assign at hst
    simp only at hst
    split_ifs at hst
    simp only [Option.some.injEq] at hst
    exact hst.symm
  · have hm : member_type sig = ctype.double := by
      unfold member_type
      rw [hfl, if_pos rfl, if_pos hb]
    rw [hm] at hst
    unfold ctype.assign at hst
    simp only at hst
    split_ifs at hst
    simp only [Option.some.injEq] at hst
    exact hst.symm

/-- The arithmetic of the encoder of the unsigned 8-bit signal with scaling 0.5,
offset 10 and bounds 0 and 100 on the input 20.875 is exact. -/
theorem example_half_ten :
    (c_const (-1 * 10) = -10 ∧ ctype.holds ctype.float ((167 / 8 : ℚ) - 10) = true)
      ∧ (c_const (round_double (1 / (1 / 2))) = 1 / (1 / 2) ∧
          ctype.holds ctype.float (((167 / 8 : ℚ) - 10) / (1 / 2)) = true)
      ∧ ctype.holds ctype.float (167 / 8 : ℚ) = true
      ∧ c_const 100 = 100 := by
  have hv : ctype.holds ctype.float (167 / 8 : ℚ) = true := by
    rw [holds_float]
    have := round_float_fixed 167 (-3) (by norm_num) (by norm_num)
    norm_num [abs_of_nonneg] at this ⊢
    exact this
  have h1 : ctype.holds ctype.float ((167 / 8 : ℚ) - 10) = true := by
    rw [holds_float]
    have := round_float_fixed 87 (-3) (by norm_num) (by norm_num)
    norm_num [abs_of_nonneg] at this ⊢
    exact this
  have h2 : ctype.holds ctype.float (((167 / 8 : ℚ) - 10) / (1 / 2)) = true := by
    rw [holds_float]
    have := round_float_fixed 87 (-2) (by norm_num) (by norm_num)
    norm_num [abs_of_nonneg] at this ⊢
    exact this
  have hc10 : c_const (-1 * 10) = -10 := by
    have := (c_const_intCast (-10) (by norm_num)).1
    norm_num at this ⊢
    exact this
  have hc2 : c_const (round_double (1 / (1 / 2))) = 1 / (1 / 2) := by
    have hr : round_double (1 / (1 / 2)) = 2 := by
      have := round_double_intCast 2 (by norm_num)
      norm_num at this ⊢
      exact this
    have := (c_const_intCast 2 (by norm_num)).1
    rw [hr]
    norm_num at this ⊢
    exact this
  have hc100 : c_const 100 = 100 := by
    exact_mod_cast (c_const_intCast 100 (by norm_num)).1
  exact ⟨⟨hc10, h1⟩, ⟨hc2, h2⟩, hv, hc100⟩

/-- The constant printed for `1.0 / 3`, `0.333333`, read as a `double`, is a positive
value whose product with 3 stays below 1 in `float` arithmetic. -/
theorem third_constant :
    c_const_is_int (round_double (1 / 3)) = false
      ∧ 0 ≤ round_float (round_double (3 * c_const (round_double (1 / 3))))
      ∧ round_float (round_double (3 * c_const (round_double (1 / 3)))) < 1 := by
  have hL : round_double (5592405 / 16777216) = 5592405 / 16777216 := by
    have := round_double_fixed 5592405 (-24) (by norm_num) (by norm_num)
    norm_num at this ⊢
    exact this
  have hU : round_double (5592406 / 16777216) = 5592406 / 16777216 := by
    have := round_double_fixed 5592406 (-24) (by norm_num) (by norm_num)
    norm_num at this ⊢
    exact this
  have hx1 : (5592405 / 16777216 : ℚ) ≤ round_double (1 / 3) := by
    rw [← hL]
    exact round_double_mono (by norm_num)
  have hx2 : round_double (1 / 3) ≤ (5592406 / 16777216 : ℚ) := by
    rw [← hU]
    exact round_double_mono (by norm_num)
  generalize round_double (1 / 3) = x at hx1 hx2
  have hxpos : (0 : ℚ) < x := by linarith
  have hfmt : fmt_g x = 333333 / 1000000 := by
    rw [fmt_g_eval x (-1) (by rw [abs_of_pos hxpos]; norm_num; linarith)
      (by rw [abs_of_pos hxpos]; norm_num; linarith)]
    have hr : round_half_even (x / 10 ^ ((-1 : ℤ) - 5)) = 333333 := by
      apply round_half_even_near
      have h6 : x / 10 ^ ((-1 : ℤ) - 5) = x * 1000000 := by
        have h7 : (10 : ℚ) ^ ((-1 : ℤ) - 5) = 1 / 1000000 := by norm_num [zpow_neg]
        rw [h7, div_div_eq_mul_div, div_one]
      rw [h6, abs_lt]
      constructor <;> push_cast <;> linarith
    rw [hr]
    norm_num [zpow_neg]
  have hint : c_const_is_int x = false := by
    unfold c_const_is_int
    rw [hfmt]
    have hden : ((333333 : ℚ) / 1000000).den ≠ 1 := by
      intro h
      have h2 := (Rat.den_eq_one_iff _).mp h
      have h3 : (0 : ℚ) < (((333333 : ℚ) / 1000000).num : ℚ) := by rw [h2]; norm_num
      have h4 : ((((333333 : ℚ) / 1000000).num : ℤ) : ℚ) < ((1 : ℤ) : ℚ) := by
        rw [h2]; norm_num
      have h5 : 0 < ((333333 : ℚ) / 1000000).num := by exact_mod_cast h3
      have h6 : ((333333 : ℚ) / 1000000).num < 1 := by exact_mod_cast h4
      omega
    simp [hden]
  have hD : round_double (5592400 / 16777216) = 5592400 / 16777216 := by
    have := round_double_fixed 349525 (-20) (by norm_num) (by norm_num)
    norm_num at this ⊢
    exact this
  have hc1 : c_const x ≤ 5592400 / 16777216 := by
    unfold c_const
    rw [hfmt, ← hD]
    exact round_double_mono (by norm_num)
  have hc0 : 0 ≤ c_const x := by
    unfold c_const round_double
    rw [hfmt]
    exact round_binary_nonneg 53 (-1022) _ (by norm_num)
  generalize c_const x = c at hc0 hc1
  have hT : round_double (3 * (5592400 / 16777216)) = 3 * (5592400 / 16777216) := by
    have := round_double_fixed 1048575 (-20) (by norm_num) (by norm_num)
    norm_num at this ⊢
    exact this
  have hTf : round_float (3 * (5592400 / 16777216)) = 3 * (5592400 / 16777216) := by
    have := round_float_fixed 1048575 (-20) (by norm_num) (by norm_num)
    norm_num at this ⊢
    exact this
  refine ⟨hint, ?_, ?_⟩
  · unfold round_float round_double
    exact round_binary_nonneg 24 (-126) _
      (round_binary_nonneg 53 (-1022) _ (by linarith))
  · have h1 : round_float (round_double (3 * c))
        ≤ round_float (round_double (3 * (5592400 / 16777216))) :=
      round_float_mono (round_double_mono (by linarith))
    rw [hT, hTf] at h1
    have h2 : (3 : ℚ) * (5592400 / 16777216) < 1 := by norm_num
    exact lt_of_le_of_lt h1 h2

/-- The unsigned 8-bit signal with scaling 3, offset 0 and bounds 0 and 100: the
generator prints `in *= 0.333333;`, and the generated encoder accepts the input 3
and stores 0. -/
theorem encode_scaling_three (old : ℚ) :
    signal2scaling_encode ⟨0, 8, .endianess_intel_e, false, false, 3, 0, 0, 100⟩ false old 3
      = some ⟨0, 0⟩ := by
  obtain ⟨hint, h0, h1⟩ := third_constant
  have ht : scaling_io_type ⟨0, 8, .endianess_intel_e, false, false, 3, 0, 0, 100⟩ false
      = ctype.float := by
    norm_num [scaling_io_type, scaling_type]
  have hm : member_type ⟨0, 8, .endianess_intel_e, false, false, 3, 0, 0, 100⟩
      = ctype.uint16_t := by
    simp [member_type, determine_type, determine_unsigned_type]
  have hv : ctype.holds ctype.float (3 : ℚ) = true := by
    rw [holds_float]
    have := round_float_intCast 3 (by norm_num)
    norm_num [abs_of_nonneg] at this ⊢
    exact this
  have hc100 : c_const 100 = 100 := by
    exact_mod_cast (c_const_intCast 100 (by norm_num)).1
  have ha : encode_arith ⟨0, 8, .endianess_intel_e, false, false, 3, 0, 0, 100⟩ 3
      = round_float (round_double (3 * c_const (round_double (1 / 3)))) := by
    unfold encode_arith c_float_op
    norm_num [hint]
  have hfl : c_trunc (round_float (round_double (3 * c_const (round_double (1 / 3))))) = 0 := by
    unfold c_trunc
    rw [if_pos h0, Int.floor_eq_iff]
    norm_num
    exact ⟨h0, h1⟩
  generalize round_float (round_double (3 * c_const (round_double (1 / 3)))) = y at h0 h1 ha hfl
  apply encode_accepts _ _ _ _ _ (by norm_num) (by rw [ht]; exact hv)
  · rw [ht]
    norm_num [c_gt, c_lt, c_compare, ctype.is_integer, hc100, gmin]
  · unfold encode_overflows
    rw [ha]
    have : ¬ (2 : ℚ) ^ 128 ≤ |y| := by
      rw [abs_of_nonneg h0, not_le]
      exact lt_trans h1 (by norm_num)
    simp [this]
  · rw [ha, hm]
    simp [ctype.assign, hfl, ctype.lowest, ctype.highest, ctype.width]

/-- C7, as stated, fails.  The unsigned 8-bit signal with scaling 0.5, offset 10 and
bounds 0 and 100 accepts 20.875 and stores 21, while the quotient
`(20.875 - 10) / 0.5 = 21.75` rounds to 22: the assignment truncates.  And the
unsigned 8-bit signal with scaling 3, offset 0 and bounds 0 and 100 accepts 3 and
stores 0, while the quotient `(3 - 0) / 3` is 1: the generator prints `1/3` as
`0.333333`. -/
theorem encode_not_rounded :
    signal2scaling_encode ⟨0, 8, .endianess_intel_e, false, false, 1 / 2, 10, 0, 100⟩ false 0
        (167 / 8) = some ⟨0, 21⟩ ∧
      round (((167 / 8 : ℚ) - 10) / (1 / 2)) = 22 ∧
      signal2scaling_encode ⟨0, 8, .endianess_intel_e, false, false, 3, 0, 0, 100⟩ false 0 3
        = some ⟨0, 0⟩ ∧
      round (((3 : ℚ) - 0) / 3) = 1 := by
  refine ⟨?_, ?_, encode_scaling_three 0, ?_⟩
  · have ht : scaling_io_type ⟨0, 8, .endianess_intel_e, false, false, 1 / 2, 10, 0, 100⟩ false
        = ctype.float := by
      norm_num [scaling_io_type, scaling_type]
    have hm : member_type ⟨0, 8, .endianess_intel_e, false, false, 1 / 2, 10, 0, 100⟩
        = ctype.uint16_t := by
      simp [member_type, determine_type, determine_unsigned_type]
    obtain ⟨hoff, hscl, hv, hc100⟩ := example_half_ten
    obtain ⟨ha, ho⟩ := encode_arith_exact
      ⟨0, 8, .endianess_intel_e, false, false, 1 / 2, 10, 0, 100⟩ (167 / 8)
      (fun _ => hoff) (fun _ => hscl)
    have hfl : ⌊(87 / 4 : ℚ)⌋ = 21 := by
      rw [Int.floor_eq_iff]; norm_num
    apply encode_accepts _ _ _ _ _ (by norm_num) (by rw [ht]; exact hv) _ ho
    · rw [ha, hm]
      norm_num [ctype.assign, c_trunc, hfl, ctype.lowest, ctype.highest, ctype.width]
    · rw [ht]
      norm_num [c_gt, c_lt, c_compare, ctype.is_integer, hc100, gmin]
  · rw [round_eq, Int.floor_eq_iff]; norm_num
  · rw [round_eq, Int.floor_eq_iff]; norm_num

/-- C7, amended. For a signal with nonzero scaling and an accepted value `v`, the raw
value stored by the generated encoder is the value that the printed statements
`in += -offset; in *= 1/scaling;` leave in `in` (`float` arithmetic on the constants
as `%g` prints them), truncated toward zero for an integer signal and converted to the
member's type, `float` or `double`, for a floating one; nothing rounds to the nearest
integer.  When the printed constants are `-offset` and `1/scaling` themselves and
`v - offset` and `(v - offset) / scaling` are values of `float` (so that the two
statements are exact) and, on a floating signal, of the member's type, the stored
value is the quotient `(v - offset) / scaling` truncated toward zero for an integer
signal and the quotient itself for a floating signal, and `v` is accepted whenever it
is a value of the parameter's type that passes the printed tests and the truncated
quotient is within the range of the member's type. -/
theorem encode_arithmetic (sig : signal_t) (ud : Bool) (old v : ℚ) (hs : sig.scaling ≠ 0) :
    (∀ r, signal2scaling_encode sig ud old v = some r → r.ret = 0 →
        (sig.is_floating = false → r.stored = (c_trunc (encode_arith sig v) : ℚ))
          ∧ (sig.is_floating = true → sig.bit_length ≠ 64 →
              r.stored = round_float (encode_arith sig v))
          ∧ (sig.is_floating = true → sig.bit_length = 64 →
              r.stored = round_double (encode_arith sig v)))
      ∧ ((sig.offset ≠ 0 → c_const (-1 * sig.offset) = -sig.offset ∧
            ctype.holds ctype.float (v - sig.offset) = true) →
          (sig.scaling ≠ 1 → c_const (round_double (1 / sig.scaling)) = 1 / sig.scaling ∧
            ctype.holds ctype.float ((v - sig.offset) / sig.scaling) = true) →
          (sig.is_floating = true →
            (member_type sig).holds ((v - sig.offset) / sig.scaling) = true) →
          (∀ r, signal2scaling_encode sig ud old v = some r → r.ret = 0 →
              r.stored = if sig.is_floating then (v - sig.offset) / sig.scaling
                else (c_trunc ((v - sig.offset) / sig.scaling) : ℚ))
            ∧ ((scaling_io_type sig ud).holds v = true →
                ¬ (sig.minimum ≠ sig.maximum ∧
                  ((gmin sig = true ∧ c_lt (scaling_io_type sig ud) v sig.minimum = true)
                    ∨ (gmax sig = true ∧
                      c_gt (scaling_io_type sig ud) v sig.maximum = true))) →
                (sig.is_floating = false →
                  (member_type sig).lowest ≤ c_trunc ((v - sig.offset) / sig.scaling) ∧
                    c_trunc ((v - sig.offset) / sig.scaling) ≤ (member_type sig).highest) →
                ∃ r, signal2scaling_encode sig ud old v = some r ∧ r.ret = 0)) := by
  refine ⟨fun r hr h0 => encode_stored_value sig ud old v r hr h0, ?_⟩
  intro hoff hscl hmem
  refine ⟨fun r hr h0 => encode_stored_exact sig ud old v hoff hscl hmem r hr h0, ?_⟩
  intro hv hno hfit
  obtain ⟨ha, ho⟩ := encode_arith_exact sig v hoff hscl
  cases hfl : sig.is_floating
  · have hint : (member_type sig).is_integer = true := by
      unfold member_type
      rw [hfl]
      exact determine_type_is_integer _ _
    refine ⟨⟨0, (c_trunc ((v - sig.offset) / sig.scaling) : ℚ)⟩,
      encode_accepts sig ud old v _ hs hv hno ho ?_, rfl⟩
    rw [ha, assign_integer _ hint, if_pos (hfit hfl)]
  · refine ⟨⟨0, (v - sig.offset) / sig.scaling⟩,
      encode_accepts sig ud old v _ hs hv hno ho ?_, rfl⟩
    rw [ha, assign_of_holds _ _ (hmem hfl)]

/-- Witness of `encode_arithmetic`: scaling 0.5 and offset 10, input 20.875. -/
theorem encode_arithmetic_witness :
    ∃ r, signal2scaling_encode ⟨0, 8, .endianess_intel_e, false, false, 1 / 2, 10, 0, 100⟩
        false 0 (167 / 8) = some r ∧ r.ret = 0 :=
  ((encode_arithmetic ⟨0, 8, .endianess_intel_e, false, false, 1 / 2, 10, 0, 100⟩ false 0
    (167 / 8) (by norm_num)).2 (fun _ => example_half_ten.1) (fun _ => example_half_ten.2.1)
    (fun h => absurd h (by simp))).2
    (by
      have ht : scaling_io_type ⟨0, 8, .endianess_intel_e, false, false, 1 / 2, 10, 0, 100⟩
          false = ctype.float := by
        norm_num [scaling_io_type, scaling_type]
      rw [ht]
      exact example_half_ten.2.2.1)
    (by
      have ht : scaling_io_type ⟨0, 8, .endianess_intel_e, false, false, 1 / 2, 10, 0, 100⟩
          false = ctype.float := by
        norm_num [scaling_io_type, scaling_type]
      rw [ht]
      norm_num [c_gt, c_lt, c_compare, ctype.is_integer, example_half_ten.2.2.2, gmin])
    (by
      intro _
      have hm : member_type ⟨0, 8, .endianess_intel_e, false, false, 1 / 2, 10, 0, 100⟩
          = ctype.uint16_t := by
        simp [member_type, determine_type, determine_unsigned_type]
      have hfl : ⌊(87 / 4 : ℚ)⌋ = 21 := by
        rw [Int.floor_eq_iff]; norm_num
      rw [hm]
      norm_num [c_trunc, hfl, ctype.lowest, ctype.highest, ctype.width])

/-- A result of the generated decoder comes from a nonzero scaling and a value of the
member's type. -/
theorem decode_some (sig : signal_t) (ud : Bool) (raw : ℚ) (r : decode_result)
    (h : signal2scaling_decode sig ud raw = some r) :
    sig.scaling ≠ 0 ∧ (member_type sig).holds raw = true := by
  unfold signal2scaling_decode at h
  by_cases hs : sig.scaling = 0
  · rw [if_pos hs] at h
    exact absurd h (by simp)
  · refine ⟨hs, ?_⟩
    by_contra hv
    rw [if_neg hs] at h
    simp only [hv, Bool.not_false, if_true] at h
    exact absurd h (by simp)

/-- The generated decoder on a value of the member's type, in terms of the
generator's flags. -/
theorem decode_eq (sig : signal_t) (ud : Bool) (raw : ℚ) (hs : sig.scaling ≠ 0)
    (hraw : (member_type sig).holds raw = true) :
    signal2scaling_decode sig ud raw = (decode_rval sig raw).map fun p =>
      if sig.minimum = sig.maximum ∨ (gmin sig = false ∧ gmax sig = false) then
        ⟨0, decode_out sig ud p⟩
      else if (gmin sig = true → c_ge (scaling_type sig) p sig.minimum = true) ∧
          (gmax sig = true → c_le (scaling_type sig) p sig.maximum = true) then
        ⟨0, decode_out sig ud p⟩
      else ⟨-1, 0⟩ := by
  unfold signal2scaling_decode signal_are_min_max_valid
  simp only [hs, if_false, hraw, Bool.not_true, Bool.false_eq_true]
  congr 1
  funext p
  by_cases hne : sig.minimum = sig.maximum
  · simp [hne]
  · cases hg : gmin sig <;> cases hg' : gmax sig <;>
      cases hl : c_ge (scaling_type sig) p sig.minimum <;>
      cases hu : c_le (scaling_type sig) p sig.maximum <;> simp [hne]

/-- The arithmetic of the generated decoder when the printed constants are `scaling`
and `offset` themselves and the two results are values of `float`. -/
theorem decode_rval_exact (sig : signal_t) (raw : ℚ)
    (hT : (scaling_type sig).holds raw = true)
    (hscl : sig.scaling ≠ 1 → c_const sig.scaling = sig.scaling ∧
      ctype.holds ctype.float (raw * sig.scaling) = true)
    (hoff : sig.offset ≠ 0 → c_const sig.offset = sig.offset ∧
      ctype.holds ctype.float (raw * sig.scaling + sig.offset) = true) :
    decode_rval sig raw = some (raw * sig.scaling + sig.offset) := by
  have ha : (if sig.scaling ≠ 1 then c_float_op (· * ·) raw sig.scaling else raw)
      = raw * sig.scaling := by
    split_ifs with h
    · obtain ⟨hc, hh⟩ := hscl h
      have hh' : ctype.holds ctype.float (raw * c_const sig.scaling) = true := by
        rw [hc]
        exact hh
      rw [c_float_op_exact (· * ·) raw _ hh', hc]
    · rw [not_not] at h
      rw [h, mul_one]
  have hb : decode_arith sig raw = raw * sig.scaling + sig.offset := by
    unfold decode_arith
    simp only [ha]
    split_ifs with h
    · obtain ⟨hc, hh⟩ := hoff h
      have hh' : ctype.holds ctype.float (raw * sig.scaling + c_const sig.offset) = true := by
        rw [hc]
        exact hh
      rw [c_float_op_exact (· + ·) _ _ hh', hc]
    · rw [not_not] at h
      rw [h, add_zero]
  have ho : decode_overflows sig raw = false := by
    unfold decode_overflows
    rw [hb]
    by_cases h1 : sig.scaling ≠ 1
    · have hlt := ((holds_float _).mp (hscl h1).2).2
      rw [if_pos h1] at ha
      rw [ha]
      by_cases h2 : sig.offset ≠ 0
      · have hlt2 := ((holds_float _).mp (hoff h2).2).2
        simp [h1, h2, not_le.mpr hlt, not_le.mpr hlt2]
      · simp [h1, h2, not_le.mpr hlt]
    · by_cases h2 : sig.offset ≠ 0
      · have hlt2 := ((holds_float _).mp (hoff h2).2).2
        simp [h1, h2, not_le.mpr hlt2]
      · simp [h1, h2]
  unfold decode_rval
  rw [assign_of_holds _ _ hT]
  simp [ho, hb]

/-- C8, as stated, fails: on the unsigned 32-bit floating signal with scaling 2 and
bounds 0 and 5000000000 both bounds are redundant (`minimum` is not above 0 and
`maximum` is not below `2 ^ 32 - 1`), so the rule returns the physical value
8000000000 of raw 4000000000; the generated decoder checks the upper bound and
returns the fallback 0 with status -1. -/
theorem decode_floating_checked :
    signal2scaling_decode ⟨0, 32, .endianess_intel_e, false, true, 2, 0, 0, 5000000000⟩ false
        4000000000 = some ⟨-1, 0⟩ ∧
      spec_decode ⟨0, 32, .endianess_intel_e, false, true, 2, 0, 0, 5000000000⟩ 4000000000
        = ⟨0, 8000000000⟩ ∧
      ¬ spec_lower_active ⟨0, 32, .endianess_intel_e, false, true, 2, 0, 0, 5000000000⟩ ∧
      ¬ spec_upper_active ⟨0, 32, .endianess_intel_e, false, true, 2, 0, 0, 5000000000⟩ := by
  refine ⟨?_, ?_, ?_, ?_⟩
  · have ht : scaling_type ⟨0, 32, .endianess_intel_e, false, true, 2, 0, 0, 5000000000⟩
        = ctype.float := by
      norm_num [scaling_type]
    have hm : member_type ⟨0, 32, .endianess_intel_e, false, true, 2, 0, 0, 5000000000⟩
        = ctype.float := by
      simp [member_type]
    have hraw : ctype.holds ctype.float (4000000000 : ℚ) = true := by
      rw [holds_float]
      have := round_float_fixed 1953125 11 (by norm_num) (by norm_num)
      norm_num [abs_of_nonneg] at this ⊢
      exact this
    have hphys : ctype.holds ctype.float ((4000000000 : ℚ) * 2) = true := by
      rw [holds_float]
      have := round_float_fixed 1953125 12 (by norm_num) (by norm_num)
      norm_num [abs_of_nonneg] at this ⊢
      exact this
    have hc2 : c_const 2 = 2 := by
      exact_mod_cast (c_const_intCast 2 (by norm_num)).1
    have hc : c_const 5000000000 = 5000000000 := by
      unfold c_const
      have h1 := fmt_g_fixed 5 9 (by norm_num)
      norm_num at h1
      rw [h1]
      exact_mod_cast round_double_intCast 5000000000 (by norm_num)
    have hrval := decode_rval_exact
      ⟨0, 32, .endianess_intel_e, false, true, 2, 0, 0, 5000000000⟩ 4000000000
      (by rw [ht]; exact hraw) (fun _ => ⟨hc2, hphys⟩) (fun h => absurd rfl h)
    rw [decode_eq _ _ _ (by norm_num) (by rw [hm]; exact hraw), hrval, ht]
    norm_num [gmax, gmin, c_le, c_ge, c_compare, ctype.is_integer, hc]
  · norm_num [spec_decode, spec_lower_active, spec_upper_active]
  · norm_num [spec_lower_active]
  · norm_num [spec_upper_active]

/-- C8, amended. For a signal of length in 1..64 with nonzero scaling and a value
`raw` of the member's type, the generated decoder computes `physical` by the printed
`float` statements `rval *= scaling; rval += offset;` with the constants as `%g`
prints them (`decode_rval`); this is `raw*scaling + offset` when the printed constants
are `scaling` and `offset` themselves and `raw`, `raw*scaling` and
`raw*scaling + offset` are values of `float`.  On a non-floating signal it then
follows the rule of section 4.4 with the printed tests (unconditional `(physical, 0)`
when `minimum == maximum` or both bounds are redundant, otherwise `(physical, 0)` when
the printed test of every active bound holds and `(0, -1)` when one fails, the bound
of a test being the constant that `%g` prints); on a floating signal with
`minimum != maximum` the upper bound is always active, so a failed test
`rval <= maximum` gives `(0, -1)` and two passed tests give `(physical, 0)`, and with
`minimum == maximum` the result is `(physical, 0)`. -/
theorem decode_rule (sig : signal_t) (ud : Bool) (raw : ℚ) (h1 : 1 ≤ sig.bit_length)
    (h64 : sig.bit_length ≤ 64) (hs : sig.scaling ≠ 0)
    (hraw : (member_type sig).holds raw = true) :
    (sig.is_floating = false →
        signal2scaling_decode sig ud raw
          = (decode_rval sig raw).map (spec_decode_printed sig ud))
      ∧ (sig.is_floating = true → ∀ p, decode_rval sig raw = some p →
        (sig.minimum = sig.maximum →
          signal2scaling_decode sig ud raw = some ⟨0, decode_out sig ud p⟩) ∧
        (sig.minimum ≠ sig.maximum → c_le (scaling_type sig) p sig.maximum = false →
          signal2scaling_decode sig ud raw = some ⟨-1, 0⟩) ∧
        (sig.minimum ≠ sig.maximum → c_ge (scaling_type sig) p sig.minimum = true →
          c_le (scaling_type sig) p sig.maximum = true →
          signal2scaling_decode sig ud raw = some ⟨0, decode_out sig ud p⟩))
      ∧ ((scaling_type sig).holds raw = true →
        (sig.scaling ≠ 1 → c_const sig.scaling = sig.scaling ∧
          ctype.holds ctype.float (raw * sig.scaling) = true) →
        (sig.offset ≠ 0 → c_const sig.offset = sig.offset ∧
          ctype.holds ctype.float (raw * sig.scaling + sig.offset) = true) →
        decode_rval sig raw = some (raw * sig.scaling + sig.offset))
      ∧ (scaling_type sig = ctype.float → ∀ p,
        (c_ge (scaling_type sig) p sig.minimum = true ↔ p ≥ c_const sig.minimum) ∧
        (c_le (scaling_type sig) p sig.maximum = true ↔ p ≤ c_const sig.maximum)) := by
  have hflags := decode_eq sig ud raw hs hraw
  refine ⟨?_, ?_, fun hT hscl hoff => decode_rval_exact sig raw hT hscl hoff, ?_⟩
  · intro hf
    have hlo := gmin_iff sig h1 h64
    have hhi := gmax_iff sig hf h1 h64
    have hlo' : gmin sig = false ↔ ¬ spec_lower_active sig := by
      rw [← hlo]; simp
    have hhi' : gmax sig = false ↔ ¬ spec_upper_active sig := by
      rw [← hhi]; simp
    rw [hflags]
    congr 1
    funext p
    unfold spec_decode_printed
    simp only [hlo, hhi, hlo', hhi']
  · intro hf p hp
    have hg : gmax sig = true := by
      unfold gmax
      simp [hf]
    rw [hflags, hp]
    refine ⟨?_, ?_, ?_⟩
    · intro heq
      simp [heq]
    · intro hne hle
      simp [hne, hg, hle]
    · intro hne hge hle
      simp [hne, hg, hge, hle]
  · intro ht p
    unfold c_ge c_le c_compare
    rw [ht]
    simp [ctype.is_integer]

/-- The decoder of the unsigned 8-bit signal with scaling 0.5, offset 10 and bounds 0
and 100 computes the physical value exactly on the raw values 20 and 30. -/
theorem example_half_ten_decode (r : ℤ) (hr : r = 20 ∨ r = 30) :
    decode_rval ⟨0, 8, .endianess_intel_e, false, false, 1 / 2, 10, 0, 100⟩ (r : ℚ)
      = some ((r : ℚ) * (1 / 2) + 10) := by
  have ht : scaling_type ⟨0, 8, .endianess_intel_e, false, false, 1 / 2, 10, 0, 100⟩
      = ctype.float := by
    norm_num [scaling_type]
  have hc10 : c_const 10 = 10 := by
    exact_mod_cast (c_const_intCast 10 (by norm_num)).1
  have hchalf : c_const (1 / 2) = 1 / 2 := by
    unfold c_const
    have h1 := fmt_g_fixed 5 (-1) (by norm_num)
    have h2 := round_double_fixed 1 (-1) (by norm_num) (by norm_num)
    norm_num at h1 h2 ⊢
    rw [h1, h2]
  apply decode_rval_exact
  · rw [ht, holds_float]
    rcases hr with rfl | rfl
    · have := round_float_fixed 20 0 (by norm_num) (by norm_num)
      norm_num [abs_of_nonneg] at this ⊢
      exact this
    · have := round_float_fixed 30 0 (by norm_num) (by norm_num)
      norm_num [abs_of_nonneg] at this ⊢
      exact this
  · intro _
    refine ⟨hchalf, ?_⟩
    rw [holds_float]
    rcases hr with rfl | rfl
    · have := round_float_fixed 10 0 (by norm_num) (by norm_num)
      norm_num [abs_of_nonneg] at this ⊢
      exact this
    · have := round_float_fixed 15 0 (by norm_num) (by norm_num)
      norm_num [abs_of_nonneg] at this ⊢
      exact this
  · intro _
    refine ⟨hc10, ?_⟩
    rw [holds_float]
    rcases hr with rfl | rfl
    · have := round_float_fixed 20 0 (by norm_num) (by norm_num)
      norm_num [abs_of_nonneg] at this ⊢
      exact this
    · have := round_float_fixed 25 0 (by norm_num) (by norm_num)
      norm_num [abs_of_nonneg] at this ⊢
      exact this

/-- Witness of `decode_rule`: the unsigned 8-bit signal with scaling 0.5, offset 10
and bounds 0 and 100, raw 20, whose physical value is `20 * 0.5 + 10`. -/
theorem decode_rule_witness :
    signal2scaling_decode ⟨0, 8, .endianess_intel_e, false, false, 1 / 2, 10, 0, 100⟩ false 20
        = (decode_rval ⟨0, 8, .endianess_intel_e, false, false, 1 / 2, 10, 0, 100⟩ 20).map
          (spec_decode_printed ⟨0, 8, .endianess_intel_e, false, false, 1 / 2, 10, 0, 100⟩
            false) ∧
      decode_rval ⟨0, 8, .endianess_intel_e, false, false, 1 / 2, 10, 0, 100⟩ 20
        = some (20 * (1 / 2) + 10) :=
  ⟨(decode_rule ⟨0, 8, .endianess_intel_e, false, false, 1 / 2, 10, 0, 100⟩ false 20
    (by decide) (by decide) (by norm_num)
    (by
      have hm : member_type ⟨0, 8, .endianess_intel_e, false, false, 1 / 2, 10, 0, 100⟩
          = ctype.uint16_t := by
        simp [member_type, determine_type, determine_unsigned_type]
      rw [hm]
      norm_num [ctype.holds, ctype.lowest, ctype.highest, ctype.width])).1 rfl,
    by
      have := example_half_ten_decode 20 (Or.inl rfl)
      push_cast at this
      exact this⟩

/-- The decoder of the unsigned 8-bit signal with scaling 3, offset 0 and bounds 0 and
100 accepts raw 1 with the physical value 3. -/
theorem decode_scaling_three :
    signal2scaling_decode ⟨0, 8, .endianess_intel_e, false, false, 3, 0, 0, 100⟩ false 1
      = some ⟨0, 3⟩ := by
  have ht : scaling_type ⟨0, 8, .endianess_intel_e, false, false, 3, 0, 0, 100⟩
      = ctype.float := by
    norm_num [scaling_type]
  have hm : member_type ⟨0, 8, .endianess_intel_e, false, false, 3, 0, 0, 100⟩
      = ctype.uint16_t := by
    simp [member_type, determine_type, determine_unsigned_type]
  have hc3 : c_const 3 = 3 := by
    exact_mod_cast (c_const_intCast 3 (by norm_num)).1
  have hc100 : c_const 100 = 100 := by
    exact_mod_cast (c_const_intCast 100 (by norm_num)).1
  have h1 : ctype.holds ctype.float (1 : ℚ) = true := by
    rw [holds_float]
    have := round_float_intCast 1 (by norm_num)
    norm_num [abs_of_nonneg] at this ⊢
    exact this
  have h3 : ctype.holds ctype.float ((1 : ℚ) * 3) = true := by
    rw [holds_float]
    have := round_float_intCast 3 (by norm_num)
    norm_num [abs_of_nonneg] at this ⊢
    exact this
  have hrval := decode_rval_exact
    ⟨0, 8, .endianess_intel_e, false, false, 3, 0, 0, 100⟩ 1
    (by rw [ht]; exact h1) (fun _ => ⟨hc3, h3⟩) (fun h => absurd rfl h)
  rw [decode_eq _ _ _ (by norm_num)
    (by rw [hm]; norm_num [ctype.holds, ctype.lowest, ctype.highest, ctype.width]), hrval, ht]
  norm_num [gmax, gmin, c_le, c_ge, c_compare, ctype.is_integer, hc100, decode_out,
    unsigned_max, Nat.shiftLeft_eq]

/-- The integer `2^24 + 1` lies halfway between two values of `float` and rounds to
the even one, `2^24`. -/
theorem round_float_tie : round_float 16777217 = 16777216 := by
  unfold round_float
  rw [round_binary_eval 24 (-126) 16777217 24 (by norm_num [abs_of_nonneg])
    (by norm_num [abs_of_nonneg])]
  have he : max (24 : ℤ) (-126) - (((24 : ℕ) : ℤ) - 1) = 1 := by norm_num
  rw [he]
  have hr : round_half_even ((16777217 : ℚ) / 2 ^ (1 : ℤ)) = 8388608 := by
    apply round_half_even_unique
    · norm_num [abs_of_nonneg]
    · intro _
      norm_num
  rw [hr]
  norm_num

/-- The unsigned 32-bit signal with scaling 2 and offset 0, without range checking:
the generated decoder converts raw `2^24 + 1` to `float`, which rounds it, and
returns `2^25`, not `2 * (2^24 + 1)`. -/
theorem decode_float_rounds :
    signal2scaling_decode ⟨0, 32, .endianess_intel_e, false, false, 2, 0, 0, 0⟩ false 16777217
      = some ⟨0, 33554432⟩ := by
  have ht : scaling_type ⟨0, 32, .endianess_intel_e, false, false, 2, 0, 0, 0⟩
      = ctype.float := by
    norm_num [scaling_type]
  have hm : member_type ⟨0, 32, .endianess_intel_e, false, false, 2, 0, 0, 0⟩
      = ctype.uint32_t := by
    simp [member_type, determine_type, determine_unsigned_type]
  obtain ⟨hc2, hi2⟩ := c_const_intCast 2 (by norm_num)
  norm_num at hc2 hi2
  have hp : round_float 33554432 = 33554432 := by
    have := round_float_fixed 1 25 (by norm_num) (by norm_num)
    norm_num at this ⊢
    exact this
  have hassign : ctype.assign ctype.float 16777217 = some 16777216 := by
    unfold ctype.assign
    simp only
    rw [round_float_tie, if_pos (by norm_num [abs_of_nonneg])]
  have harith : decode_arith ⟨0, 32, .endianess_intel_e, false, false, 2, 0, 0, 0⟩ 16777216
      = 33554432 := by
    unfold decode_arith c_float_op
    norm_num [hi2, hc2, hp]
  have hover : decode_overflows ⟨0, 32, .endianess_intel_e, false, false, 2, 0, 0, 0⟩ 16777216
      = false := by
    unfold decode_overflows
    rw [harith]
    unfold c_float_op
    norm_num [hi2, hc2, hp, abs_of_nonneg]
  have hrv : decode_rval ⟨0, 32, .endianess_intel_e, false, false, 2, 0, 0, 0⟩ 16777217
      = some 33554432 := by
    unfold decode_rval
    rw [ht, hassign, Option.some_bind, hover, harith]
    rfl
  have hraw : (member_type ⟨0, 32, .endianess_intel_e, false, false, 2, 0, 0, 0⟩).holds
      16777217 = true := by
    rw [hm]
    norm_num [ctype.holds, ctype.lowest, ctype.highest, ctype.width]
  rw [decode_eq _ _ _ (by norm_num) hraw, hrv, Option.map_some', if_pos (Or.inl rfl)]
  unfold decode_out
  rw [ht]
  simp [ctype.is_integer]

/-- The encoder of the same signal accepts `2^25` and stores `2^24`. -/
theorem encode_float_rounds (old : ℚ) :
    signal2scaling_encode ⟨0, 32, .endianess_intel_e, false, false, 2, 0, 0, 0⟩ false old
      33554432 = some ⟨0, 16777216⟩ := by
  have ht : scaling_io_type ⟨0, 32, .endianess_intel_e, false, false, 2, 0, 0, 0⟩ false
      = ctype.float := by
    norm_num [scaling_io_type, scaling_type]
  have hm : member_type ⟨0, 32, .endianess_intel_e, false, false, 2, 0, 0, 0⟩
      = ctype.uint32_t := by
    simp [member_type, determine_type, determine_unsigned_type]
  have hv : ctype.holds ctype.float (33554432 : ℚ) = true := by
    rw [holds_float]
    have := round_float_fixed 1 25 (by norm_num) (by norm_num)
    norm_num [abs_of_nonneg] at this ⊢
    exact this
  have hq : ctype.holds ctype.float (((33554432 : ℚ) - 0) / 2) = true := by
    rw [holds_float]
    have := round_float_fixed 1 24 (by norm_num) (by norm_num)
    norm_num [abs_of_nonneg] at this ⊢
    exact this
  have hchalf : c_const (round_double (1 / 2)) = 1 / 2 := by
    have h2 := round_double_fixed 1 (-1) (by norm_num) (by norm_num)
    have h1 := fmt_g_fixed 5 (-1) (by norm_num)
    norm_num at h1 h2 ⊢
    unfold c_const
    rw [h2, h1, h2]
  obtain ⟨ha, ho⟩ := encode_arith_exact
    ⟨0, 32, .endianess_intel_e, false, false, 2, 0, 0, 0⟩ 33554432
    (fun h => absurd rfl h) (fun _ => ⟨hchalf, hq⟩)
  have htr : c_trunc (16777216 : ℚ) = 16777216 := by exact_mod_cast c_trunc_intCast 16777216
  apply encode_accepts _ _ _ _ _ (by norm_num) (by rw [ht]; exact hv) _ ho
  · rw [ha, hm]
    norm_num [ctype.assign, htr, ctype.lowest, ctype.highest, ctype.width]
  · norm_num

/-- C9, as stated, fails.  On the unsigned 8-bit signal with scaling 3, offset 0 and
bounds 0 and 100 the generated decoder accepts raw 1 with the physical value
`3 = 1*3 + 0`, and the generated encoder accepts 3 and stores 0, not 1: the generator
prints `1/3` as `0.333333`.  And on the unsigned 32-bit signal with scaling 2, offset 0
and no range checking the generated decoder accepts raw `2^24 + 1` with the physical
value `2^25`, not `(2^24 + 1) * 2`, because `rval` is a `float`, and the generated
encoder accepts `2^25` and stores `2^24`. -/
theorem round_trip_scaling_three :
    signal2scaling_decode ⟨0, 8, .endianess_intel_e, false, false, 3, 0, 0, 100⟩ false 1
        = some ⟨0, 3⟩ ∧
      (3 : ℚ) = 1 * (⟨0, 8, .endianess_intel_e, false, false, 3, 0, 0, 100⟩ : signal_t).scaling
        + (⟨0, 8, .endianess_intel_e, false, false, 3, 0, 0, 100⟩ : signal_t).offset ∧
      signal2scaling_encode ⟨0, 8, .endianess_intel_e, false, false, 3, 0, 0, 100⟩ false 1 3
        = some ⟨0, 0⟩ ∧
      (⟨0, 0⟩ : encode_result).stored ≠ 1 ∧
      signal2scaling_decode ⟨0, 32, .endianess_intel_e, false, false, 2, 0, 0, 0⟩ false 16777217
        = some ⟨0, 33554432⟩ ∧
      (33554432 : ℚ)
        ≠ 16777217 * (⟨0, 32, .endianess_intel_e, false, false, 2, 0, 0, 0⟩ : signal_t).scaling
          + (⟨0, 32, .endianess_intel_e, false, false, 2, 0, 0, 0⟩ : signal_t).offset ∧
      signal2scaling_encode ⟨0, 32, .endianess_intel_e, false, false, 2, 0, 0, 0⟩ false 16777217
        33554432 = some ⟨0, 16777216⟩ ∧
      (⟨0, 16777216⟩ : encode_result).stored ≠ 16777217 :=
  ⟨decode_scaling_three, by norm_num, encode_scaling_three 1, by norm_num,
    decode_float_rounds, by norm_num, encode_float_rounds 16777217, by norm_num⟩

/-- C9, amended. Scaling round trip: for an integer raw value `r`, a nonzero scaling
and an offset whose printed constants (`scaling`, `1/scaling`, `offset`, `-offset`)
`%g` leaves unchanged, and such that `r`, `r*scaling` and `r*scaling + offset` are
values of `float` where the generated code holds them in a `float` (so that its
statements are exact): if the generated decoder accepts `r` with physical value `p`,
then `p = r*scaling + offset`, and if the generated encoder accepts `p` it stores `r`
again. -/
theorem scaling_round_trip (sig : signal_t) (ud : Bool) (r : ℤ) (old : ℚ) (dp : decode_result)
    (ep : encode_result)
    (hscl : sig.scaling ≠ 1 → c_const sig.scaling = sig.scaling ∧
      c_const (round_double (1 / sig.scaling)) = 1 / sig.scaling ∧
      ctype.holds ctype.float ((r : ℚ) * sig.scaling) = true)
    (hoff : sig.offset ≠ 0 → c_const sig.offset = sig.offset ∧
      c_const (-1 * sig.offset) = -sig.offset ∧
      ctype.holds ctype.float ((r : ℚ) * sig.scaling + sig.offset) = true)
    (hr : sig.scaling ≠ 1 ∨ sig.offset ≠ 0 ∨ ud = true → ctype.holds ctype.float (r : ℚ) = true)
    (hd : signal2scaling_decode sig ud r = some dp) (hda : dp.ret = 0)
    (he : signal2scaling_encode sig ud old dp.out = some ep) (hea : ep.ret = 0) :
    dp.out = (r : ℚ) * sig.scaling + sig.offset ∧ ep.stored = r := by
  obtain ⟨hs, hraw⟩ := decode_some sig ud r dp hd
  -- the value of `rval`
  have hrval : ∃ p, decode_rval sig r = some p ∧ dp.out = decode_out sig ud p := by
    rw [decode_eq sig ud r hs hraw, Option.map_eq_some'] at hd
    obtain ⟨p, hp, hdp⟩ := hd
    refine ⟨p, hp, ?_⟩
    rw [← hdp] at hda ⊢
    split_ifs at hda ⊢
    · rfl
    · rfl
    · exact absurd hda (by norm_num)
  obtain ⟨p, hp, hout⟩ := hrval
  have hpval : p = (r : ℚ) * sig.scaling + sig.offset ∧
      decode_out sig ud p = (r : ℚ) * sig.scaling + sig.offset := by
    by_cases hfl : sig.scaling ≠ 1 ∨ sig.offset ≠ 0
    · have ht : scaling_type sig = ctype.float := by
        unfold scaling_type
        rw [if_pos hfl]
      have hx := decode_rval_exact sig r
        (by rw [ht]; exact hr (hfl.imp id Or.inl))
        (fun h => ⟨(hscl h).1, (hscl h).2.2⟩) (fun h => ⟨(hoff h).1, (hoff h).2.2⟩)
      rw [hp, Option.some_inj] at hx
      refine ⟨hx, ?_⟩
      unfold decode_out
      rw [ht, hx]
      simp [ctype.is_integer]
    · rw [not_or, not_not, not_not] at hfl
      have ht : scaling_type sig = determine_type sig.bit_length sig.is_signed := by
        unfold scaling_type
        rw [if_neg (by rw [not_or, not_not, not_not]; exact hfl)]
      have hint : (scaling_type sig).is_integer = true := by
        rw [ht]
        exact determine_type_is_integer _ _
      have hp' := hp
      unfold decode_rval at hp'
      rw [assign_integer _ hint, c_trunc_intCast] at hp'
      have hov : decode_overflows sig (r : ℚ) = false := by
        unfold decode_overflows
        simp [hfl.1, hfl.2]
      have har : decode_arith sig (r : ℚ) = r := by
        unfold decode_arith
        simp [hfl.1, hfl.2]
      split_ifs at hp'
      · simp only [Option.some_bind, hov, Bool.false_eq_true, if_false, har,
          Option.some.injEq] at hp'
        rw [hfl.1, hfl.2, mul_one, add_zero]
        refine ⟨hp'.symm, ?_⟩
        unfold decode_out
        rw [← hp']
        cases hud : ud
        · simp
        · have := (holds_float _).mp (hr (Or.inr (Or.inr hud)))
          simp [hint, this.1]
      · simp at hp'
  rw [hpval.2] at hout
  refine ⟨hout, ?_⟩
  rw [hout] at he
  have hrf : sig.scaling ≠ 1 ∨ sig.offset ≠ 0 → ctype.holds ctype.float (r : ℚ) = true :=
    fun h => hr (h.imp id Or.inl)
  have hsub : (r : ℚ) * sig.scaling + sig.offset - sig.offset = (r : ℚ) * sig.scaling := by
    ring
  have hdiv : ((r : ℚ) * sig.scaling + sig.offset - sig.offset) / sig.scaling = r := by
    field_simp
  obtain ⟨hst, -⟩ := encode_stored sig ud old _ ep he hea
  have hex := encode_arith_exact sig ((r : ℚ) * sig.scaling + sig.offset)
    (fun h => ⟨(hoff h).2.1, by
      rw [hsub]
      by_cases h1 : sig.scaling ≠ 1
      · exact (hscl h1).2.2
      · rw [not_not] at h1
        rw [h1, mul_one]
        exact hrf (Or.inr h)⟩)
    (fun h => ⟨(hscl h).2.1, by rw [hdiv]; exact hrf (Or.inl h)⟩)
  rw [hex.1, hdiv, assign_of_holds _ _ hraw, Option.some_inj] at hst
  exact hst.symm

/-- The encoder of the unsigned 8-bit signal with scaling 0.5, offset 10 and bounds 0
and 100 accepts 25 and stores 30. -/
theorem example_half_ten_encode :
    signal2scaling_encode ⟨0, 8, .endianess_intel_e, false, false, 1 / 2, 10, 0, 100⟩ false 0 25
      = some ⟨0, 30⟩ := by
  have ht : scaling_io_type ⟨0, 8, .endianess_intel_e, false, false, 1 / 2, 10, 0, 100⟩ false
      = ctype.float := by
    norm_num [scaling_io_type, scaling_type]
  have hm : member_type ⟨0, 8, .endianess_intel_e, false, false, 1 / 2, 10, 0, 100⟩
      = ctype.uint16_t := by
    simp [member_type, determine_type, determine_unsigned_type]
  obtain ⟨⟨hc10, -⟩, ⟨hc2, -⟩, -, hc100⟩ := example_half_ten
  have hfix : ∀ z : ℤ, |z| < 2 ^ 24 → ctype.holds ctype.float (z : ℚ) = true := by
    intro z hz
    rw [holds_float]
    refine ⟨round_float_intCast z hz, ?_⟩
    have : ((|z| : ℤ) : ℚ) < ((2 ^ 24 : ℤ) : ℚ) := by exact_mod_cast hz
    push_cast at this
    linarith [show ((2 : ℚ) ^ 24) < 2 ^ 128 by norm_num]
  have h25 := hfix 25 (by norm_num)
  have h15 := hfix 15 (by norm_num)
  have h30 := hfix 30 (by norm_num)
  push_cast at h25 h15 h30
  obtain ⟨ha, ho⟩ := encode_arith_exact
    ⟨0, 8, .endianess_intel_e, false, false, 1 / 2, 10, 0, 100⟩ 25
    (fun _ => ⟨hc10, by norm_num; exact h15⟩) (fun _ => ⟨hc2, by norm_num; exact h30⟩)
  have htr : c_trunc (30 : ℚ) = 30 := by exact_mod_cast c_trunc_intCast 30
  apply encode_accepts _ _ _ _ _ (by norm_num) (by rw [ht]; exact h25) _ ho
  · rw [ha, hm]
    norm_num [ctype.assign, htr, ctype.lowest, ctype.highest, ctype.width]
  · rw [ht]
    norm_num [c_gt, c_lt, c_compare, ctype.is_integer, hc100, gmin]

/-- The decoder of the unsigned 8-bit signal with scaling 0.5, offset 10 and bounds 0
and 100 accepts the raw values 20 and 30, with the physical values 20 and 25. -/
theorem example_half_ten_decoded (r : ℤ) (hr : r = 20 ∨ r = 30) :
    signal2scaling_decode ⟨0, 8, .endianess_intel_e, false, false, 1 / 2, 10, 0, 100⟩ false r
      = some ⟨0, (r : ℚ) * (1 / 2) + 10⟩ := by
  have ht : scaling_type ⟨0, 8, .endianess_intel_e, false, false, 1 / 2, 10, 0, 100⟩
      = ctype.float := by
    norm_num [scaling_type]
  have hm : member_type ⟨0, 8, .endianess_intel_e, false, false, 1 / 2, 10, 0, 100⟩
      = ctype.uint16_t := by
    simp [member_type, determine_type, determine_unsigned_type]
  have hc100 : c_const 100 = 100 := by
    exact_mod_cast (c_const_intCast 100 (by norm_num)).1
  rw [decode_eq _ _ _ (by norm_num)
    (by
      rw [hm]
      rcases hr with rfl | rfl <;>
        norm_num [ctype.holds, ctype.lowest, ctype.highest, ctype.width]),
    example_half_ten_decode r hr, ht]
  rcases hr with rfl | rfl <;>
    norm_num [gmax, gmin, c_le, c_ge, c_compare, ctype.is_integer, hc100, decode_out,
      unsigned_max, Nat.shiftLeft_eq]

/-- Witness of `scaling_round_trip`: scaling 0.5, offset 10, raw 30 decodes to 25 and
25 encodes to raw 30. -/
theorem scaling_round_trip_witness :
    signal2scaling_decode ⟨0, 8, .endianess_intel_e, false, false, 1 / 2, 10, 0, 100⟩ false
        ((30 : ℤ) : ℚ) = some ⟨0, 25⟩ ∧
      signal2scaling_encode ⟨0, 8, .endianess_intel_e, false, false, 1 / 2, 10, 0, 100⟩ false 0
        (⟨0, 25⟩ : decode_result).out = some ⟨0, 30⟩ ∧
      ((⟨0, 25⟩ : decode_result).out
          = ((30 : ℤ) : ℚ) *
              (⟨0, 8, .endianess_intel_e, false, false, 1 / 2, 10, 0, 100⟩ : signal_t).scaling
            + (⟨0, 8, .endianess_intel_e, false, false, 1 / 2, 10, 0, 100⟩ : signal_t).offset ∧
        (⟨0, 30⟩ : encode_result).stored = ((30 : ℤ) : ℚ)) := by
  have hfix : ∀ z : ℤ, |z| < 2 ^ 24 → ctype.holds ctype.float (z : ℚ) = true := by
    intro z hz
    rw [holds_float]
    refine ⟨round_float_intCast z hz, ?_⟩
    have : ((|z| : ℤ) : ℚ) < ((2 ^ 24 : ℤ) : ℚ) := by exact_mod_cast hz
    push_cast at this
    linarith [show ((2 : ℚ) ^ 24) < 2 ^ 128 by norm_num]
  have h25 := hfix 25 (by norm_num)
  have h15 := hfix 15 (by norm_num)
  have h30 := hfix 30 (by norm_num)
  have hchalf : c_const (1 / 2) = 1 / 2 := by
    unfold c_const
    have h1 := fmt_g_fixed 5 (-1) (by norm_num)
    have h2 := round_double_fixed 1 (-1) (by norm_num) (by norm_num)
    norm_num at h1 h2 ⊢
    rw [h1, h2]
  have hc10 : c_const 10 = 10 := by
    exact_mod_cast (c_const_intCast 10 (by norm_num)).1
  have hd := example_half_ten_decoded 30 (Or.inr rfl)
  have hval : ((30 : ℤ) : ℚ) * (1 / 2) + 10 = 25 := by norm_num
  rw [hval] at hd
  refine ⟨hd, example_half_ten_encode, ?_⟩
  exact scaling_round_trip ⟨0, 8, .endianess_intel_e, false, false, 1 / 2, 10, 0, 100⟩ false 30
    0 ⟨0, 25⟩ ⟨0, 30⟩
    (fun _ => ⟨hchalf, example_half_ten.2.1.1, by push_cast at h15 ⊢; norm_num; exact h15⟩)
    (fun _ => ⟨hc10, example_half_ten.1.1, by push_cast at h25 ⊢; norm_num; exact h25⟩)
    (fun _ => h30) hd rfl example_half_ten_encode rfl

/-! ## Theorems: float codec -/

/-- C10. Float special-value bit patterns: for (bits, expbits) = (32, 8) and (64, 11),
`pack754` returns 0 for +0.0, `2^(bits-1)` for -0.0, `(2^expbits - 1) << (bits -
expbits - 1)` for +Infinity, that value OR `2^(bits-1)` for -Infinity, and for NaN a
word with sign bit 0, exponent field all ones and mantissa `2^(bits-1-expbits) - 1`;
the 32-bit patterns are 0x00000000, 0x80000000, 0x7F800000 and 0x7FFFFFFF, and
`unpack754 (0x7F800000, 32, 8)` is +Infinity. -/
theorem pack754_special_values :
    (∀ p ∈ [((32 : ℕ), (8 : ℕ)), (64, 11)],
      pack754 (.zero false) p.1 p.2 = 0 ∧
      pack754 (.zero true) p.1 p.2 = 2 ^ (p.1 - 1) ∧
      pack754 (.inf false) p.1 p.2 = (2 ^ p.2 - 1) <<< (p.1 - p.2 - 1) ∧
      pack754 (.inf true) p.1 p.2 = ((2 ^ p.2 - 1) <<< (p.1 - p.2 - 1)) ||| 2 ^ (p.1 - 1) ∧
      (pack754 .nan p.1 p.2).testBit (p.1 - 1) = false ∧
      pack754 .nan p.1 p.2 < 2 ^ p.1 ∧
      (pack754 .nan p.1 p.2 >>> (p.1 - p.2 - 1)) &&& (2 ^ p.2 - 1) = 2 ^ p.2 - 1 ∧
      pack754 .nan p.1 p.2 &&& (2 ^ (p.1 - p.2 - 1) - 1) = 2 ^ (p.1 - 1 - p.2) - 1)
    ∧ pack754 (.zero false) 32 8 = 0x00000000
    ∧ pack754 (.zero true) 32 8 = 0x80000000
    ∧ pack754 (.inf false) 32 8 = 0x7F800000
    ∧ pack754 .nan 32 8 = 0x7FFFFFFF
    ∧ unpack754 0x7F800000 32 8 = .inf false := by
  refine ⟨?_, by decide, by decide, by decide, by decide, by decide⟩
  intro p hp
  simp only [List.mem_cons, List.mem_singleton, List.not_mem_nil, or_false] at hp
  rcases hp with rfl | rfl
  · refine ⟨by decide, by decide, by decide, by decide, by decide, by decide, by decide,
      by decide⟩
  · refine ⟨by decide, by decide, by decide, by decide, by decide, by decide, by decide,
      by decide⟩

/-! ## Theorems: storage types and the remap -/

/-- C20, at the failing input: for a bit length of 8 `determine_type` picks
`uint16_t`, 16 bits wide, for an unsigned signal and `int8_t`, 8 bits wide, for a
signed one, while the smallest of 8, 16, 32, 64 that is at least 8 is 8. -/
theorem determine_type_unsigned_byte :
    determine_type 8 false = ctype.uint16_t ∧ (determine_type 8 false).width = 16 ∧
      determine_type 8 true = ctype.int8_t ∧ (determine_type 8 true).width = 8 ∧
      spec_natural_width 8 = 8 := by
  decide

/-- C19. The Motorola remap stays inside the word: for a start bit in 0..63 and a
length in 1..64 with `length - 1 ≤ 8*(7 - start_bit/8) + start_bit%8`,
`fix_start_bit` computes for motorola the integer
`8*(7 - start_bit/8) + start_bit%8 - (length-1)` without wrap-around, the result plus
the length is at most 64, for intel it returns the start bit unchanged, and for a
signal of either byte order the shift count is below 64, so that the shifts of the
deserializer and of the serializer are defined. -/
theorem motorola_remap_in_word (start_bit length : ℕ) (hs : start_bit ≤ 63)
    (h1 : 1 ≤ length) (h64 : length ≤ 64)
    (hfit : length - 1 ≤ 8 * (7 - start_bit / 8) + start_bit % 8) :
    ((fix_start_bit true start_bit length : ℕ) : ℤ)
        = 8 * (7 - ((start_bit / 8 : ℕ) : ℤ)) + ((start_bit % 8 : ℕ) : ℤ) - ((length : ℤ) - 1)
      ∧ fix_start_bit true start_bit length + length ≤ 64
      ∧ fix_start_bit false start_bit length = start_bit
      ∧ (∀ sig : signal_t, sig.start_bit = start_bit → sig.bit_length = length →
          effective_start sig < 64 ∧
          (∀ w, (signal2deserializer_x sig w).isSome = true) ∧
          (∀ x0 acc, (signal2serializer_x sig x0 acc).isSome = true)) := by
  have hval : fix_start_bit true start_bit length
      = 8 * (7 - start_bit / 8) + start_bit % 8 - (length - 1) := by
    unfold fix_start_bit
    simp only [if_true]
    omega
  have hsum : fix_start_bit true start_bit length + length ≤ 64 := by
    rw [hval]; omega
  refine ⟨?_, hsum, ?_, ?_⟩
  · rw [hval]; omega
  · simp [fix_start_bit]
  · intro sig hsb hbl
    have he : effective_start sig < 64 := by
      unfold effective_start
      rw [hsb, hbl]
      cases is_motorola sig
      · simp only [fix_start_bit]; simp; omega
      · omega
    refine ⟨he, ?_, ?_⟩
    · intro w
      unfold signal2deserializer_x shr64
      by_cases h0 : effective_start sig = 0
      · simp [h0]
      · simp [h0, he]
    · intro x0 acc
      unfold signal2serializer_x shl64
      by_cases h0 : effective_start sig = 0
      · simp [h0]
      · simp [h0, he]

/-- Witness of `motorola_remap_in_word`: start bit 7 and length 12. -/
theorem motorola_remap_in_word_witness : fix_start_bit true 7 12 + 12 ≤ 64 :=
  (motorola_remap_in_word 7 12 (by decide) (by decide) (by decide) (by decide)).2.1

theorem convert_unsigned_mod (n : ℕ) (h64 : n ≤ 64) (z : ℤ) :
    (((determine_unsigned_type n).convert z).toNat % 2 ^ n : ℕ) = (z % 2 ^ n).toNat := by
  have key : ∀ W : ℕ, n ≤ W → ((z % 2 ^ W).toNat % 2 ^ n : ℕ) = (z % 2 ^ n).toNat := by
    intro W hW
    have hpos : (0 : ℤ) ≤ z % 2 ^ W := Int.emod_nonneg _ (by positivity)
    have hdvd : (2 : ℤ) ^ n ∣ 2 ^ W := pow_dvd_pow 2 hW
    zify
    rw [Int.toNat_of_nonneg hpos, Int.toNat_of_nonneg (Int.emod_nonneg _ (by positivity)),
      Int.emod_emod_of_dvd _ hdvd]
  unfold determine_unsigned_type
  by_cases h8 : n ≤ 8
  · simpa [h8, ctype.convert, ctype.width] using key 16 (by omega)
  · by_cases h16 : n ≤ 16
    · simpa [h8, h16, ctype.convert, ctype.width] using key 16 (by omega)
    · by_cases h32 : n ≤ 32
      · simpa [h8, h16, h32, ctype.convert, ctype.width] using key 32 (by omega)
      · simpa [h8, h16, h32, ctype.convert, ctype.width] using key 64 (by omega)

/-- C18. Signed values survive the bit codec: for a signed integer signal of length
`n` in 1..64 whose field fits the word and an integer `v` with
`-2^(n-1) ≤ v ≤ 2^(n-1) - 1`, serialising `v` into a zero accumulator (cast to the
unsigned storage type, mask, shift, OR) and deserialising the word (shift, mask,
sign-extend, store into the signed storage type) yields `v`. -/
theorem signed_round_trip (sig : signal_t) (v : ℤ) (hs : sig.is_signed = true)
    (h1 : 1 ≤ sig.bit_length) (h64 : sig.bit_length ≤ 64)
    (hfit : effective_start sig + sig.bit_length ≤ 64)
    (hlo : -(2 : ℤ) ^ (sig.bit_length - 1) ≤ v) (hhi : v ≤ 2 ^ (sig.bit_length - 1) - 1) :
    (signal2serializer_int sig v 0).bind (signal2deserializer_int sig) = some v := by
  have he : effective_start sig < 64 := by omega
  unfold signal2serializer_int signal2deserializer_int
  rw [signal2serializer_x_eq sig _ 0 h64 he, Option.some_bind,
    signal2deserializer_x_eq sig _ h64 he, Nat.zero_or, convert_unsigned_mod _ h64]
  have hy : (v % 2 ^ sig.bit_length).toNat < 2 ^ sig.bit_length := by
    zify
    rw [Int.toNat_of_nonneg (Int.emod_nonneg _ (by positivity))]
    exact Int.emod_lt_of_pos _ (by positivity)
  have hlt : (v % 2 ^ sig.bit_length).toNat * 2 ^ effective_start sig < 2 ^ 64 :=
    calc (v % 2 ^ sig.bit_length).toNat * 2 ^ effective_start sig
        < 2 ^ sig.bit_length * 2 ^ effective_start sig :=
          Nat.mul_lt_mul_of_pos_right hy (by positivity)
      _ = 2 ^ (sig.bit_length + effective_start sig) := (pow_add 2 _ _).symm
      _ ≤ 2 ^ 64 := Nat.pow_le_pow_right (by norm_num) (by omega)
  rw [Nat.mod_eq_of_lt hlt, Nat.mul_div_cancel _ (by positivity), Nat.mod_eq_of_lt hy,
    Option.map_some']
  congr 1
  unfold signal2deserializer_store determine_type
  simp only [hs, if_true]
  rw [store_signed_eq _ _ h1 h64 hy]
  have hbit := testBit_top_iff _ _ h1 hy
  have hcast : (((v % 2 ^ sig.bit_length).toNat : ℕ) : ℤ) = v % 2 ^ sig.bit_length :=
    Int.toNat_of_nonneg (Int.emod_nonneg _ (by positivity))
  generalize (v % 2 ^ sig.bit_length).toNat = y at hbit hcast ⊢
  obtain ⟨k, hk⟩ : ∃ k, sig.bit_length = k + 1 := ⟨sig.bit_length - 1, by omega⟩
  rw [hk] at hbit hcast hlo hhi ⊢
  simp only [Nat.add_sub_cancel] at hbit hlo hhi ⊢
  have e3 : (2 : ℤ) ^ (k + 1) = 2 * 2 ^ k := by rw [pow_succ]; ring
  have hpos : (0 : ℤ) < 2 ^ k := by positivity
  have c1 : ((2 ^ k : ℕ) : ℤ) = 2 ^ k := by push_cast; rfl
  rw [e3] at hcast ⊢
  by_cases hv : 0 ≤ v
  · have hmod : v % (2 * 2 ^ k) = v := Int.emod_eq_of_lt hv (by omega)
    rw [hmod] at hcast
    have hnb : ¬ (y.testBit k = true) := by
      rw [hbit]
      zify
      rw [hcast]
      omega
    simp only [hnb, if_false]
    exact hcast
  · have hmod : v % (2 * 2 ^ k) = v + 2 * 2 ^ k := by
      rw [← Int.add_mul_emod_self_left v (2 * 2 ^ k) 1, mul_one]
      exact Int.emod_eq_of_lt (by omega) (by omega)
    rw [hmod] at hcast
    have hb : y.testBit k = true := by
      rw [hbit]
      zify
      rw [hcast]
      omega
    simp only [hb, if_true]
    rw [hcast]
    ring

/-- Witness of `signed_round_trip`: a signed 12-bit motorola signal and the value -5. -/
theorem signed_round_trip_witness :
    (signal2serializer_int ⟨7, 12, .endianess_motorola_e, true, false, 1, 0, 0, 0⟩ (-5) 0).bind
      (signal2deserializer_int ⟨7, 12, .endianess_motorola_e, true, false, 1, 0, 0, 0⟩)
      = some (-5) :=
  signed_round_trip ⟨7, 12, .endianess_motorola_e, true, false, 1, 0, 0, 0⟩ (-5) rfl
    (by decide) (by decide) (by decide) (by norm_num) (by norm_num)

/-! ## Theorems: raw range, generation and frame encode -/

theorem c_trunc_mem (L H : ℤ) (q : ℚ) (hL : (L : ℚ) ≤ q) (hH : q ≤ (H : ℚ)) :
    (L : ℚ) ≤ (c_trunc q : ℚ) ∧ (c_trunc q : ℚ) ≤ (H : ℚ) := by
  unfold c_trunc
  split_ifs with h
  · exact ⟨by exact_mod_cast Int.le_floor.mpr hL, (Int.floor_le q).trans hH⟩
  · exact ⟨hL.trans (Int.le_ceil q), by exact_mod_cast Int.ceil_le.mpr hH⟩

theorem raw_in_range_trunc (sig : signal_t) (q : ℚ) (h : spec_raw_in_range sig q) :
    spec_raw_in_range sig (c_trunc q : ℚ) := by
  unfold spec_raw_in_range at h ⊢
  split_ifs at h ⊢
  · have := c_trunc_mem (-2 ^ (sig.bit_length - 1)) (2 ^ (sig.bit_length - 1) - 1) q
      (by push_cast; exact h.1) (by push_cast; exact h.2)
    push_cast at this
    exact this
  · have := c_trunc_mem 0 (2 ^ sig.bit_length - 1) q
      (by push_cast; exact h.1) (by push_cast; exact h.2)
    push_cast at this
    exact this

theorem raw_in_range_between (sig : signal_t) (a b q : ℚ) (ha : spec_raw_in_range sig a)
    (hb : spec_raw_in_range sig b) (hq : (a ≤ q ∧ q ≤ b) ∨ (b ≤ q ∧ q ≤ a)) :
    spec_raw_in_range sig q := by
  unfold spec_raw_in_range at ha hb ⊢
  split_ifs at ha hb ⊢
  · rcases hq with h | h
    · exact ⟨ha.1.trans h.1, h.2.trans hb.2⟩
    · exact ⟨hb.1.trans h.1, h.2.trans ha.2⟩
  · rcases hq with h | h
    · exact ⟨ha.1.trans h.1, h.2.trans hb.2⟩
    · exact ⟨hb.1.trans h.1, h.2.trans ha.2⟩

theorem c_float_op_add_mono (x : ℚ) {a b : ℚ} (h : a ≤ b) :
    c_float_op (· + ·) a x ≤ c_float_op (· + ·) b x := by
  unfold c_float_op
  split_ifs
  · exact round_float_mono (by simpa using h)
  · exact round_float_mono (round_double_mono (by simpa using h))

theorem c_float_op_mul_mono (x : ℚ) {a b : ℚ} (h : a ≤ b) (hc : 0 ≤ c_const x) :
    c_float_op (· * ·) a x ≤ c_float_op (· * ·) b x := by
  unfold c_float_op
  have hm : a * c_const x ≤ b * c_const x := mul_le_mul_of_nonneg_right h hc
  split_ifs
  · exact round_float_mono hm
  · exact round_float_mono (round_double_mono hm)

theorem c_float_op_mul_anti (x : ℚ) {a b : ℚ} (h : a ≤ b) (hc : c_const x ≤ 0) :
    c_float_op (· * ·) b x ≤ c_float_op (· * ·) a x := by
  unfold c_float_op
  have hm : b * c_const x ≤ a * c_const x := mul_le_mul_of_nonpos_right h hc
  split_ifs
  · exact round_float_mono hm
  · exact round_float_mono (round_double_mono hm)

theorem encode_arith_eq (sig : signal_t) (v : ℚ) :
    encode_arith sig v =
      if sig.scaling ≠ 1 then
        c_float_op (· * ·)
          (if sig.offset ≠ 0 then c_float_op (· + ·) v (-1 * sig.offset) else v)
          (round_double (1 / sig.scaling))
      else (if sig.offset ≠ 0 then c_float_op (· + ·) v (-1 * sig.offset) else v) :=
  rfl

/-- The arithmetic of the generated encoder is monotone, increasing or decreasing
with the sign of the printed `1/scaling`: the image of a value between two others
lies between their images. -/
theorem encode_arith_between (sig : signal_t) (a v b : ℚ) (ha : a ≤ v) (hb : v ≤ b) :
    (encode_arith sig a ≤ encode_arith sig v ∧ encode_arith sig v ≤ encode_arith sig b)
      ∨ (encode_arith sig b ≤ encode_arith sig v ∧ encode_arith sig v ≤ encode_arith sig a) := by
  have hstep : ∀ {x y : ℚ}, x ≤ y →
      (if sig.offset ≠ 0 then c_float_op (· + ·) x (-1 * sig.offset) else x)
        ≤ (if sig.offset ≠ 0 then c_float_op (· + ·) y (-1 * sig.offset) else y) := by
    intro x y hxy
    split_ifs
    · exact c_float_op_add_mono _ hxy
    · exact hxy
  rw [encode_arith_eq sig a, encode_arith_eq sig v, encode_arith_eq sig b]
  by_cases hs : sig.scaling ≠ 1
  · rw [if_pos hs, if_pos hs, if_pos hs]
    rcases le_total 0 (c_const (round_double (1 / sig.scaling))) with hc | hc
    · left
      exact ⟨c_float_op_mul_mono _ (hstep ha) hc, c_float_op_mul_mono _ (hstep hb) hc⟩
    · right
      exact ⟨c_float_op_mul_anti _ (hstep hb) hc, c_float_op_mul_anti _ (hstep ha) hc⟩
  · rw [if_neg hs, if_neg hs, if_neg hs]
    left
    exact ⟨hstep ha, hstep hb⟩

/-- An integer whose conversion to `double` is at most a bound below `2 ^ k` is
itself below `2 ^ k`. -/
theorem int_le_of_round_double_le (v : ℤ) (k : ℕ) (c : ℚ) (h : round_double (v : ℚ) ≤ c)
    (hc : c ≤ 2 ^ k - 1) : (v : ℚ) ≤ 2 ^ k - 1 := by
  by_contra hlt
  rw [not_le] at hlt
  have hv : (2 : ℤ) ^ k ≤ v := by
    have : ((2 ^ k - 1 : ℤ) : ℚ) < (v : ℚ) := by push_cast; exact hlt
    have : (2 ^ k - 1 : ℤ) < v := by exact_mod_cast this
    omega
  have hfix : round_double ((2 : ℚ) ^ k) = 2 ^ k := by
    have := round_double_fixed 1 k (by norm_num) (by omega)
    simpa using this
  have hmono : round_double ((2 : ℚ) ^ k) ≤ round_double (v : ℚ) :=
    round_double_mono (by exact_mod_cast hv)
  rw [hfix] at hmono
  linarith

/-- An integer whose conversion to `double` is at least a bound not below `-2 ^ k`,
`k` at most 52, is itself not below `-2 ^ k`. -/
theorem int_ge_of_round_double_ge (v : ℤ) (k : ℕ) (hk : k ≤ 52) (c : ℚ)
    (h : c ≤ round_double (v : ℚ)) (hc : -2 ^ k ≤ c) : -(2 : ℚ) ^ k ≤ (v : ℚ) := by
  by_contra hlt
  rw [not_le] at hlt
  have hv : v ≤ -2 ^ k - 1 := by
    have : (v : ℚ) < ((-2 ^ k : ℤ) : ℚ) := by push_cast; exact hlt
    have : v < (-2 ^ k : ℤ) := by exact_mod_cast this
    omega
  have hpow : (2 : ℤ) ^ k ≤ 2 ^ 52 := pow_le_pow_right₀ (by norm_num) hk
  have hfix : round_double (((-2 ^ k - 1 : ℤ)) : ℚ) = ((-2 ^ k - 1 : ℤ) : ℚ) := by
    apply round_double_intCast
    rw [abs_of_nonpos (by have : (0 : ℤ) < 2 ^ k := by positivity
                          omega)]
    omega
  have hmono : round_double (v : ℚ) ≤ round_double (((-2 ^ k - 1 : ℤ)) : ℚ) :=
    round_double_mono (by exact_mod_cast hv)
  rw [hfix] at hmono
  push_cast at hmono
  linarith

/-- An integer constant printed with `%g`. -/
theorem const_of_is_int (x : ℚ) (h : c_const_is_int x = true) :
    ∃ z : ℤ, fmt_g x = z ∧ c_const x = z ∧ |z| < 10 ^ 6 := by
  unfold c_const_is_int at h
  simp only [Bool.and_eq_true, decide_eq_true_eq] at h
  obtain ⟨hden, hlt⟩ := h
  have hq : fmt_g x = ((fmt_g x).num : ℚ) := ((Rat.den_eq_one_iff _).mp hden).symm
  have hz : |(fmt_g x).num| < 10 ^ 6 := by
    rw [hq] at hlt
    have : ((|(fmt_g x).num| : ℤ) : ℚ) < ((10 ^ 6 : ℤ) : ℚ) := by
      push_cast
      exact hlt
    exact_mod_cast this
  refine ⟨(fmt_g x).num, hq, ?_, hz⟩
  unfold c_const
  rw [hq]
  exact round_double_intCast _ (by omega)

/-- The operands of a printed test on an integer variable of the type chosen by
`determine_type`, when the constant is not negative or the type is signed. -/
theorem c_compare_determine (n : ℕ) (sg : Bool) (v x : ℚ)
    (hx : sg = false → 0 ≤ c_const x) :
    c_compare (determine_type n sg) v x = (v, c_const x)
      ∨ c_compare (determine_type n sg) v x = (round_double v, c_const x) := by
  unfold c_compare
  rw [determine_type_is_integer, if_pos rfl]
  by_cases hi : c_const_is_int x = true
  · left
    obtain ⟨z, hz1, hz2, hz3⟩ := const_of_is_int x hi
    rw [if_pos hi, hz1, hz2, c_trunc_intCast]
    split_ifs with hw
    · have hsg : sg = false := by
        cases sg
        · rfl
        · exfalso
          unfold determine_type determine_signed_type at hw
          simp only [if_true] at hw
          split_ifs at hw <;> simp at hw
      have hz0 : 0 ≤ z := by
        have := hx hsg
        rw [hz2] at this
        exact_mod_cast this
      have hwid : (2 : ℤ) ^ 32 ≤ 2 ^ (determine_type n sg).width := by
        rcases hw with hw | hw <;> rw [hw] <;> norm_num [ctype.width]
      have hlt : z < 2 ^ (determine_type n sg).width := by
        rw [abs_of_nonneg hz0] at hz3
        omega
      rw [Int.emod_eq_of_lt hz0 hlt]
    · rfl
  · right
    rw [if_neg hi]

/-- The width-`n` range within the type chosen by `determine_type`. -/
theorem holds_determine (sig : signal_t) (v : ℚ)
    (hv : (determine_type sig.bit_length sig.is_signed).holds v = true) :
    ∃ z : ℤ, v = z ∧ (sig.is_signed = false → 0 ≤ z)
      ∧ (sig.bit_length = 64 → spec_raw_in_range sig v) := by
  rw [holds_integer _ (determine_type_is_integer _ _)] at hv
  obtain ⟨hden, hlo, hhi⟩ := hv
  have hq : v = ((v.num : ℤ) : ℚ) := ((Rat.den_eq_one_iff _).mp hden).symm
  refine ⟨v.num, hq, ?_, ?_⟩
  · intro hsg
    rw [hsg] at hlo
    have h0 : (determine_type sig.bit_length false).lowest = 0 := by
      unfold determine_type determine_unsigned_type
      simp only [Bool.false_eq_true, if_false]
      split_ifs <;> rfl
    rw [h0, hq] at hlo
    exact_mod_cast hlo
  · intro h64
    unfold spec_raw_in_range
    rw [h64] at hlo hhi ⊢
    cases hsg : sig.is_signed
    · rw [hsg] at hlo hhi
      simp only [Bool.false_eq_true, if_false]
      have e1 : (determine_type 64 false).lowest = 0 := by decide
      have e2 : (determine_type 64 false).highest = 2 ^ 64 - 1 := by decide
      rw [e1] at hlo
      rw [e2] at hhi
      push_cast at hlo hhi
      exact ⟨hlo, by norm_num at hhi ⊢; exact hhi⟩
    · rw [hsg] at hlo hhi
      simp only [if_true]
      have e1 : (determine_type 64 true).lowest = -2 ^ 63 := by decide
      have e2 : (determine_type 64 true).highest = 2 ^ 63 - 1 := by decide
      rw [e1] at hlo
      rw [e2] at hhi
      push_cast at hlo hhi
      exact ⟨by norm_num at hlo ⊢; exact hlo, by norm_num at hhi ⊢; exact hhi⟩

theorem abs_round_half_even (q : ℚ) : |round_half_even q| = round_half_even |q| := by
  have h0 : round_half_even (0 : ℚ) = 0 := by exact_mod_cast round_half_even_intCast 0
  rcases le_total 0 q with h | h
  · have := round_half_even_mono h
    rw [h0] at this
    rw [abs_of_nonneg h, abs_of_nonneg this]
  · have := round_half_even_mono h
    rw [h0] at this
    rw [abs_of_nonpos h, abs_of_nonpos this, round_half_even_neg]

/-- A nonzero constant printed with `%g` is `m * 10 ^ j` with `m` an integer of six
digits (or `10 ^ 6`, when the digits round up to the next power of ten). -/
theorem fmt_g_form (x : ℚ) (hx : x ≠ 0) :
    ∃ m j : ℤ, fmt_g x = (m : ℚ) * 10 ^ j ∧ 10 ^ 5 ≤ |m| ∧ |m| ≤ 10 ^ 6 := by
  have habs : 0 < |x| := abs_pos.mpr hx
  obtain ⟨k, h1, h2⟩ : ∃ k : ℤ, (10 : ℚ) ^ k ≤ |x| ∧ |x| < (10 : ℚ) ^ (k + 1) := by
    refine ⟨Int.log 10 |x|, ?_, ?_⟩
    · have := Int.zpow_log_le_self (b := 10) (by norm_num) habs
      exact_mod_cast this
    · have := Int.lt_zpow_succ_log_self (b := 10) (by norm_num) |x|
      exact_mod_cast this
  have hu : (0 : ℚ) < 10 ^ (k - 5) := by positivity
  have hq1 : (10 : ℚ) ^ 5 ≤ |x / 10 ^ (k - 5)| := by
    rw [abs_div, abs_of_pos hu, le_div_iff₀ hu, ← zpow_natCast, ← zpow_add₀ (by norm_num)]
    have : ((5 : ℕ) : ℤ) + (k - 5) = k := by push_cast; ring
    rw [this]
    exact h1
  have hq2 : |x / 10 ^ (k - 5)| ≤ (10 : ℚ) ^ 6 := by
    rw [abs_div, abs_of_pos hu, div_le_iff₀ hu, ← zpow_natCast, ← zpow_add₀ (by norm_num)]
    have : ((6 : ℕ) : ℤ) + (k - 5) = k + 1 := by push_cast; ring
    rw [this]
    exact h2.le
  refine ⟨round_half_even (x / 10 ^ (k - 5)), k - 5, fmt_g_eval x k h1 h2, ?_, ?_⟩
  · rw [abs_round_half_even]
    have := round_half_even_mono hq1
    have h5 := round_half_even_intCast 100000
    have he : (((100000 : ℤ)) : ℚ) = (10 : ℚ) ^ 5 := by norm_num
    rw [he] at h5
    rw [h5] at this
    norm_num
    exact this
  · rw [abs_round_half_even]
    have := round_half_even_mono hq2
    have h6 := round_half_even_intCast 1000000
    have he : (((1000000 : ℤ)) : ℚ) = (10 : ℚ) ^ 6 := by norm_num
    rw [he] at h6
    rw [h6] at this
    norm_num
    exact this

/-- No constant printed with `%g` is the `double` `-2 ^ k` for `k` in 53..62: six
decimal digits times a power of ten of that size are a `double` themselves, and a
multiple of five. -/
theorem c_const_ne_neg_pow (x : ℚ) (k : ℕ) (hk : 53 ≤ k) (hk2 : k ≤ 62) :
    c_const x ≠ -(2 : ℚ) ^ k := by
  have hlow : (2 : ℚ) ^ 53 ≤ 2 ^ k := pow_le_pow_right₀ (by norm_num) hk
  have hupp : (2 : ℚ) ^ k ≤ 2 ^ 62 := pow_le_pow_right₀ (by norm_num) hk2
  unfold c_const
  by_cases hx : x = 0
  · have h0 : round_double (fmt_g x) = 0 := by
      rw [hx]
      have : fmt_g 0 = 0 := by simp [fmt_g]
      rw [this]
      simp [round_double, round_binary]
    rw [h0]
    intro h
    linarith
  obtain ⟨m, j, hy, hm1, hm2⟩ := fmt_g_form x hx
  rw [hy]
  intro hc
  have hm2q : |(m : ℚ)| ≤ 10 ^ 6 := by exact_mod_cast hm2
  have hm1q : (10 : ℚ) ^ 5 ≤ |(m : ℚ)| := by exact_mod_cast hm1
  rcases le_or_lt j 0 with hj | hj
  · -- at most six integral digits
    have h10 : (10 : ℚ) ^ j ≤ 1 := zpow_le_one_of_nonpos₀ (by norm_num) hj
    have h10p : (0 : ℚ) < 10 ^ j := by positivity
    have hb : -(10 : ℚ) ^ 6 ≤ (m : ℚ) * 10 ^ j := by
      have : |(m : ℚ) * 10 ^ j| ≤ 10 ^ 6 := by
        rw [abs_mul, abs_of_pos h10p]
        calc |(m : ℚ)| * 10 ^ j ≤ 10 ^ 6 * 1 :=
              mul_le_mul hm2q h10 h10p.le (by norm_num)
          _ = 10 ^ 6 := by ring
      exact (abs_le.mp this).1
    have hmono := round_double_mono hb
    have hfix : round_double (-(10 : ℚ) ^ 6) = -(10 : ℚ) ^ 6 := by
      have := round_double_intCast (-10 ^ 6) (by norm_num)
      exact_mod_cast this
    rw [hfix, hc] at hmono
    norm_num at hmono hlow
    linarith
  rcases le_or_lt j 13 with hj13 | hj13
  · -- the decimal is a `double`
    obtain ⟨n, rfl⟩ := Int.eq_ofNat_of_zero_le hj.le
    have hn1 : 1 ≤ n := by exact_mod_cast hj
    have hn13 : n ≤ 13 := by exact_mod_cast hj13
    have hsplit : (m : ℚ) * 10 ^ (n : ℤ) = ((m * 5 ^ n : ℤ) : ℚ) * 2 ^ (n : ℤ) := by
      push_cast
      rw [zpow_natCast, zpow_natCast, mul_assoc, ← mul_pow]
      norm_num
    have h5 : (5 : ℤ) ^ n ≤ 5 ^ 13 := pow_le_pow_right₀ (by norm_num) hn13
    have hsmall : |m * 5 ^ n| < 2 ^ 53 := by
      rw [abs_mul, abs_of_pos (by positivity : (0 : ℤ) < 5 ^ n)]
      calc |m| * 5 ^ n ≤ 10 ^ 6 * 5 ^ 13 := mul_le_mul hm2 h5 (by positivity) (by norm_num)
        _ < 2 ^ 53 := by norm_num
    rw [hsplit, round_double_fixed _ _ hsmall (by omega)] at hc
    have hz : m * 5 ^ n * 2 ^ n = -2 ^ k := by
      rw [zpow_natCast] at hc
      exact_mod_cast hc
    have hdvd : (5 : ℤ) ∣ 2 ^ k := by
      have h5n : (5 : ℤ) ∣ 5 ^ n := dvd_pow_self 5 (by omega)
      have : (5 : ℤ) ∣ m * 5 ^ n * 2 ^ n :=
        Dvd.dvd.mul_right (Dvd.dvd.mul_left h5n m) _
      rw [hz] at this
      exact (dvd_neg.mp this)
    have hdvdn : (5 : ℕ) ∣ 2 ^ k := by exact_mod_cast hdvd
    have := Nat.Prime.dvd_of_dvd_pow Nat.prime_five hdvdn
    norm_num at this
  · -- beyond the range of the powers in question
    have h14 : (10 : ℚ) ^ (14 : ℤ) ≤ 10 ^ j := zpow_le_zpow_right₀ (by norm_num) (by omega)
    have h10p : (0 : ℚ) < 10 ^ j := by positivity
    rcases le_or_lt 0 m with hm | hm
    · have hnn : (0 : ℚ) ≤ (m : ℚ) * 10 ^ j :=
        mul_nonneg (by exact_mod_cast hm) h10p.le
      have := round_binary_nonneg 53 (-1022) _ hnn
      unfold round_double at hc
      rw [hc] at this
      linarith
    · have hmq : (m : ℚ) ≤ -10 ^ 5 := by
        rw [abs_of_neg (by exact_mod_cast hm)] at hm1q
        linarith
      have hb : (m : ℚ) * 10 ^ j ≤ -(10 : ℚ) ^ 19 := by
        have : (10 : ℚ) ^ 5 * 10 ^ (14 : ℤ) ≤ (-(m : ℚ)) * 10 ^ j :=
          mul_le_mul (by linarith) h14 (by positivity) (by linarith)
        norm_num at this ⊢
        linarith
      have hmono := round_double_mono hb
      have hfix : round_double (-(10 : ℚ) ^ 19) = -(10 : ℚ) ^ 19 := by
        have := round_double_fixed (-5 ^ 19) 19 (by norm_num) (by norm_num)
        have he : ((-5 ^ 19 : ℤ) : ℚ) * 2 ^ (19 : ℤ) = -(10 : ℚ) ^ 19 := by norm_num
        rw [he] at this
        exact this
      rw [hfix, hc] at hmono
      norm_num at hmono hupp
      linarith

/-- An integer whose conversion to `double` is at least a bound above `-2 ^ k` is
itself not below `-2 ^ k`. -/
theorem int_ge_of_round_double_gt (v : ℤ) (k : ℕ) (c : ℚ)
    (h : c ≤ round_double (v : ℚ)) (hc : -2 ^ k ≤ c) (hne : c ≠ -2 ^ k) :
    -(2 : ℚ) ^ k ≤ (v : ℚ) := by
  by_contra hlt
  rw [not_le] at hlt
  have hmono : round_double (v : ℚ) ≤ round_double (-(2 : ℚ) ^ k) := round_double_mono hlt.le
  have hfix : round_double (-(2 : ℚ) ^ k) = -(2 : ℚ) ^ k := by
    have := round_double_fixed (-1) k (by norm_num) (by omega)
    rw [zpow_natCast] at this
    simpa using this
  rw [hfix] at hmono
  exact hne (le_antisymm (le_trans h hmono) hc)

/-- C13, as stated, fails.  The unsigned 12-bit signal with scaling 1, offset 0 and
the redundant bounds 0 and 4095 accepts 5000 and stores 5000, which is outside
`0..2^12 - 1`; the serializer's mask turns it into 904.  And the unsigned 23-bit
signal with scaling 1, offset 0 and the bounds 1 and 8388606, both active, has the
test `in > 8.38861e+06` printed, accepts 8388610 and stores it, above `2^23 - 1`. -/
theorem encode_out_of_range :
    signal2scaling_encode ⟨0, 12, .endianess_intel_e, false, false, 1, 0, 0, 4095⟩ false 0 5000
        = some ⟨0, 5000⟩ ∧
      ¬ spec_raw_in_range ⟨0, 12, .endianess_intel_e, false, false, 1, 0, 0, 4095⟩ 5000 ∧
      signal2serializer_int ⟨0, 12, .endianess_intel_e, false, false, 1, 0, 0, 4095⟩ 5000 0
        = some 904 ∧
      spec_lower_active ⟨0, 23, .endianess_intel_e, false, false, 1, 0, 1, 8388606⟩ ∧
      spec_upper_active ⟨0, 23, .endianess_intel_e, false, false, 1, 0, 1, 8388606⟩ ∧
      signal2scaling_encode ⟨0, 23, .endianess_intel_e, false, false, 1, 0, 1, 8388606⟩ false 0
        8388610 = some ⟨0, 8388610⟩ ∧
      ¬ spec_raw_in_range ⟨0, 23, .endianess_intel_e, false, false, 1, 0, 1, 8388606⟩
        8388610 := by
  refine ⟨?_, ?_, by decide, by norm_num [spec_lower_active],
    by norm_num [spec_upper_active], ?_, by norm_num [spec_raw_in_range]⟩
  · have ht : scaling_io_type ⟨0, 12, .endianess_intel_e, false, false, 1, 0, 0, 4095⟩ false
        = ctype.uint16_t := by
      simp [scaling_io_type, scaling_type, determine_type, determine_unsigned_type]
    have hm : member_type ⟨0, 12, .endianess_intel_e, false, false, 1, 0, 0, 4095⟩
        = ctype.uint16_t := by
      simp [member_type, determine_type, determine_unsigned_type]
    have htr : c_trunc (5000 : ℚ) = 5000 := by exact_mod_cast c_trunc_intCast 5000
    apply encode_accepts _ _ _ _ _ (by norm_num)
      (by rw [ht]; norm_num [ctype.holds, ctype.lowest, ctype.highest, ctype.width])
    · norm_num [gmin, gmax, unsigned_max, Nat.shiftLeft_eq]
    · simp [encode_overflows]
    · rw [encode_arith_eq, hm]
      norm_num [ctype.assign, htr, ctype.lowest, ctype.highest, ctype.width]
  · norm_num [spec_raw_in_range]
  · have hfmt : fmt_g 8388606 = 8388610 := by
      rw [fmt_g_eval 8388606 6 (by norm_num [abs_of_nonneg]) (by norm_num [abs_of_nonneg])]
      have hr : round_half_even ((8388606 : ℚ) / 10 ^ ((6 : ℤ) - 5)) = 838861 := by
        apply round_half_even_near
        norm_num [abs_of_nonneg]
      rw [hr]
      norm_num
    have hc : c_const 8388606 = 8388610 := by
      unfold c_const
      rw [hfmt]
      exact_mod_cast round_double_intCast 8388610 (by norm_num)
    have hv : round_double 8388610 = 8388610 := by
      exact_mod_cast round_double_intCast 8388610 (by norm_num)
    have hi : c_const_is_int 8388606 = false := by
      unfold c_const_is_int
      rw [hfmt]
      norm_num [abs_of_nonneg]
    obtain ⟨hc1, hi1⟩ := c_const_intCast 1 (by norm_num)
    have hf1 : fmt_g 1 = 1 := by exact_mod_cast fmt_g_intCast 1 (by norm_num)
    norm_num at hc1 hi1
    have htr1 : c_trunc (1 : ℚ) = 1 := by exact_mod_cast c_trunc_intCast 1
    have htr : c_trunc (8388610 : ℚ) = 8388610 := by
      exact_mod_cast c_trunc_intCast 8388610
    have ht : scaling_io_type ⟨0, 23, .endianess_intel_e, false, false, 1, 0, 1, 8388606⟩ false
        = ctype.uint32_t := by
      simp [scaling_io_type, scaling_type, determine_type, determine_unsigned_type]
    have hm : member_type ⟨0, 23, .endianess_intel_e, false, false, 1, 0, 1, 8388606⟩
        = ctype.uint32_t := by
      simp [member_type, determine_type, determine_unsigned_type]
    apply encode_accepts _ _ _ _ _ (by norm_num)
      (by rw [ht]; norm_num [ctype.holds, ctype.lowest, ctype.highest, ctype.width])
    · rw [ht]
      norm_num [c_gt, c_lt, c_compare, ctype.is_integer, hi, hc, hv, hi1, hf1, htr1,
        ctype.width]
    · simp [encode_overflows]
    · rw [encode_arith_eq, hm]
      norm_num [ctype.assign, htr, ctype.lowest, ctype.highest, ctype.width]

/-- C13, amended. For an integer signal of length `n` in 1..64 with nonzero scaling
whose `minimum` and `maximum` differ and are both active, every accepted value has
its stored raw value in the range representable in `n` bits, provided the raw values
that the generated arithmetic gives for the two bounds as `%g` prints them (six
significant digits) lie in that range. -/
theorem encode_raw_in_range (sig : signal_t) (ud : Bool) (old v : ℚ)
    (hf : sig.is_floating = false) (h1 : 1 ≤ sig.bit_length) (h64 : sig.bit_length ≤ 64)
    (hne : sig.minimum ≠ sig.maximum) (hlo : spec_lower_active sig)
    (hhi : spec_upper_active sig)
    (himg : spec_raw_in_range sig (encode_arith sig (c_const sig.minimum)) ∧
      spec_raw_in_range sig (encode_arith sig (c_const sig.maximum))) :
    ∀ r, signal2scaling_encode sig ud old v = some r → r.ret = 0 →
      spec_raw_in_range sig r.stored := by
  intro r hr h0
  obtain ⟨hs, hv⟩ := encode_some sig ud old v r hr
  obtain ⟨hst, -⟩ := encode_stored sig ud old v r hr h0
  have hgmin : gmin sig = true := (gmin_iff sig h1 h64).mpr hlo
  have hgmax : gmax sig = true := (gmax_iff sig hf h1 h64).mpr hhi
  have hno : ¬ (sig.minimum ≠ sig.maximum ∧
      ((gmin sig = true ∧ c_lt (scaling_io_type sig ud) v sig.minimum = true)
        ∨ (gmax sig = true ∧ c_gt (scaling_io_type sig ud) v sig.maximum = true))) := by
    intro hrej
    have := (encode_rejects_iff sig ud old v hs hv).2 hrej
    rw [hr, Option.some_inj] at this
    rw [this] at h0
    exact absurd h0 (by norm_num)
  have hlt : c_lt (scaling_io_type sig ud) v sig.minimum = false := by
    by_contra hc
    rw [Bool.not_eq_false] at hc
    exact hno ⟨hne, Or.inl ⟨hgmin, hc⟩⟩
  have hgt : c_gt (scaling_io_type sig ud) v sig.maximum = false := by
    by_contra hc
    rw [Bool.not_eq_false] at hc
    exact hno ⟨hne, Or.inr ⟨hgmax, hc⟩⟩
  have hint : (member_type sig).is_integer = true := by
    unfold member_type
    rw [hf]
    exact determine_type_is_integer _ _
  rw [assign_integer _ hint] at hst
  split_ifs at hst
  simp only [Option.some.injEq] at hst
  rw [← hst]
  apply raw_in_range_trunc
  by_cases ht : scaling_io_type sig ud = ctype.float
  · -- a `float` parameter: the tests are exact and the arithmetic is monotone
    rw [ht] at hlt hgt
    unfold c_lt c_compare at hlt
    unfold c_gt c_compare at hgt
    simp only [ctype.is_integer, Bool.false_eq_true, if_false, decide_eq_false_iff_not, not_lt]
      at hlt hgt
    exact raw_in_range_between sig _ _ _ himg.1 himg.2
      (encode_arith_between sig _ v _ hlt hgt)
  · -- an integer parameter: no scaling, no offset, and the stored value is the input
    have hplain : ¬ (sig.scaling ≠ 1 ∨ sig.offset ≠ 0) ∧ ud = false := by
      unfold scaling_io_type scaling_type at ht
      cases ud
      · simp only [Bool.false_eq_true, if_false] at ht
        refine ⟨fun h => ?_, rfl⟩
        rw [if_pos h] at ht
        exact ht rfl
      · simp at ht
    have hs1 : sig.scaling = 1 := by
      by_contra h
      exact hplain.1 (Or.inl h)
    have ho0 : sig.offset = 0 := by
      by_contra h
      exact hplain.1 (Or.inr h)
    have hid : ∀ u : ℚ, encode_arith sig u = u := by
      intro u
      rw [encode_arith_eq]
      simp [hs1, ho0]
    have hio : scaling_io_type sig ud = determine_type sig.bit_length sig.is_signed := by
      unfold scaling_io_type scaling_type
      rw [hplain.2, if_neg hplain.1]
      rfl
    rw [hid] at himg ⊢
    rw [hid] at himg
    rw [hio] at hv hlt hgt
    obtain ⟨z, hz, hz0, hz64⟩ := holds_determine sig v hv
    by_cases hn : sig.bit_length = 64
    · exact hz64 hn
    · have hmin0 : sig.is_signed = false → 0 ≤ c_const sig.minimum := by
        intro hsg
        have := himg.1
        unfold spec_raw_in_range at this
        rw [hsg] at this
        exact this.1
      have hmax0 : sig.is_signed = false → 0 ≤ c_const sig.maximum := by
        intro hsg
        have := himg.2
        unfold spec_raw_in_range at this
        rw [hsg] at this
        exact this.1
      have hcl := c_compare_determine sig.bit_length sig.is_signed v sig.minimum hmin0
      have hcu := c_compare_determine sig.bit_length sig.is_signed v sig.maximum hmax0
      unfold c_lt at hlt
      unfold c_gt at hgt
      simp only [decide_eq_false_iff_not, not_lt] at hlt hgt
      obtain ⟨hil, hiu⟩ := himg
      unfold spec_raw_in_range at hil hiu ⊢
      cases hsg : sig.is_signed
      · rw [hsg] at hil hiu
        simp only [Bool.false_eq_true, if_false] at hil hiu ⊢
        refine ⟨by rw [hz]; exact_mod_cast hz0 hsg, ?_⟩
        rcases hcu with h | h
        · rw [h] at hgt
          exact le_trans hgt hiu.2
        · rw [h, hz] at hgt
          rw [hz]
          exact int_le_of_round_double_le z _ _ hgt hiu.2
      · rw [hsg] at hil hiu
        simp only [if_true] at hil hiu ⊢
        constructor
        · rcases hcl with h | h
          · rw [h] at hlt
            exact le_trans hil.1 hlt
          · rw [h, hz] at hlt
            rw [hz]
            by_cases hk : sig.bit_length - 1 ≤ 52
            · exact int_ge_of_round_double_ge z _ hk _ hlt hil.1
            · exact int_ge_of_round_double_gt z _ _ hlt hil.1
                (c_const_ne_neg_pow _ _ (by omega) (by omega))
        · rcases hcu with h | h
          · rw [h] at hgt
            exact le_trans hgt hiu.2
          · rw [h, hz] at hgt
            rw [hz]
            exact int_le_of_round_double_le z _ _ hgt hiu.2

/-- The encoder of the unsigned 8-bit signal with bounds 10 and 100, scaling 1 and
offset 0 accepts 50 and stores it. -/
theorem example_bounds_encode :
    signal2scaling_encode ⟨0, 8, .endianess_intel_e, false, false, 1, 0, 10, 100⟩ false 0 50
      = some ⟨0, 50⟩ := by
  have ht : scaling_io_type ⟨0, 8, .endianess_intel_e, false, false, 1, 0, 10, 100⟩ false
      = ctype.uint16_t := by
    simp [scaling_io_type, scaling_type, determine_type, determine_unsigned_type]
  have hm : member_type ⟨0, 8, .endianess_intel_e, false, false, 1, 0, 10, 100⟩
      = ctype.uint16_t := by
    simp [member_type, determine_type, determine_unsigned_type]
  have htr : c_trunc (50 : ℚ) = 50 := by exact_mod_cast c_trunc_intCast 50
  obtain ⟨hc100, hi100⟩ := c_const_intCast 100 (by norm_num)
  obtain ⟨hc10, hi10⟩ := c_const_intCast 10 (by norm_num)
  have hf100 : fmt_g 100 = 100 := by exact_mod_cast fmt_g_intCast 100 (by norm_num)
  have hf10 : fmt_g 10 = 10 := by exact_mod_cast fmt_g_intCast 10 (by norm_num)
  norm_num at hi100 hi10
  apply encode_accepts _ _ _ _ _ (by norm_num)
    (by rw [ht]; norm_num [ctype.holds, ctype.lowest, ctype.highest, ctype.width])
  · rw [ht]
    have hty : ¬ (ctype.uint16_t = ctype.uint32_t ∨ ctype.uint16_t = ctype.uint64_t) := by
      decide
    norm_num [c_gt, c_lt, c_compare, ctype.is_integer, hi100, hi10, hf100, hf10, hty]
  · simp [encode_overflows]
  · rw [encode_arith_eq, hm]
    norm_num [ctype.assign, htr, ctype.lowest, ctype.highest, ctype.width]

/-- Witness of `encode_raw_in_range`: the unsigned 8-bit signal with bounds 10 and
100, both active, and the accepted input 50. -/
theorem encode_raw_in_range_witness :
    spec_raw_in_range ⟨0, 8, .endianess_intel_e, false, false, 1, 0, 10, 100⟩
      (⟨0, 50⟩ : encode_result).stored := by
  have hc100 : c_const 100 = 100 := by
    exact_mod_cast (c_const_intCast 100 (by norm_num)).1
  have hc10 : c_const 10 = 10 := by
    exact_mod_cast (c_const_intCast 10 (by norm_num)).1
  exact encode_raw_in_range ⟨0, 8, .endianess_intel_e, false, false, 1, 0, 10, 100⟩ false 0 50
    rfl (by decide) (by decide) (by norm_num)
    (by norm_num [spec_lower_active]) (by norm_num [spec_upper_active])
    (by
      rw [encode_arith_eq, encode_arith_eq]
      norm_num [hc100, hc10, spec_raw_in_range])
    ⟨0, 50⟩ example_bounds_encode rfl

theorem msg2h_signals_eq (l : List signal_t) (printed : ℤ) :
    msg2h_signals l printed = some () := by
  induction l with
  | nil => rfl
  | cons sig rest ih =>
    simp [msg2h_signals, signal2scaling_encode_call, signal2scaling_decode_call, ih]

theorem msg2c_signals_eq (l : List signal_t) (printed : ℤ) :
    msg2c_signals l printed = if ∃ sig ∈ l, sig.scaling = 0 then none else some () := by
  induction l with
  | nil => simp [msg2c_signals]
  | cons sig rest ih =>
    by_cases h0 : sig.scaling = 0
    · simp [msg2c_signals, signal2scaling_encode_call, h0]
    · simp [msg2c_signals, signal2scaling_encode_call, signal2scaling_decode_call, h0, ih]

theorem dbc2cpp_headers_eq (l : List can_msg_t) (printed : ℤ) :
    dbc2cpp_headers l printed = some true := by
  induction l with
  | nil => rfl
  | cons msg rest ih =>
    simp [dbc2cpp_headers, msg2h, msg2h_signals_eq, ih]

theorem dbc2cpp_bodies_eq (l : List can_msg_t) (printed : ℤ) :
    dbc2cpp_bodies l printed
      = if ∃ msg ∈ l, ∃ sig ∈ msg.sigs, sig.scaling = 0 then none else some true := by
  induction l with
  | nil => simp [dbc2cpp_bodies]
  | cons msg rest ih =>
    by_cases h0 : ∃ sig ∈ msg.sigs, sig.scaling = 0
    · simp [dbc2cpp_bodies, msg2c, msg2c_signals_eq, h0]
    · have h0' : ¬ ∃ sig ∈ msg.sigs, sig.scaling = 0 := h0
      simp only [dbc2cpp_bodies, msg2c, msg2c_signals_eq, h0, if_false, Option.map_some',
        Option.some_bind, lt_self_iff_false, ih, List.mem_cons, exists_eq_or_imp, false_or]

theorem dbc2cpp_eq (dbc : dbc_t) (printed : ℤ) :
    dbc2cpp dbc printed
      = if ∃ msg ∈ dbc.messages, ∃ sig ∈ msg.sigs, sig.scaling = 0 then none else some 1 := by
  unfold dbc2cpp
  rw [dbc2cpp_headers_eq, dbc2cpp_bodies_eq]
  split_ifs <;> simp

/-- C14, as stated, fails: a database whose only signal is an 8-bit intel signal
starting at bit 60, whose bit range does not fit the 64-bit frame, is generated with
the success result 1. -/
theorem malformed_range_generated :
    spec_malformed ⟨60, 8, .endianess_intel_e, false, false, 1, 0, 0, 0⟩ ∧
      dbc2cpp ⟨[⟨256, 8, [⟨60, 8, .endianess_intel_e, false, false, 1, 0, 0, 0⟩]⟩]⟩ 50
        = some 1 := by
  constructor
  · norm_num [spec_malformed, spec_effective_start]
  · rw [dbc2cpp_eq]
    norm_num

/-- C14, amended. Generation stops with an error on a database that has a signal
with scaling 0; `signal2type` returns the error result -1 for a signal with bit
length 0 and for a floating signal whose length is neither 32 nor 64; and a database
whose signals all have a nonzero scaling, a nonzero length and, when floating, a
length of 32 or 64 is generated with the success result 1, whether or not their bit
ranges fit the frame. -/
theorem generation_outcome (dbc : dbc_t) (printed : ℤ) :
    ((∃ msg ∈ dbc.messages, ∃ sig ∈ msg.sigs, sig.scaling = 0) →
        dbc2cpp dbc printed = none)
      ∧ (∀ sig : signal_t, sig.bit_length = 0 ∨
          (sig.is_floating = true ∧ sig.bit_length ≠ 32 ∧ sig.bit_length ≠ 64) →
          signal2type sig printed = -1)
      ∧ ((∀ msg ∈ dbc.messages, ∀ sig ∈ msg.sigs, sig.scaling ≠ 0 ∧ sig.bit_length ≠ 0 ∧
            (sig.is_floating = true → sig.bit_length = 32 ∨ sig.bit_length = 64)) →
        dbc2cpp dbc printed = some 1) := by
  refine ⟨?_, ?_, ?_⟩
  · intro h
    rw [dbc2cpp_eq, if_pos h]
  · intro sig h
    unfold signal2type
    rcases h with h | ⟨hf, h32, h64⟩
    · simp [h]
    · simp [hf, h32, h64]
  · intro h
    rw [dbc2cpp_eq, if_neg]
    rintro ⟨msg, hm, sig, hsg, h0⟩
    exact (h msg hm sig hsg).1 h0

/-- Witness of `generation_outcome`: a database whose only signal has scaling 0 stops
the generator. -/
theorem generation_outcome_witness :
    dbc2cpp ⟨[⟨256, 8, [⟨0, 8, .endianess_intel_e, false, false, 0, 0, 0, 100⟩]⟩]⟩ 50 = none :=
  (generation_outcome ⟨[⟨256, 8, [⟨0, 8, .endianess_intel_e, false, false, 0, 0, 0, 100⟩]⟩]⟩
    50).1 ⟨_, List.mem_singleton_self _, _, List.mem_singleton_self _, rfl⟩

/-- The serializer is defined for a descriptor whose shift count is below 64 and
whose length, when floating, is 32 or 64. -/
theorem serializer_defined (sig : signal_t) (raw : ℚ) (frame : ℕ)
    (he : effective_start sig < 64)
    (hw : sig.is_floating = true → sig.bit_length = 32 ∨ sig.bit_length = 64) :
    ∃ f, signal2serializer sig (spec_raw_member sig raw) frame = some f := by
  have hx : ∀ x0, ∃ f, signal2serializer_x sig x0 frame = some f := by
    intro x0
    unfold signal2serializer_x shl64
    by_cases h0 : effective_start sig = 0
    · simp [h0]
    · simp [h0, he]
  unfold spec_raw_member signal2serializer
  cases hfl : sig.is_floating
  · simp only [Bool.false_eq_true, if_false]
    exact hx _
  · simp only [if_true]
    rcases hw hfl with h | h
    · simp only [h, if_true]
      exact hx _
    · simp only [h]
      norm_num
      exact hx _

/-- The encoder of an unsigned 8-bit signal with bounds 0 and 100, scaling 1 and
offset 0 accepts 50 and rejects 150. -/
theorem example_range_encode (start : ℕ) (old : ℚ) :
    signal2scaling_encode ⟨start, 8, .endianess_intel_e, false, false, 1, 0, 0, 100⟩ false old
        50 = some ⟨0, 50⟩ ∧
      signal2scaling_encode ⟨start, 8, .endianess_intel_e, false, false, 1, 0, 0, 100⟩ false old
        150 = some ⟨-1, 0⟩ := by
  have ht : scaling_io_type ⟨start, 8, .endianess_intel_e, false, false, 1, 0, 0, 100⟩ false
      = ctype.uint16_t := by
    simp [scaling_io_type, scaling_type, determine_type, determine_unsigned_type]
  have hm : member_type ⟨start, 8, .endianess_intel_e, false, false, 1, 0, 0, 100⟩
      = ctype.uint16_t := by
    simp [member_type, determine_type, determine_unsigned_type]
  have htr : c_trunc (50 : ℚ) = 50 := by exact_mod_cast c_trunc_intCast 50
  obtain ⟨hc100, hi100⟩ := c_const_intCast 100 (by norm_num)
  have hf100 : fmt_g 100 = 100 := by exact_mod_cast fmt_g_intCast 100 (by norm_num)
  norm_num at hi100
  have hty : ¬ (ctype.uint16_t = ctype.uint32_t ∨ ctype.uint16_t = ctype.uint64_t) := by
    decide
  constructor
  · apply encode_accepts _ _ _ _ _ (by norm_num)
      (by rw [ht]; norm_num [ctype.holds, ctype.lowest, ctype.highest, ctype.width])
    · rw [ht]
      norm_num [c_gt, c_lt, c_compare, ctype.is_integer, hi100, hf100, hty, gmin]
    · simp [encode_overflows]
    · rw [encode_arith_eq, hm]
      norm_num [ctype.assign, htr, ctype.lowest, ctype.highest, ctype.width]
  · apply (encode_rejects_iff _ _ _ _ (by norm_num) _).2
    · refine ⟨by norm_num, Or.inr ⟨?_, ?_⟩⟩
      · norm_num [gmax, unsigned_max, Nat.shiftLeft_eq]
      · rw [ht]
        norm_num [c_gt, c_compare, ctype.is_integer, hi100, hf100, hty]
    · rw [ht]
      norm_num [ctype.holds, ctype.lowest, ctype.highest, ctype.width]

/-- C15. Message-level encode is all-or-nothing: when the scaling step of at least
one signal of the message rejects its value, the frame encode fails and produces no
frame word, and on a message whose descriptors are all valid and whose values the
generated scaling steps are defined on it fails with that signal's error,
`RangeViolation`. -/
theorem frame_encode_all_or_nothing (use_doubles : Bool) (l : List (signal_t × ℚ)) (frame : ℕ)
    (hrej : ∃ p ∈ l, ∃ r, signal2scaling_encode p.1 use_doubles 0 p.2 = some r ∧ r.ret ≠ 0) :
    (∃ e, spec_frame_encode use_doubles l frame = Except.error e)
      ∧ ((∀ p ∈ l, p.1.scaling ≠ 0 ∧ (signal2scaling_encode p.1 use_doubles 0 p.2).isSome = true ∧
            effective_start p.1 < 64 ∧
            (p.1.is_floating = true → p.1.bit_length = 32 ∨ p.1.bit_length = 64)) →
          spec_frame_encode use_doubles l frame
            = Except.error codec_error.RangeViolation) := by
  induction l generalizing frame with
  | nil =>
    obtain ⟨p, hp, -⟩ := hrej
    exact absurd hp (List.not_mem_nil p)
  | cons p rest ih =>
    obtain ⟨sig, value⟩ := p
    unfold spec_frame_encode
    cases henc : signal2scaling_encode sig use_doubles 0 value with
    | none =>
      refine ⟨⟨_, rfl⟩, fun hv => ?_⟩
      have hsome := (hv (sig, value) (List.mem_cons_self _ _)).2.1
      simp only at hsome
      rw [henc] at hsome
      exact absurd hsome (by simp)
    | some r =>
      by_cases hret : r.ret ≠ 0
      · simp only []
        rw [if_pos hret]
        exact ⟨⟨_, rfl⟩, fun _ => rfl⟩
      · simp only []
        rw [if_neg hret]
        have hrest : ∃ p ∈ rest, ∃ r,
            signal2scaling_encode p.1 use_doubles 0 p.2 = some r ∧ r.ret ≠ 0 := by
          obtain ⟨p, hp, r', hr', hne⟩ := hrej
          rcases List.mem_cons.mp hp with rfl | hp
          · simp only at hr'
            rw [henc, Option.some_inj] at hr'
            subst hr'
            exact absurd hne hret
          · exact ⟨p, hp, r', hr', hne⟩
        cases hser : signal2serializer sig (spec_raw_member sig r.stored) frame with
        | none =>
          refine ⟨⟨_, rfl⟩, fun hv => ?_⟩
          obtain ⟨-, -, he, hw⟩ := hv (sig, value) (List.mem_cons_self _ _)
          obtain ⟨f, hf⟩ := serializer_defined sig r.stored frame he hw
          rw [hser] at hf
          exact absurd hf (by simp)
        | some f =>
          obtain ⟨h1, h2⟩ := ih f hrest
          exact ⟨h1, fun hv => h2 (fun p hp => hv p (List.mem_cons_of_mem _ hp))⟩

/-- Witness of `frame_encode_all_or_nothing`: a message of two signals whose second
value, 150, is above the maximum 100. -/
theorem frame_encode_all_or_nothing_witness :
    spec_frame_encode false
        [(⟨0, 8, .endianess_intel_e, false, false, 1, 0, 0, 100⟩, 50),
         (⟨8, 8, .endianess_intel_e, false, false, 1, 0, 0, 100⟩, 150)] 0
      = Except.error codec_error.RangeViolation :=
  (frame_encode_all_or_nothing false
    [(⟨0, 8, .endianess_intel_e, false, false, 1, 0, 0, 100⟩, 50),
     (⟨8, 8, .endianess_intel_e, false, false, 1, 0, 0, 100⟩, 150)] 0
    ⟨(⟨8, 8, .endianess_intel_e, false, false, 1, 0, 0, 100⟩, 150),
      by simp, ⟨-1, 0⟩, (example_range_encode 8 0).2, by norm_num⟩).2
    (by
      intro p hp
      simp only [List.mem_cons, List.mem_singleton, List.not_mem_nil, or_false] at hp
      rcases hp with rfl | rfl
      · exact ⟨by norm_num, by rw [(example_range_encode 0 0).1]; rfl, by decide, by simp⟩
      · exact ⟨by norm_num, by rw [(example_range_encode 8 0).2]; rfl, by decide, by simp⟩)

/-! ## Theorems: float codec, fields of the word -/

theorem iterate_mul_two (n : ℕ) (x : ℚ) : (fun y : ℚ => y * 2)^[n] x = x * 2 ^ n := by
  induction n generalizing x with
  | zero => simp
  | succ n ih => rw [Function.iterate_succ_apply, ih, pow_succ]; ring

/-- Halving a `double` is exact while the result stays a multiple of `2 ^ (-1074)`. -/
theorem iterate_halve_exact (n : ℕ) (m e : ℤ) (hm : |m| < 2 ^ 53) (he : -1074 ≤ e - n) :
    (fun y : ℚ => round_double (y / 2))^[n] ((m : ℚ) * 2 ^ e) = (m : ℚ) * 2 ^ (e - n) := by
  induction n generalizing e with
  | zero => simp
  | succ n ih =>
    have hstep : round_double ((m : ℚ) * 2 ^ e / 2) = (m : ℚ) * 2 ^ (e - 1) := by
      have h2 : (m : ℚ) * 2 ^ e / 2 = (m : ℚ) * 2 ^ (e - 1) := by
        rw [zpow_sub_one₀ (by norm_num)]
        ring
      rw [h2]
      exact round_double_fixed m (e - 1) hm (by push_cast at he; omega)
    rw [Function.iterate_succ_apply]
    simp only [hstep]
    rw [ih (e - 1) (by push_cast at he ⊢; omega)]
    congr 2
    push_cast
    ring

/-- The two loops on `shift` of `unpack754` multiply by `2 ^ shift`, the last halving
rounding the result to a `double`. -/
theorem iterate_shift (z : ℤ) (m e : ℤ) (hm : |m| < 2 ^ 53) (he : -1074 ≤ e)
    (hz : -1075 ≤ e + z) :
    (fun y : ℚ => round_double (y / 2))^[(-z).toNat]
        ((fun y : ℚ => y * 2)^[z.toNat] ((m : ℚ) * 2 ^ e))
      = round_double ((m : ℚ) * 2 ^ e * 2 ^ z) := by
  rw [iterate_mul_two]
  rcases le_total 0 z with h | h
  · obtain ⟨n, rfl⟩ := Int.eq_ofNat_of_zero_le h
    have h1 : (m : ℚ) * 2 ^ e * 2 ^ (n : ℤ) = (m : ℚ) * 2 ^ (e + n) := by
      rw [zpow_add₀ (by norm_num)]
      ring
    simp only [Int.toNat_ofNat, neg_nonpos, Int.ofNat_zero_le, Int.toNat_eq_zero.mpr,
      Function.iterate_zero, id_eq]
    rw [← zpow_natCast, h1, round_double_fixed m _ hm (by omega)]
  · obtain ⟨n, hn⟩ := Int.eq_ofNat_of_zero_le (neg_nonneg.mpr h)
    have hzn : z = -(n : ℤ) := by omega
    subst hzn
    simp only [neg_neg, Int.toNat_ofNat, Int.toNat_eq_zero.mpr h, pow_zero, mul_one]
    rcases Nat.eq_zero_or_pos n with rfl | hpos
    · simp only [Function.iterate_zero, id_eq, Nat.cast_zero, neg_zero, zpow_zero, mul_one]
      exact (round_double_fixed m e hm he).symm
    · obtain ⟨k, rfl⟩ : ∃ k, n = k + 1 := ⟨n - 1, by omega⟩
      rw [Function.iterate_succ_apply', iterate_halve_exact k m e hm (by push_cast at hz; omega)]
      congr 1
      rw [zpow_sub₀ (by norm_num), zpow_neg, zpow_natCast, zpow_natCast]
      rw [pow_succ]
      field_simp

theorem and_mask_eq_iff (i sb eb : ℕ) :
    i &&& (2 ^ sb * (2 ^ eb - 1)) = 2 ^ sb * (2 ^ eb - 1)
      ↔ i / 2 ^ sb % 2 ^ eb = 2 ^ eb - 1 := by
  constructor
  · intro h
    apply Nat.eq_of_testBit_eq
    intro k
    have hk := congrArg (fun y => Nat.testBit y (sb + k)) h
    simp only [Nat.testBit_and, Nat.testBit_mul_pow_two, Nat.testBit_two_pow_sub_one,
      Nat.add_sub_cancel_left, Nat.le_add_right, ge_iff_le, decide_True, Bool.true_and] at hk
    rw [Nat.testBit_mod_two_pow, ← Nat.shiftRight_eq_div_pow, Nat.testBit_shiftRight,
      Nat.testBit_two_pow_sub_one]
    by_cases hlt : k < eb
    · simpa [hlt] using hk
    · simp [hlt]
  · intro h
    apply Nat.eq_of_testBit_eq
    intro j
    rw [Nat.testBit_and, Nat.testBit_mul_pow_two, Nat.testBit_two_pow_sub_one]
    by_cases hj : sb ≤ j
    · by_cases hk : j - sb < eb
      · have hbit : (i / 2 ^ sb % 2 ^ eb).testBit (j - sb) = true := by
          rw [h, Nat.testBit_two_pow_sub_one]; simp [hk]
        rw [Nat.testBit_mod_two_pow, ← Nat.shiftRight_eq_div_pow, Nat.testBit_shiftRight] at hbit
        have hj' : sb + (j - sb) = j := by omega
        rw [hj'] at hbit
        simp at hbit
        simp [hj, hk, hbit.2]
      · simp [hk]
    · simp [hj]

/-- The constants of `pack754` and `unpack754` for the two formats. -/
theorem format_constants (p : ℕ × ℕ) (hp : p ∈ [((32 : ℕ), (8 : ℕ)), (64, 11)]) :
    shl_u64 (2 ^ p.2 - 1) (p.1 - p.2 - 1) = 2 ^ (p.1 - p.2 - 1) * (2 ^ p.2 - 1)
      ∧ sub_u64 (2 ^ (p.1 - p.2 - 1)) 1 = 2 ^ (p.1 - p.2 - 1) - 1
      ∧ shl_u64 1 (p.1 - 1) = 2 ^ (p.1 - 1)
      ∧ shl_u64 1 (p.1 - p.2 - 1) = 2 ^ (p.1 - p.2 - 1)
      ∧ sub_u64 (shl_u64 1 p.2) 1 = 2 ^ p.2 - 1
      ∧ 1 <<< (p.2 - 1) - 1 = 2 ^ (p.2 - 1) - 1
      ∧ p.1 - 1 = (p.1 - p.2 - 1) + p.2
      ∧ p.1 ≤ 64 ∧ 1 ≤ p.2 := by
  simp only [List.mem_cons, List.mem_singleton, List.not_mem_nil, or_false] at hp
  rcases hp with rfl | rfl <;> decide

theorem mantissa_plus_one (m sb : ℕ) :
    (m : ℚ) / 2 ^ sb + 1 = (((m + 2 ^ sb : ℕ) : ℤ) : ℚ) * 2 ^ (-(sb : ℤ)) := by
  rw [zpow_neg, zpow_natCast]
  push_cast
  field_simp

/-- The two loops of `unpack754` on the mantissa fraction plus one. -/
theorem unpack_loops (sb m : ℕ) (z : ℤ) (hsb : sb ≤ 52) (hm : m < 2 ^ sb)
    (hz : -1075 ≤ -(sb : ℤ) + z) :
    (fun y : ℚ => round_double (y / 2))^[(-z).toNat]
        ((fun y : ℚ => y * 2)^[z.toNat] ((m : ℚ) / 2 ^ sb + 1))
      = round_double (((m : ℚ) / 2 ^ sb + 1) * 2 ^ z) := by
  have hlt : |((m + 2 ^ sb : ℕ) : ℤ)| < 2 ^ 53 := by
    rw [abs_of_nonneg (by positivity)]
    have h1 : m + 2 ^ sb < 2 ^ (sb + 1) := by rw [pow_succ]; omega
    have h2 : 2 ^ (sb + 1) ≤ 2 ^ 53 := Nat.pow_le_pow_right (by norm_num) (by omega)
    exact_mod_cast lt_of_lt_of_le h1 h2
  rw [mantissa_plus_one]
  exact iterate_shift z _ _ hlt (by omega) hz

/-- What `unpack754` computes, in terms of the fields of the word. -/
theorem unpack754_eq (p : ℕ × ℕ) (hp : p ∈ [((32 : ℕ), (8 : ℕ)), (64, 11)]) (i : ℕ) :
    unpack754 i p.1 p.2 =
      if i = 0 then c_double.zero false
      else if i / 2 ^ (p.1 - p.2 - 1) % 2 ^ p.2 = 2 ^ p.2 - 1 then
        if i % 2 ^ (p.1 - p.2 - 1) ≠ 0 then c_double.nan
        else if i.testBit (p.1 - 1) = true then c_double.inf true else c_double.inf false
      else if i / 2 ^ (p.1 - 1) % 2 ≠ 0 then
        c_double.finite (-round_double
          ((((i % 2 ^ (p.1 - p.2 - 1) : ℕ) : ℚ) / 2 ^ (p.1 - p.2 - 1) + 1)
          * 2 ^ (((i / 2 ^ (p.1 - p.2 - 1) % 2 ^ p.2 : ℕ) : ℤ) - (2 ^ (p.2 - 1) - 1))))
      else
        c_double.finite (round_double
          ((((i % 2 ^ (p.1 - p.2 - 1) : ℕ) : ℚ) / 2 ^ (p.1 - p.2 - 1) + 1)
          * 2 ^ (((i / 2 ^ (p.1 - p.2 - 1) % 2 ^ p.2 : ℕ) : ℤ) - (2 ^ (p.2 - 1) - 1)))) := by
  obtain ⟨c1, c2, c3, c4, c5, c6, -, -, h1⟩ := format_constants p hp
  have hsb : p.1 - p.2 - 1 ≤ 52 ∧ (2 : ℤ) ^ (p.2 - 1) - 1 + (p.1 - p.2 - 1 : ℕ) ≤ 1075 := by
    simp only [List.mem_cons, List.mem_singleton, List.not_mem_nil, or_false] at hp
    rcases hp with rfl | rfl <;> norm_num
  have hb : (((2 ^ (p.2 - 1) - 1 : ℕ) : ℤ)) = 2 ^ (p.2 - 1) - 1 := by
    rw [Nat.cast_sub (Nat.one_le_two_pow)]
    push_cast
    rfl
  have hloops := unpack_loops (p.1 - p.2 - 1) (i % 2 ^ (p.1 - p.2 - 1))
    (((i / 2 ^ (p.1 - p.2 - 1) % 2 ^ p.2 : ℕ) : ℤ) - (2 ^ (p.2 - 1) - 1)) hsb.1
    (Nat.mod_lt _ (by positivity)) (by have := hsb.2; omega)
  unfold unpack754
  simp only [c1, c2, c3, c4, c5, c6, and_mask_eq_iff, Nat.and_pow_two_sub_one_eq_mod,
    and_top_ne_zero_iff, Nat.shiftRight_eq_div_pow, Nat.and_one_is_mod]
  rw [hb]
  push_cast at hloops ⊢
  rw [hloops]

/-- The value that `unpack754` rounds is a `double` already, unless the word is a
binary64 word with a zero exponent field and an odd mantissa. -/
theorem unpack754_exact (p : ℕ × ℕ) (hp : p ∈ [((32 : ℕ), (8 : ℕ)), (64, 11)]) (i : ℕ)
    (h : p.1 = 32 ∨ i / 2 ^ (p.1 - p.2 - 1) % 2 ^ p.2 ≠ 0 ∨ i % 2 ^ (p.1 - p.2 - 1) % 2 = 0) :
    round_double ((((i % 2 ^ (p.1 - p.2 - 1) : ℕ) : ℚ) / 2 ^ (p.1 - p.2 - 1) + 1)
        * 2 ^ (((i / 2 ^ (p.1 - p.2 - 1) % 2 ^ p.2 : ℕ) : ℤ) - (2 ^ (p.2 - 1) - 1)))
      = (((i % 2 ^ (p.1 - p.2 - 1) : ℕ) : ℚ) / 2 ^ (p.1 - p.2 - 1) + 1)
        * 2 ^ (((i / 2 ^ (p.1 - p.2 - 1) % 2 ^ p.2 : ℕ) : ℤ) - (2 ^ (p.2 - 1) - 1)) := by
  have hmlt : i % 2 ^ (p.1 - p.2 - 1) < 2 ^ (p.1 - p.2 - 1) := Nat.mod_lt _ (by positivity)
  generalize i % 2 ^ (p.1 - p.2 - 1) = m at h hmlt ⊢
  generalize i / 2 ^ (p.1 - p.2 - 1) % 2 ^ p.2 = e at h ⊢
  have hform : ∀ (sb : ℕ) (z : ℤ), ((m : ℚ) / 2 ^ sb + 1) * 2 ^ z
      = (((m + 2 ^ sb : ℕ) : ℤ) : ℚ) * 2 ^ (z - sb) := by
    intro sb z
    rw [mantissa_plus_one, mul_assoc, ← zpow_add₀ (by norm_num)]
    congr 2
    ring
  have hbound : ∀ sb : ℕ, sb ≤ 52 → m < 2 ^ sb → |((m + 2 ^ sb : ℕ) : ℤ)| < 2 ^ 53 := by
    intro sb hsb hm
    rw [abs_of_nonneg (by positivity)]
    have h1 : m + 2 ^ sb < 2 ^ (sb + 1) := by rw [pow_succ]; omega
    have h2 : 2 ^ (sb + 1) ≤ 2 ^ 53 := Nat.pow_le_pow_right (by norm_num) (by omega)
    exact_mod_cast lt_of_lt_of_le h1 h2
  simp only [List.mem_cons, List.mem_singleton, List.not_mem_nil, or_false] at hp
  rcases hp with rfl | rfl
  · simp only [Nat.reduceSub] at hmlt ⊢
    rw [hform]
    exact round_double_fixed _ _ (hbound 23 (by norm_num) hmlt) (by norm_num; omega)
  · simp only [Nat.reduceSub] at hmlt h ⊢
    rcases h with h | h | h
    · exact absurd h (by norm_num)
    · rw [hform]
      exact round_double_fixed _ _ (hbound 52 (by norm_num) hmlt) (by norm_num; omega)
    · by_cases he : e = 0
      · subst he
        obtain ⟨k, hk⟩ : ∃ k, m = 2 * k := ⟨m / 2, by omega⟩
        subst hk
        have hval : (((2 * k : ℕ) : ℚ) / 2 ^ 52 + 1) * 2 ^ (((0 : ℕ) : ℤ) - (2 ^ (11 - 1) - 1))
            = (((k + 2 ^ 51 : ℕ) : ℤ) : ℚ) * 2 ^ (-1074 : ℤ) := by
          rw [hform]
          have h2 : ((((2 * k + 2 ^ 52 : ℕ) : ℤ)) : ℚ) = (((k + 2 ^ 51 : ℕ) : ℤ) : ℚ) * 2 := by
            push_cast
            ring
          rw [h2, mul_assoc]
          congr 1
          rw [show ((0 : ℕ) : ℤ) - (2 ^ (11 - 1) - 1) - ((52 : ℕ) : ℤ) = -1074 - 1 by norm_num,
            zpow_sub_one₀ (by norm_num)]
          field_simp
          ring
        rw [hval]
        apply round_double_fixed _ _ _ (by norm_num)
        rw [abs_of_nonneg (by positivity)]
        have : k + 2 ^ 51 < 2 ^ 53 := by omega
        exact_mod_cast this
      · rw [hform]
        exact round_double_fixed _ _ (hbound 52 (by norm_num) hmlt) (by norm_num; omega)

/-! ## Theorems: float codec, normalisation -/

theorem normalize_down_of_lt (fuel : ℕ) (x : ℚ) (s : ℤ) (hx : x < 2) :
    normalize_down fuel x s = (x, s) := by
  cases fuel with
  | zero => rfl
  | succ f => simp [normalize_down, not_le.mpr hx]

theorem normalize_up_of_ge (fuel : ℕ) (x : ℚ) (s : ℤ) (hx : 1 ≤ x) :
    normalize_up fuel x s = (x, s) := by
  cases fuel with
  | zero => rfl
  | succ f => simp [normalize_up, not_lt.mpr hx]

theorem normalize_down_pow (n : ℕ) (fuel : ℕ) (a : ℚ) (s : ℤ) (ha1 : 1 ≤ a) (ha2 : a < 2)
    (hf : n ≤ fuel) : normalize_down fuel (a * 2 ^ n) s = (a, s + n) := by
  induction n generalizing fuel s with
  | zero => simpa using normalize_down_of_lt fuel a s ha2
  | succ n ih =>
    obtain ⟨f, rfl⟩ : ∃ f, fuel = f + 1 := ⟨fuel - 1, by omega⟩
    have hge : a * 2 ^ (n + 1) ≥ 2 := by
      have h2 : (2 : ℚ) ≤ 2 ^ (n + 1) := by
        calc (2 : ℚ) = 2 ^ 1 := by norm_num
          _ ≤ 2 ^ (n + 1) := pow_le_pow_right₀ (by norm_num) (by omega)
      nlinarith
    have hdiv : a * 2 ^ (n + 1) / 2 = a * 2 ^ n := by rw [pow_succ]; ring
    rw [normalize_down, if_pos hge, hdiv, ih f (s + 1) (by omega)]
    push_cast
    rw [add_assoc, add_comm 1 (n : ℤ)]

theorem normalize_up_pow (n : ℕ) (fuel : ℕ) (a : ℚ) (s : ℤ) (ha1 : 1 ≤ a) (ha2 : a < 2)
    (hf : n ≤ fuel) : normalize_up fuel (a / 2 ^ n) s = (a, s - n) := by
  induction n generalizing fuel s with
  | zero => simpa using normalize_up_of_ge fuel a s ha1
  | succ n ih =>
    obtain ⟨f, rfl⟩ : ∃ f, fuel = f + 1 := ⟨fuel - 1, by omega⟩
    have h2 : (2 : ℚ) ≤ 2 ^ (n + 1) := by
      calc (2 : ℚ) = 2 ^ 1 := by norm_num
        _ ≤ 2 ^ (n + 1) := pow_le_pow_right₀ (by norm_num) (by omega)
    have hlt : a / 2 ^ (n + 1) < 1 := by
      rw [div_lt_one (by positivity)]
      linarith
    have hmul : a / 2 ^ (n + 1) * 2 = a / 2 ^ n := by rw [pow_succ]; field_simp; ring
    rw [normalize_up, if_pos hlt, hmul, ih f (s - 1) (by omega)]
    push_cast
    congr 1
    ring

theorem two_mul_le_two_pow (n : ℕ) : 2 * n ≤ 2 ^ n := by
  induction n with
  | zero => norm_num
  | succ n ih =>
    rcases Nat.eq_zero_or_pos n with rfl | hpos
    · norm_num
    · rw [pow_succ]; omega

theorem fuel_down (a : ℚ) (n : ℕ) (ha1 : 1 ≤ a) : n ≤ (a * 2 ^ n).num.natAbs := by
  have hq : (0 : ℚ) < a * 2 ^ n := by positivity
  have hnum : 0 < (a * 2 ^ n).num := Rat.num_pos.mpr hq
  have hden : (1 : ℚ) ≤ ((a * 2 ^ n).den : ℚ) := by exact_mod_cast (a * 2 ^ n).den_pos
  have hle : a * 2 ^ n ≤ ((a * 2 ^ n).num : ℚ) := by
    rw [← Rat.mul_den_eq_num (a * 2 ^ n)]
    exact le_mul_of_one_le_right hq.le hden
  have hn : (n : ℚ) ≤ a * 2 ^ n := by
    have h1 : (n : ℚ) ≤ 2 ^ n := by exact_mod_cast (Nat.lt_two_pow n).le
    have h2 : (0 : ℚ) < 2 ^ n := by positivity
    nlinarith
  have hfin : (n : ℤ) ≤ (a * 2 ^ n).num := by exact_mod_cast hn.trans hle
  omega

theorem fuel_up (a : ℚ) (n : ℕ) (ha2 : a < 2) (ha0 : 0 < a) : n ≤ (a / 2 ^ n).den := by
  have hq : (0 : ℚ) < a / 2 ^ n := by positivity
  have hnum : (1 : ℚ) ≤ ((a / 2 ^ n).num : ℚ) := by
    exact_mod_cast Rat.num_pos.mpr hq
  have hmul := Rat.mul_den_eq_num (a / 2 ^ n)
  have h2n : (0 : ℚ) < 2 ^ n := by positivity
  have hd : (2 : ℚ) ^ n ≤ a * ((a / 2 ^ n).den : ℚ) := by
    have : a / 2 ^ n * ((a / 2 ^ n).den : ℚ) = a * ((a / 2 ^ n).den : ℚ) / 2 ^ n := by ring
    rw [this] at hmul
    rw [← hmul] at hnum
    rwa [le_div_iff₀ h2n, one_mul] at hnum
  have hdpos : (0 : ℚ) < ((a / 2 ^ n).den : ℚ) := by exact_mod_cast (a / 2 ^ n).den_pos
  have h3 : (2 : ℚ) ^ n < 2 * ((a / 2 ^ n).den : ℚ) := by nlinarith
  have h4 : (2 * n : ℚ) ≤ 2 ^ n := by exact_mod_cast two_mul_le_two_pow n
  have h5 : (n : ℚ) < ((a / 2 ^ n).den : ℚ) := by linarith
  exact_mod_cast h5.le

/-- The two normalisation loops of `pack754` on `a * 2 ^ k` with `a` in `[1, 2)`. -/
theorem normalize_eq (a : ℚ) (k : ℤ) (ha1 : 1 ≤ a) (ha2 : a < 2) :
    normalize_up (normalize_down (a * 2 ^ k).num.natAbs (a * 2 ^ k) 0).1.den
      (normalize_down (a * 2 ^ k).num.natAbs (a * 2 ^ k) 0).1
      (normalize_down (a * 2 ^ k).num.natAbs (a * 2 ^ k) 0).2 = (a, k) := by
  rcases le_total 0 k with h | h
  · obtain ⟨n, rfl⟩ := Int.eq_ofNat_of_zero_le h
    rw [zpow_natCast, normalize_down_pow n _ a 0 ha1 ha2 (fuel_down a n ha1)]
    simp only [zero_add]
    exact normalize_up_of_ge _ a n ha1
  · obtain ⟨n, hn⟩ := Int.eq_ofNat_of_zero_le (neg_nonneg.mpr h)
    have hk : k = -(n : ℤ) := by omega
    subst hk
    have hq : a * 2 ^ (-(n : ℤ)) = a / 2 ^ n := by
      rw [zpow_neg, zpow_natCast, div_eq_mul_inv]
    rw [hq]
    have hlt : a / 2 ^ n < 2 := by
      have h1 : (1 : ℚ) ≤ 2 ^ n := one_le_pow₀ (by norm_num)
      rw [div_lt_iff₀ (by positivity)]
      nlinarith
    rw [normalize_down_of_lt _ _ 0 hlt]
    simp only
    rw [normalize_up_pow n _ a 0 ha1 ha2 (fuel_up a n ha2 (by linarith)), zero_sub]

theorem abs_as_ite (f : ℚ) : (if f < 0 then -f else f) = |f| := by
  split_ifs with h
  · exact (abs_of_neg h).symm
  · exact (abs_of_nonneg (not_lt.mp h)).symm

/-- The `float` sum `(1LL << significandbits) + 0.5f` of `pack754` is the power of
two itself in both formats: the half is lost in the rounding. -/
theorem float_sum_half (p : ℕ × ℕ) (hp : p ∈ [((32 : ℕ), (8 : ℕ)), (64, 11)]) :
    round_float (((1 <<< (p.1 - p.2 - 1) : ℕ) : ℚ) + 1 / 2) = 2 ^ (p.1 - p.2 - 1) := by
  simp only [List.mem_cons, List.mem_singleton, List.not_mem_nil, or_false] at hp
  unfold round_float
  rcases hp with rfl | rfl
  · have hq : (((1 <<< (32 - 8 - 1) : ℕ) : ℚ) + 1 / 2) = 16777217 / 2 := by
      norm_num [Nat.shiftLeft_eq]
    rw [hq, round_binary_eval 24 (-126) (16777217 / 2) 23 (by norm_num [abs_of_nonneg])
      (by norm_num [abs_of_nonneg])]
    have hr : round_half_even ((16777217 / 2 : ℚ)
        / 2 ^ (max (23 : ℤ) (-126) - (((24 : ℕ) : ℤ) - 1))) = 8388608 := by
      apply round_half_even_unique
      · norm_num [abs_of_nonneg]
      · intro; norm_num
    rw [hr]
    norm_num
  · have hq : (((1 <<< (64 - 11 - 1) : ℕ) : ℚ) + 1 / 2) = 9007199254740993 / 2 := by
      norm_num [Nat.shiftLeft_eq]
    rw [hq, round_binary_eval 24 (-126) (9007199254740993 / 2) 52 (by norm_num [abs_of_nonneg])
      (by norm_num [abs_of_nonneg])]
    have hr : round_half_even ((9007199254740993 / 2 : ℚ)
        / 2 ^ (max (52 : ℤ) (-126) - (((24 : ℕ) : ℤ) - 1))) = 8388608 := by
      apply round_half_even_near
      norm_num [abs_of_nonneg]
    rw [hr]
    norm_num

/-- The significand that `pack754` computes for `|f| = a * 2 ^ k`, `a` in `[1, 2)`. -/
theorem pack754_significand_eq (f a : ℚ) (k : ℤ) (p : ℕ × ℕ)
    (hp : p ∈ [((32 : ℕ), (8 : ℕ)), (64, 11)]) (ha1 : 1 ≤ a) (ha2 : a < 2)
    (hf : |f| = a * 2 ^ k) :
    pack754_significand f p.1 p.2 = c_trunc ((a - (1 : ℚ)) * 2 ^ (p.1 - p.2 - 1)) := by
  unfold pack754_significand
  simp only [abs_as_ite, hf, normalize_eq a k ha1 ha2, float_sum_half p hp]

/-- The biased exponent that `pack754` computes for `|f| = a * 2 ^ k`, `a` in `[1, 2)`. -/
theorem pack754_exp_eq (f a : ℚ) (k : ℤ) (expbits : ℕ) (ha1 : 1 ≤ a) (ha2 : a < 2)
    (hf : |f| = a * 2 ^ k) :
    pack754_exp f expbits = k + (((1 <<< (expbits - 1) : ℕ) : ℤ) - 1) := by
  unfold pack754_exp
  simp only [abs_as_ite, hf, normalize_eq a k ha1 ha2]

/-- Every positive rational is `a * 2 ^ k` with `a` in `[1, 2)`. -/
theorem exists_normal_form (q : ℚ) (hq : 0 < q) :
    ∃ (a : ℚ) (k : ℤ), 1 ≤ a ∧ a < 2 ∧ q = a * 2 ^ k := by
  refine ⟨q / 2 ^ (Int.log 2 q), Int.log 2 q, ?_, ?_, ?_⟩
  · rw [le_div_iff₀ (by positivity), one_mul]
    exact_mod_cast Int.zpow_log_le_self (by norm_num) hq
  · rw [div_lt_iff₀ (by positivity)]
    have := Int.lt_zpow_succ_log_self (b := 2) (by norm_num) q
    rw [zpow_add_one₀ (by norm_num)] at this
    push_cast at this
    linarith
  · field_simp

/-! ## Theorems: float codec, special values and IEEE-754 -/

/-- C11, at the failing input: `pack754` turns -0.0 into the word with only the sign
bit set, and `unpack754` turns that word into the finite nonzero value `-2^(-bias)`
(`-2^(-127)` for (32, 8), `-2^(-1023)` for (64, 11)), not into -0.0.  The other four
special values, +0.0, +Infinity, -Infinity and NaN, come back unchanged in both
formats. -/
theorem negative_zero_not_restored :
    pack754 (c_double.zero true) 32 8 = 0x80000000 ∧
      unpack754 (pack754 (c_double.zero true) 32 8) 32 8 = c_double.finite (-(1 / 2 ^ 127)) ∧
      unpack754 (pack754 (c_double.zero true) 64 11) 64 11
        = c_double.finite (-(1 / 2 ^ 1023)) ∧
      (∀ p ∈ [((32 : ℕ), (8 : ℕ)), (64, 11)],
        unpack754 (pack754 (c_double.zero false) p.1 p.2) p.1 p.2 = c_double.zero false ∧
        unpack754 (pack754 (c_double.inf false) p.1 p.2) p.1 p.2 = c_double.inf false ∧
        unpack754 (pack754 (c_double.inf true) p.1 p.2) p.1 p.2 = c_double.inf true ∧
        unpack754 (pack754 c_double.nan p.1 p.2) p.1 p.2 = c_double.nan) := by
  refine ⟨by decide, ?_, ?_, ?_⟩
  · have h : pack754 (c_double.zero true) 32 8 = 2147483648 := by decide
    rw [h]
    have := unpack754_eq (32, 8) (by simp) 2147483648
    have hx := unpack754_exact (32, 8) (by simp) 2147483648 (Or.inl rfl)
    simp only at this hx
    rw [this, hx]
    norm_num [zpow_neg]
  · have h : pack754 (c_double.zero true) 64 11 = 9223372036854775808 := by decide
    rw [h]
    have := unpack754_eq (64, 11) (by simp) 9223372036854775808
    have hx := unpack754_exact (64, 11) (by simp) 9223372036854775808
      (Or.inr (Or.inr (by norm_num)))
    simp only at this hx
    rw [this, hx]
    norm_num [zpow_neg]
  · intro p hp
    simp only [List.mem_cons, List.mem_singleton, List.not_mem_nil, or_false] at hp
    rcases hp with rfl | rfl
    · refine ⟨by decide, by decide, by decide, by decide⟩
    · refine ⟨by decide, by decide, by decide, by decide⟩

/-- C12, as stated, fails: the word 1, the smallest binary32 subnormal, has the
IEEE-754 value `2^(-149)`, and `unpack754 (1, 32, 8)` is `(1 + 2^(-23)) * 2^(-127)`. -/
theorem subnormal_not_ieee :
    unpack754 1 32 8 = c_double.finite ((1 / 2 ^ 23 + 1) / 2 ^ 127) ∧
      spec_ieee754 1 32 8 = c_double.finite (1 / 2 ^ 149) ∧
      unpack754 1 32 8 ≠ spec_ieee754 1 32 8 := by
  have h1 : unpack754 1 32 8 = c_double.finite ((1 / 2 ^ 23 + 1) / 2 ^ 127) := by
    have := unpack754_eq (32, 8) (by simp) 1
    have hx := unpack754_exact (32, 8) (by simp) 1 (Or.inl rfl)
    simp only at this hx
    rw [this, hx]
    norm_num [zpow_neg]
  have h2 : spec_ieee754 1 32 8 = c_double.finite (1 / 2 ^ 149) := by
    norm_num [spec_ieee754, zpow_neg]
  refine ⟨h1, h2, ?_⟩
  rw [h1, h2]
  intro h
  injection h with h
  norm_num at h

theorem sign_field_cases (i n : ℕ) : i / 2 ^ n % 2 = 0 ∨ i / 2 ^ n % 2 = 1 := by
  omega

/-- C12, amended. For (bits, expbits) = (32, 8) and (64, 11) and a word `i` that is 0
or whose exponent field is not all zeros, `unpack754` is the value that IEEE-754
assigns to `i` (+0.0, an infinity, NaN or the normal number of that word); a word
whose exponent field is all zeros and whose mantissa `m` is not zero is decoded like
a normal number, to `(-1)^sign * (1 + m/2^significandbits) * 2^(-bias)` as the last
halving rounds it to a `double`, which leaves it unchanged in binary32 and for an
even `m`. -/
theorem unpack754_ieee (p : ℕ × ℕ) (i : ℕ) (hp : p ∈ [((32 : ℕ), (8 : ℕ)), (64, 11)]) :
    (i = 0 ∨ i / 2 ^ (p.1 - p.2 - 1) % 2 ^ p.2 ≠ 0 →
        unpack754 i p.1 p.2 = spec_ieee754 i p.1 p.2)
      ∧ (i / 2 ^ (p.1 - p.2 - 1) % 2 ^ p.2 = 0 → i % 2 ^ (p.1 - p.2 - 1) ≠ 0 →
        unpack754 i p.1 p.2 = c_double.finite
          ((-1) ^ (i / 2 ^ (p.1 - 1) % 2)
            * round_double ((1 + ((i % 2 ^ (p.1 - p.2 - 1) : ℕ) : ℚ) / 2 ^ (p.1 - p.2 - 1))
              * (2 : ℚ) ^ (-((2 : ℤ) ^ (p.2 - 1) - 1)))))
      ∧ (p.1 = 32 ∨ i % 2 ^ (p.1 - p.2 - 1) % 2 = 0 →
        round_double ((1 + ((i % 2 ^ (p.1 - p.2 - 1) : ℕ) : ℚ) / 2 ^ (p.1 - p.2 - 1))
            * (2 : ℚ) ^ (-((2 : ℤ) ^ (p.2 - 1) - 1)))
          = (1 + ((i % 2 ^ (p.1 - p.2 - 1) : ℕ) : ℚ) / 2 ^ (p.1 - p.2 - 1))
            * (2 : ℚ) ^ (-((2 : ℤ) ^ (p.2 - 1) - 1))) := by
  have hones : (2 : ℕ) ^ p.2 - 1 ≠ 0 := by
    simp only [List.mem_cons, List.mem_singleton, List.not_mem_nil, or_false] at hp
    rcases hp with rfl | rfl <;> decide
  have hbit : i.testBit (p.1 - 1) = decide (i / 2 ^ (p.1 - 1) % 2 = 1) :=
    Nat.testBit_to_div_mod
  refine ⟨?_, ?_, ?_⟩
  · rw [unpack754_eq p hp i]
    unfold spec_ieee754
    simp only []
    rintro (h0 | he)
    · subst h0
      simp [hones.symm]
    · have hi : i ≠ 0 := by
        rintro rfl
        simp at he
      rw [if_neg hi, if_neg he]
      by_cases hall : i / 2 ^ (p.1 - p.2 - 1) % 2 ^ p.2 = 2 ^ p.2 - 1
      · rw [if_pos hall, if_pos hall, hbit]
        by_cases hm : i % 2 ^ (p.1 - p.2 - 1) = 0
        · by_cases hs : i / 2 ^ (p.1 - 1) % 2 = 1
          · simp [hm, hs]
          · simp [hm, hs]
        · simp [hm]
      · rw [if_neg hall, if_neg hall, unpack754_exact p hp i (Or.inr (Or.inl he))]
        rcases sign_field_cases i (p.1 - 1) with hs | hs
        · simp only [hs, ne_eq, not_true_eq_false, if_false, pow_zero, one_mul]
          congr 1
          ring
        · simp only [hs, ne_eq, one_ne_zero, not_false_eq_true, if_true, pow_one]
          congr 1
          ring
  · intro he hm
    rw [unpack754_eq p hp i]
    have hi : i ≠ 0 := by
      rintro rfl
      simp at hm
    have hall : ¬ i / 2 ^ (p.1 - p.2 - 1) % 2 ^ p.2 = 2 ^ p.2 - 1 := by
      rw [he]; exact hones.symm
    rw [if_neg hi, if_neg hall, he]
    have harg : (((i % 2 ^ (p.1 - p.2 - 1) : ℕ) : ℚ) / 2 ^ (p.1 - p.2 - 1) + 1)
          * 2 ^ (((0 : ℕ) : ℤ) - (2 ^ (p.2 - 1) - 1))
        = (1 + ((i % 2 ^ (p.1 - p.2 - 1) : ℕ) : ℚ) / 2 ^ (p.1 - p.2 - 1))
          * (2 : ℚ) ^ (-((2 : ℤ) ^ (p.2 - 1) - 1)) := by
      rw [add_comm]
      congr 2
      push_cast
      ring
    rw [harg]
    rcases sign_field_cases i (p.1 - 1) with hs | hs
    · simp only [hs, ne_eq, not_true_eq_false, if_false, pow_zero, one_mul]
    · simp only [hs, ne_eq, one_ne_zero, not_false_eq_true, if_true, pow_one]
      congr 1
      ring
  · intro h
    have hx := unpack754_exact p hp (i % 2 ^ (p.1 - p.2 - 1))
      (h.imp id (fun h2 => Or.inr (by rw [Nat.mod_mod]; exact h2)))
    have hlt : i % 2 ^ (p.1 - p.2 - 1) < 2 ^ (p.1 - p.2 - 1) := Nat.mod_lt _ (by positivity)
    rw [Nat.mod_mod, Nat.div_eq_of_lt hlt, Nat.zero_mod] at hx
    have harg : (((i % 2 ^ (p.1 - p.2 - 1) : ℕ) : ℚ) / 2 ^ (p.1 - p.2 - 1) + 1)
          * 2 ^ (((0 : ℕ) : ℤ) - (2 ^ (p.2 - 1) - 1))
        = (1 + ((i % 2 ^ (p.1 - p.2 - 1) : ℕ) : ℚ) / 2 ^ (p.1 - p.2 - 1))
          * (2 : ℚ) ^ (-((2 : ℤ) ^ (p.2 - 1) - 1)) := by
      rw [add_comm]
      congr 2
      push_cast
      ring
    rw [harg] at hx
    exact hx

/-- Witness of `unpack754_ieee`: the word of 1.0 in binary32. -/
theorem unpack754_ieee_witness :
    unpack754 0x3F800000 32 8 = spec_ieee754 0x3F800000 32 8 :=
  (unpack754_ieee (32, 8) 0x3F800000 (by simp)).1 (Or.inr (by norm_num))

/-! ## Theorems: float codec, pack -/

theorem c_trunc_of_nonneg (q : ℚ) (h : 0 ≤ q) : c_trunc q = ⌊q⌋ := by
  unfold c_trunc
  rw [if_pos h]

theorem to_u64_natCast (n : ℕ) (h : n < 2 ^ 64) : to_u64 (n : ℤ) = n := by
  unfold to_u64
  have : ((n : ℤ)) % 2 ^ 64 = n := Int.emod_eq_of_lt (by positivity) (by exact_mod_cast h)
  rw [this, Int.toNat_natCast]

/-- The quantisation of a fraction `m / 2 ^ sb` gives back `m`. -/
theorem trunc_mantissa (m sb : ℕ) :
    c_trunc ((((m : ℚ) / 2 ^ sb + 1) - (1 : ℚ)) * 2 ^ sb) = m := by
  have hval : (((m : ℚ) / 2 ^ sb + 1) - (1 : ℚ)) * 2 ^ sb = ((m : ℤ) : ℚ) := by
    push_cast
    field_simp
  rw [hval, c_trunc_intCast]

/-- A value below `2 ^ sb` that is OR-ed into a word whose low `sb` bits are zero
leaves the bits from `sb` up unchanged. -/
theorem or_low_bits (w s sb : ℕ) (hw : w % 2 ^ sb = 0) (hs : s < 2 ^ sb) :
    (w ||| s) / 2 ^ sb = w / 2 ^ sb := by
  obtain ⟨k, hk⟩ : ∃ k, w = 2 ^ sb * k := ⟨w / 2 ^ sb, by
    have := Nat.div_add_mod w (2 ^ sb)
    omega⟩
  subst hk
  rw [← Nat.mul_add_lt_is_or hs k, Nat.mul_add_div (by positivity), Nat.div_eq_of_lt hs,
    Nat.mul_div_cancel_left _ (by positivity)]
  rfl

/-- C17. Pack quantises the fraction into the mantissa field: for (bits, expbits) =
(32, 8) and (64, 11) and every finite nonzero rational `f`, the significand that
`pack754` computes is an integer in `[0, 2^significandbits)`, so that OR-ing it into
a word whose low `significandbits` bits are zero, as the shifted exponent and sign
are, leaves the exponent and sign fields unchanged. -/
theorem pack754_significand_range (p : ℕ × ℕ) (f : ℚ)
    (hp : p ∈ [((32 : ℕ), (8 : ℕ)), (64, 11)]) (hf : f ≠ 0) :
    0 ≤ pack754_significand f p.1 p.2
      ∧ pack754_significand f p.1 p.2 < 2 ^ (p.1 - p.2 - 1)
      ∧ (∀ w : ℕ, w % 2 ^ (p.1 - p.2 - 1) = 0 →
          (w ||| to_u64 (pack754_significand f p.1 p.2)) / 2 ^ (p.1 - p.2 - 1)
            = w / 2 ^ (p.1 - p.2 - 1)) := by
  obtain ⟨a, k, ha1, ha2, hfa⟩ := exists_normal_form |f| (abs_pos.mpr hf)
  have hpow : (0 : ℚ) < 2 ^ (p.1 - p.2 - 1) := by positivity
  have hy0 : 0 ≤ (a - 1) * (2 : ℚ) ^ (p.1 - p.2 - 1) := mul_nonneg (by linarith) hpow.le
  have hy1 : (a - 1) * (2 : ℚ) ^ (p.1 - p.2 - 1) < 2 ^ (p.1 - p.2 - 1) := by nlinarith
  have h0 : 0 ≤ pack754_significand f p.1 p.2 := by
    rw [pack754_significand_eq f a k p hp ha1 ha2 hfa, c_trunc_of_nonneg _ hy0]
    exact Int.floor_nonneg.mpr hy0
  have h1 : pack754_significand f p.1 p.2 < 2 ^ (p.1 - p.2 - 1) := by
    rw [pack754_significand_eq f a k p hp ha1 ha2 hfa, c_trunc_of_nonneg _ hy0, Int.floor_lt]
    push_cast
    exact hy1
  refine ⟨h0, h1, fun w hw => ?_⟩
  obtain ⟨s, hs⟩ := Int.eq_ofNat_of_zero_le h0
  rw [hs] at h1 ⊢
  have hslt : s < 2 ^ (p.1 - p.2 - 1) := by exact_mod_cast h1
  have h64 : s < 2 ^ 64 := by
    refine lt_of_lt_of_le hslt (Nat.pow_le_pow_right (by norm_num) ?_)
    simp only [List.mem_cons, List.mem_singleton, List.not_mem_nil, or_false] at hp
    rcases hp with rfl | rfl <;> norm_num
  rw [to_u64_natCast s h64]
  exact or_low_bits w s _ hw hslt

/-- Witness of `pack754_significand_range`: the value 1.5 in binary32. -/
theorem pack754_significand_range_witness :
    0 ≤ pack754_significand (3 / 2) 32 8 ∧ pack754_significand (3 / 2) 32 8 < 2 ^ (32 - 8 - 1) :=
  ⟨(pack754_significand_range (32, 8) (3 / 2) (by simp) (by norm_num)).1,
    (pack754_significand_range (32, 8) (3 / 2) (by simp) (by norm_num)).2.1⟩

/-- The sign, exponent and mantissa fields put together give the word back. -/
theorem assemble_fields (p : ℕ × ℕ) (hp : p ∈ [((32 : ℕ), (8 : ℕ)), (64, 11)]) (i : ℕ)
    (hi : i < 2 ^ p.1) :
    (i / 2 ^ (p.1 - 1) % 2 * 2 ^ (p.1 - 1)
        ||| i / 2 ^ (p.1 - p.2 - 1) % 2 ^ p.2 * 2 ^ (p.1 - p.2 - 1))
      ||| i % 2 ^ (p.1 - p.2 - 1) = i := by
  simp only [List.mem_cons, List.mem_singleton, List.not_mem_nil, or_false] at hp
  rcases hp with rfl | rfl
  · simp only [Nat.reduceSub] at hi ⊢
    have hM : i % 2 ^ 23 < 2 ^ 23 := Nat.mod_lt _ (by positivity)
    have e1 := Nat.mul_add_lt_is_or hM (i / 2 ^ 23 % 2 ^ 8)
    have hEM : 2 ^ 23 * (i / 2 ^ 23 % 2 ^ 8) + i % 2 ^ 23 < 2 ^ 31 := by omega
    have e2 := Nat.mul_add_lt_is_or hEM (i / 2 ^ 31 % 2)
    rw [Nat.lor_assoc, Nat.mul_comm _ (2 ^ 31), Nat.mul_comm _ (2 ^ 23), ← e1, ← e2]
    omega
  · simp only [Nat.reduceSub] at hi ⊢
    have hM : i % 2 ^ 52 < 2 ^ 52 := Nat.mod_lt _ (by positivity)
    have e1 := Nat.mul_add_lt_is_or hM (i / 2 ^ 52 % 2 ^ 11)
    have hEM : 2 ^ 52 * (i / 2 ^ 52 % 2 ^ 11) + i % 2 ^ 52 < 2 ^ 63 := by omega
    have e2 := Nat.mul_add_lt_is_or hEM (i / 2 ^ 63 % 2)
    rw [Nat.lor_assoc, Nat.mul_comm _ (2 ^ 63), Nat.mul_comm _ (2 ^ 52), ← e1, ← e2]
    omega

/-- `pack754` on a value `±(m / 2^sb + 1) * 2^(e - bias)` of the format. -/
theorem pack754_of_fields (p : ℕ × ℕ) (hp : p ∈ [((32 : ℕ), (8 : ℕ)), (64, 11)])
    (s e m : ℕ) (hs : s < 2) (he : e < 2 ^ p.2) (hm : m < 2 ^ (p.1 - p.2 - 1)) :
    pack754 (c_double.finite ((if s ≠ 0 then (-1 : ℚ) else 1)
        * (((m : ℚ) / 2 ^ (p.1 - p.2 - 1) + 1)
          * 2 ^ ((e : ℤ) - (2 ^ (p.2 - 1) - 1))))) p.1 p.2
      = (s * 2 ^ (p.1 - 1) ||| e * 2 ^ (p.1 - p.2 - 1)) ||| m := by
  have hmq : (m : ℚ) < 2 ^ (p.1 - p.2 - 1) := by exact_mod_cast hm
  have hfr : (m : ℚ) / 2 ^ (p.1 - p.2 - 1) < 1 := by rwa [div_lt_one (by positivity)]
  have hfr0 : (0 : ℚ) ≤ (m : ℚ) / 2 ^ (p.1 - p.2 - 1) := by positivity
  have ha1 : 1 ≤ (m : ℚ) / 2 ^ (p.1 - p.2 - 1) + 1 := by linarith
  have ha2 : (m : ℚ) / 2 ^ (p.1 - p.2 - 1) + 1 < 2 := by linarith
  generalize ha : (m : ℚ) / 2 ^ (p.1 - p.2 - 1) + 1 = a at ha1 ha2 ⊢
  generalize hk : (e : ℤ) - (2 ^ (p.2 - 1) - 1) = k
  have hpos : (0 : ℚ) < a * 2 ^ k := by positivity
  generalize hq : (if s ≠ 0 then (-1 : ℚ) else 1) * (a * 2 ^ k) = q
  have habs : |q| = a * 2 ^ k := by
    rw [← hq]
    split_ifs
    · rw [neg_one_mul, abs_neg, abs_of_pos hpos]
    · rw [one_mul, abs_of_pos hpos]
  have hq0 : q ≠ 0 := by
    intro h
    rw [h, abs_zero] at habs
    linarith
  have hsign : (if q < 0 then (1 : ℤ) else 0) = (s : ℤ) := by
    rw [← hq]
    by_cases h0 : s = 0
    · subst h0
      simp [not_lt.mpr hpos.le]
    · have h1 : s = 1 := by omega
      subst h1
      simp [hpos]
  have hsig : pack754_significand q p.1 p.2 = (m : ℤ) := by
    rw [pack754_significand_eq q a k p hp ha1 ha2 habs, ← ha]
    exact trunc_mantissa m _
  obtain ⟨-, -, -, -, -, -, -, hb64, hb1⟩ := format_constants p hp
  have hexp : pack754_exp q p.2 = (e : ℤ) := by
    rw [pack754_exp_eq q a k p.2 ha1 ha2 habs, ← hk, Nat.shiftLeft_eq, one_mul]
    push_cast
    ring
  unfold pack754
  simp only [hq0, if_false, hsign, hsig, hexp]
  have hlt : p.1 - 1 < 64 ∧ p.1 - p.2 - 1 + p.2 < 64 := by
    simp only [List.mem_cons, List.mem_singleton, List.not_mem_nil, or_false] at hp
    rcases hp with rfl | rfl <;> decide
  have h1 : ((s : ℤ) * 2 ^ (p.1 - 1)) = ((s * 2 ^ (p.1 - 1) : ℕ) : ℤ) := by push_cast; rfl
  have h2 : ((e : ℤ) * 2 ^ (p.1 - p.2 - 1)) = ((e * 2 ^ (p.1 - p.2 - 1) : ℕ) : ℤ) := by
    push_cast; rfl
  have b1 : s * 2 ^ (p.1 - 1) < 2 ^ 64 :=
    calc s * 2 ^ (p.1 - 1) < 2 * 2 ^ (p.1 - 1) := Nat.mul_lt_mul_of_pos_right hs (by positivity)
      _ = 2 ^ (p.1 - 1 + 1) := by rw [pow_succ]; ring
      _ ≤ 2 ^ 64 := Nat.pow_le_pow_right (by norm_num) (by omega)
  have b2 : e * 2 ^ (p.1 - p.2 - 1) < 2 ^ 64 :=
    calc e * 2 ^ (p.1 - p.2 - 1) < 2 ^ p.2 * 2 ^ (p.1 - p.2 - 1) :=
          Nat.mul_lt_mul_of_pos_right he (by positivity)
      _ = 2 ^ (p.2 + (p.1 - p.2 - 1)) := (pow_add 2 _ _).symm
      _ ≤ 2 ^ 64 := Nat.pow_le_pow_right (by norm_num) (by omega)
  have b3 : m < 2 ^ 64 :=
    lt_of_lt_of_le hm (Nat.pow_le_pow_right (by norm_num) (by omega))
  rw [h1, h2, to_u64_natCast _ b1, to_u64_natCast _ b2, to_u64_natCast _ b3]

/-- C16. Pack undoes unpack on normal numbers: for (bits, expbits) = (32, 8) and
(64, 11) and a `bits`-wide word `i` whose exponent field is neither all zeros nor all
ones, `pack754 (unpack754 (i))` is `i`: the normalisation loops recover the exponent,
the quantised significand is the mantissa field and the sign bit is restored. -/
theorem pack_unpack_normal (p : ℕ × ℕ) (i : ℕ) (hp : p ∈ [((32 : ℕ), (8 : ℕ)), (64, 11)])
    (hi : i < 2 ^ p.1) (he0 : i / 2 ^ (p.1 - p.2 - 1) % 2 ^ p.2 ≠ 0)
    (he1 : i / 2 ^ (p.1 - p.2 - 1) % 2 ^ p.2 ≠ 2 ^ p.2 - 1) :
    pack754 (unpack754 i p.1 p.2) p.1 p.2 = i := by
  have hi0 : i ≠ 0 := by
    rintro rfl
    simp at he0
  have hfin : unpack754 i p.1 p.2 = c_double.finite
      ((if i / 2 ^ (p.1 - 1) % 2 ≠ 0 then (-1 : ℚ) else 1)
        * ((((i % 2 ^ (p.1 - p.2 - 1) : ℕ) : ℚ) / 2 ^ (p.1 - p.2 - 1) + 1)
          * 2 ^ (((i / 2 ^ (p.1 - p.2 - 1) % 2 ^ p.2 : ℕ) : ℤ) - (2 ^ (p.2 - 1) - 1)))) := by
    rw [unpack754_eq p hp i, if_neg hi0, if_neg he1, unpack754_exact p hp i (Or.inr (Or.inl he0))]
    split_ifs
    · rw [neg_one_mul]
    · rw [one_mul]
  rw [hfin, pack754_of_fields p hp _ _ _ (Nat.mod_lt _ (by norm_num))
    (Nat.mod_lt _ (by positivity)) (Nat.mod_lt _ (by positivity))]
  exact assemble_fields p hp i hi

/-- Witness of `pack_unpack_normal`: the word of 1.0 in binary32. -/
theorem pack_unpack_normal_witness :
    pack754 (unpack754 0x3F800000 32 8) 32 8 = 0x3F800000 :=
  pack_unpack_normal (32, 8) 0x3F800000 (by simp) (by norm_num) (by norm_num) (by norm_num)

/-! ## Theorems: state effect of the encoder -/

/-- C21, as stated, fails: the unsigned 8-bit signal with scaling 3, offset 0 and
bounds 0 and 100 has an active upper bound; the generated encoder accepts the input
3, whose scaled value `(3 - 0) / 3` is 1, and stores 0, because the generator prints
`1/3` as `0.333333` and the assignment truncates. -/
theorem encode_stores_not_scaled :
    signal2scaling_encode ⟨0, 8, .endianess_intel_e, false, false, 3, 0, 0, 100⟩ false 7 3
        = some ⟨0, 0⟩ ∧
      ((3 : ℚ) - (⟨0, 8, .endianess_intel_e, false, false, 3, 0, 0, 100⟩ : signal_t).offset)
        / (⟨0, 8, .endianess_intel_e, false, false, 3, 0, 0, 100⟩ : signal_t).scaling = 1 ∧
      (⟨0, 8, .endianess_intel_e, false, false, 3, 0, 0, 100⟩ : signal_t).minimum
        ≠ (⟨0, 8, .endianess_intel_e, false, false, 3, 0, 0, 100⟩ : signal_t).maximum ∧
      spec_upper_active ⟨0, 8, .endianess_intel_e, false, false, 3, 0, 0, 100⟩ :=
  ⟨encode_scaling_three 7, by norm_num, by norm_num, by norm_num [spec_upper_active]⟩

/-- C21, amended. State effect of the generated encoder, for a signal with nonzero
scaling, any value `old` of the member before the call and an input `v` of the
parameter's type: it returns -1 or 0; whenever it rejects, the member is 0, and it
rejects only when `minimum` and `maximum` differ and at least one bound is active
(its test is printed), in which case 0 is assigned before the tests; whenever it
accepts, the member is overwritten, whatever it held, with the value that the printed
statements `in += -offset; in *= 1/scaling;` leave in `in` (constants as `%g` prints
them, `float` arithmetic), truncated toward zero for an integer signal and converted
to `float` or `double` for a floating one, which is `(v - offset) / scaling` truncated
toward zero (itself on a floating signal) when the printed constants are exact and
the two results are values of `float`; and with no active bound it never rejects.  A
bound of an integer signal of length 1..64 is active exactly under the conditions of
section 4.4, and the upper bound of a floating signal is always active. -/
theorem encode_state_effect (sig : signal_t) (ud : Bool) (old v : ℚ) (r : encode_result)
    (h : signal2scaling_encode sig ud old v = some r) :
    (r.ret = -1 ∨ r.ret = 0)
      ∧ (r.ret = -1 → r.stored = 0 ∧
          sig.minimum ≠ sig.maximum ∧ (gmin sig = true ∨ gmax sig = true))
      ∧ (r.ret = 0 →
          (sig.is_floating = false → r.stored = (c_trunc (encode_arith sig v) : ℚ)) ∧
          (sig.is_floating = true → sig.bit_length ≠ 64 →
            r.stored = round_float (encode_arith sig v)) ∧
          (sig.is_floating = true → sig.bit_length = 64 →
            r.stored = round_double (encode_arith sig v)) ∧
          ∀ old2, signal2scaling_encode sig ud old2 v = some r)
      ∧ (¬ (sig.minimum ≠ sig.maximum ∧ (gmin sig = true ∨ gmax sig = true)) → r.ret = 0)
      ∧ ((sig.offset ≠ 0 → c_const (-1 * sig.offset) = -sig.offset ∧
            ctype.holds ctype.float (v - sig.offset) = true) →
          (sig.scaling ≠ 1 → c_const (round_double (1 / sig.scaling)) = 1 / sig.scaling ∧
            ctype.holds ctype.float ((v - sig.offset) / sig.scaling) = true) →
          (sig.is_floating = true →
            (member_type sig).holds ((v - sig.offset) / sig.scaling) = true) →
          r.ret = 0 →
          r.stored = if sig.is_floating then (v - sig.offset) / sig.scaling
            else (c_trunc ((v - sig.offset) / sig.scaling) : ℚ))
      ∧ (sig.is_floating = false → 1 ≤ sig.bit_length → sig.bit_length ≤ 64 →
          (gmin sig = true ↔ spec_lower_active sig) ∧
          (gmax sig = true ↔ spec_upper_active sig))
      ∧ (sig.is_floating = true → gmax sig = true) := by
  obtain ⟨hs, hv⟩ := encode_some sig ud old v r h
  obtain ⟨hrej, hrej2⟩ := encode_rejects_iff sig ud old v hs hv
  have hcases := encode_ret_cases sig ud old v r h
  have hflags : r.ret = -1 → r.stored = 0 ∧
      sig.minimum ≠ sig.maximum ∧ (gmin sig = true ∨ gmax sig = true) := by
    intro h1
    have hcond := hrej.mp ⟨r, h, h1⟩
    have hval := hrej2 hcond
    rw [h, Option.some_inj] at hval
    refine ⟨by rw [hval], hcond.1, hcond.2.imp (fun x => x.1) (fun x => x.1)⟩
  refine ⟨hcases, hflags, ?_, ?_, ?_, fun hf h1 h64 => ⟨gmin_iff sig h1 h64,
    gmax_iff sig hf h1 h64⟩, fun hf => ?_⟩
  · intro h0
    obtain ⟨hst, hov⟩ := encode_stored sig ud old v r h h0
    obtain ⟨hv1, hv2, hv3⟩ := encode_stored_value sig ud old v r h h0
    refine ⟨hv1, hv2, hv3, fun old2 => ?_⟩
    have hno : ¬ (sig.minimum ≠ sig.maximum ∧
        ((gmin sig = true ∧ c_lt (scaling_io_type sig ud) v sig.minimum = true)
          ∨ (gmax sig = true ∧ c_gt (scaling_io_type sig ud) v sig.maximum = true))) := by
      intro hc
      have hval := hrej2 hc
      rw [h, Option.some_inj] at hval
      rw [hval] at h0
      exact absurd h0 (by norm_num)
    have := encode_accepts sig ud old2 v r.stored hs hv hno hov hst
    rw [this]
    congr 1
    cases r
    simp only at h0
    rw [h0]
  · intro hno
    rcases hcases with h1 | h1
    · exact absurd (hflags h1).2 hno
    · exact h1
  · intro hoff hscl hmem h0
    exact encode_stored_exact sig ud old v hoff hscl hmem r h h0
  · unfold gmax
    simp [hf]

/-- Witness of `encode_state_effect`: the unsigned 8-bit signal with bounds 0 and
100, whose member holds 7, rejects 150 and leaves 0 in the member; its upper bound
is active. -/
theorem encode_state_effect_witness :
    signal2scaling_encode ⟨0, 8, .endianess_intel_e, false, false, 1, 0, 0, 100⟩ false 7 150
        = some ⟨-1, 0⟩ ∧
      ((⟨-1, 0⟩ : encode_result).stored = 0 ∧
        (⟨0, 8, .endianess_intel_e, false, false, 1, 0, 0, 100⟩ : signal_t).minimum
          ≠ (⟨0, 8, .endianess_intel_e, false, false, 1, 0, 0, 100⟩ : signal_t).maximum ∧
        (gmin ⟨0, 8, .endianess_intel_e, false, false, 1, 0, 0, 100⟩ = true ∨
          gmax ⟨0, 8, .endianess_intel_e, false, false, 1, 0, 0, 100⟩ = true)) :=
  ⟨(example_range_encode 0 7).2,
    (encode_state_effect ⟨0, 8, .endianess_intel_e, false, false, 1, 0, 0, 100⟩ false 7 150
      ⟨-1, 0⟩ (example_range_encode 0 7).2).2.1 rfl⟩

end Dbcc
